import Mathlib

/-! # Directory-change watch service: the two Windows back ends

A shallow embedding of `bee/filewatch/filewatch_win.cpp` (the poll-driven back end) and of
`bee/fsevent/fsevent_win.cpp` (the callback-driven back end), followed by the function
`needsnolookup` of `bee/net/endpoint.cpp`.

Conventions of the embedding.

* Every C++ member function becomes a function on explicit state.  A `task` method that
  reaches into its owning service (through `push_notify`, `removetask`) takes and returns the
  `watch` as well.
* What the operating system answers (does `CreateFileW` succeed, which bytes does a completed
  read deliver, ...) is an explicit argument of the function that asks.
* Requests made to the operating system are recorded in the ghost field `os_trace`; a failed
  `assert` is recorded in the ghost field `assert_failed` and execution goes on as in a build
  with `NDEBUG`; a memory access outside an array is recorded in `out_of_bounds`.
* The ghost field `pending` of a task counts the asynchronous reads that were accepted by the
  operating system and whose completion has not been handed to the task yet.
-/

namespace bee

/-! ## Types and constants shared by both back ends -/

/-- Task identifiers: a machine integer, embedded as an integer together with the range
`taskid_min .. taskid_max` of the `platform`. -/
abbrev taskid := Int

/-- A wide string, as its list of UTF-16 code units. -/
abbrev wstring := List Nat

/-- An operating-system handle; `INVALID_HANDLE_VALUE` is `none` of `Option HANDLE`. -/
abbrev HANDLE := Nat

/-- An unsigned 32-bit quantity. -/
abbrev DWORD := Nat

/-- The wide-string literal with the characters of `s`. -/
def L (s : String) : wstring := s.toList.map Char.toNat

/-- Modelled from the spec: the headers `filewatch_win.h` and `fsevent_win.h`, which declare
`taskid` and `kInvalidTaskId`, are not among the sources, and `operator/` of
`std::filesystem::path` is library code.  They are parameters of the embedding: the sentinel id,
the value range of the id type, and the path concatenation. -/
structure platform where
  kInvalidTaskId : taskid
  taskid_min : taskid
  taskid_max : taskid
  path_join : wstring → wstring → wstring

/-- The pre-increment `++x` on the id type; past `taskid_max` the value wraps around. -/
def platform.incr (P : platform) (x : taskid) : taskid :=
  if x < P.taskid_max then x + 1 else P.taskid_min

/-- Modelled from the spec: the enumeration `tasktype` of the missing headers, with the kinds the
spec lists (section 3, Notification). -/
inductive tasktype where
  | Error
  | Create
  | Delete
  | Modify
  | Rename
  | TaskAdd
  | TaskRemove
  | TaskTerminate
deriving DecidableEq, Repr

/-- Modelled from the spec: the struct `notify` of the missing headers, a kind and a message. -/
structure notify where
  m_type : tasktype
  m_message : wstring
deriving DecidableEq, Repr

/-- Requests to the operating system that the properties below speak about, as far as they name
a valid handle. -/
inductive oscall where
  | CreateFileW (path : wstring)
  | ReadDirectoryChangesW (h : HANDLE)
  | CancelIo (h : HANDLE)
  | CloseHandle (h : HANDLE)
  | QueueUserAPC
deriving DecidableEq, Repr

/-- The constant `task::kBufSize`. -/
def kBufSize : Nat := 16 * 1024

def FILE_ACTION_ADDED : DWORD := 1
def FILE_ACTION_REMOVED : DWORD := 2
def FILE_ACTION_MODIFIED : DWORD := 3
def FILE_ACTION_RENAMED_OLD_NAME : DWORD := 4
def FILE_ACTION_RENAMED_NEW_NAME : DWORD := 5
def ERROR_OPERATION_ABORTED : DWORD := 995
def ERROR_IO_INCOMPLETE : DWORD := 996

/-- The value of `offsetof(FILE_NOTIFY_INFORMATION, FileName)`. -/
def kNameOffset : Nat := 12

/-- The value of `sizeof(WCHAR)`. -/
def kWcharSize : Nat := 2

/-! ## Byte buffers

A buffer is the list of its bytes; a position the list does not reach holds zero.  The arrays of
the source have `kBufSize` bytes, and that bound (not the length of the list) decides whether an
access is inside the array: what a list holds from index `kBufSize` on stands for the memory
behind the array. -/

/-- The byte at index `i`. -/
def byte_at (buf : List Nat) (i : Nat) : Nat := buf.getD i 0 % 256

/-- A little-endian 32-bit field at byte offset `off`. -/
def dword_at (buf : List Nat) (off : Nat) : DWORD :=
  byte_at buf off + 256 * byte_at buf (off + 1) + 65536 * byte_at buf (off + 2)
    + 16777216 * byte_at buf (off + 3)

/-- A little-endian UTF-16 code unit at byte offset `off`. -/
def wchar_at (buf : List Nat) (off : Nat) : Nat :=
  byte_at buf off + 256 * byte_at buf (off + 1)

/-- Field `NextEntryOffset` of the `FILE_NOTIFY_INFORMATION` at `off`. -/
def NextEntryOffset (buf : List Nat) (off : Nat) : DWORD := dword_at buf off

/-- Field `Action` of the `FILE_NOTIFY_INFORMATION` at `off`. -/
def Action (buf : List Nat) (off : Nat) : DWORD := dword_at buf (off + 4)

/-- Field `FileNameLength` (a byte count) of the `FILE_NOTIFY_INFORMATION` at `off`. -/
def FileNameLength (buf : List Nat) (off : Nat) : DWORD := dword_at buf (off + 8)

/-- The string `std::wstring(fni.FileName, fni.FileNameLength / sizeof(wchar_t))`. -/
def FileName (buf : List Nat) (off : Nat) : wstring :=
  (List.range (FileNameLength buf off / kWcharSize)).map
    (fun k => wchar_at buf (off + kNameOffset + kWcharSize * k))

/-- One past the last byte that decoding the record at `off` reads. -/
def record_end (buf : List Nat) (off : Nat) : Nat :=
  off + kNameOffset + kWcharSize * (FileNameLength buf off / kWcharSize)

/-- The call `memcpy(dst, src, n)`: the first `n` bytes of `dst` are replaced by those of `src`. -/
def memcpy : Nat → List Nat → List Nat → List Nat
  | 0, dst, _ => dst
  | n + 1, dst, src => src.headD 0 :: memcpy n dst.tail src.tail

/-- What one run of the record loop did: the notifications it pushed, in order; the byte ranges
`(first, one past last)` of the records it read; whether `assert(false)` was reached; whether a
record it read lay, in part or as a whole, outside the array; whether the loop was still running
when the fuel of the embedding was used up. -/
structure decoded where
  notes : List notify
  reads : List (Nat × Nat)
  assert_failed : Bool
  out_of_bounds : Bool
  out_of_fuel : Bool
deriving DecidableEq, Repr

/-- The loop `for (;;) { ... }` at the end of `task::event_cb` and of `task::changes_cb`.  The two
loops differ only in their `switch`, which is the argument `kind` (`none` is the `default:`
branch).  `dir` is `m_path`, `buf` is `m_bakbuffer` with the memory behind it, `off` is
`data - m_bakbuffer.data()`.  The loop compares `data` with nothing: it ends at a record whose
`NextEntryOffset` is zero, wherever that record lies. -/
def record_loop (P : platform) (kind : DWORD → Option tasktype) (dir : wstring)
    (buf : List Nat) : Nat → Nat → decoded
  | 0, _ => ⟨[], [], false, false, true⟩
  | fuel + 1, off =>
    let path := FileName buf off
    let here : List notify :=
      match kind (Action buf off) with
      | some ty => [⟨ty, P.path_join dir path⟩]
      | none => []
    let failed : Bool := (kind (Action buf off)).isNone
    let outside : Bool := decide (kBufSize < record_end buf off)
    if NextEntryOffset buf off = 0 then
      ⟨here, [(off, record_end buf off)], failed, outside, false⟩
    else
      let r := record_loop P kind dir buf fuel (off + NextEntryOffset buf off)
      ⟨here ++ r.notes, (off, record_end buf off) :: r.reads, failed || r.assert_failed,
        outside || r.out_of_bounds, r.out_of_fuel⟩

/-- A well-formed chain, in the words of the specification: the bytes of `buf` hold, from offset
`off` on, a chain of records that lies inside the first `n` bytes, each record but the last with
a non-zero `NextEntryOffset`; `recs` lists the action code and the file name of each record, in
order. -/
inductive chain (buf : List Nat) (n : Nat) : Nat → List (DWORD × wstring) → Prop where
  | last (off : Nat) :
      record_end buf off ≤ n → NextEntryOffset buf off = 0 →
      chain buf n off [(Action buf off, FileName buf off)]
  | next (off : Nat) (rest : List (DWORD × wstring)) :
      record_end buf off ≤ n → NextEntryOffset buf off ≠ 0 →
      chain buf n (off + NextEntryOffset buf off) rest →
      chain buf n off ((Action buf off, FileName buf off) :: rest)

/-- What the environment answers when a task opens its directory: the absolute form of a path
(`none`: `std::filesystem::absolute` reports an error), the handle (`none`: `CreateFileW` returns
`INVALID_HANDLE_VALUE`), and the text of the error message. -/
structure open_env where
  absolute : wstring → Option wstring
  create_file : Option HANDLE
  message : wstring

/-- What the environment answers when a task arms a read: whether `ResetEvent` succeeds (asked
by the poll-driven back end only), whether `ReadDirectoryChangesW` accepts the request on a valid
handle, and the text of the error message. -/
structure start_env where
  reset_event : Bool
  read_changes : Bool
  message : wstring

/-! ## The poll-driven back end, `bee::win::filewatch` -/

namespace filewatch

/-- The class `task`.  The back pointer `m_watch` is never null (every task is made by
`watch::apc_add` with `this`) and is left out; the `OVERLAPPED` base is represented by the ghost
field `pending`. -/
structure task where
  m_id : taskid
  m_path : wstring
  m_directory : Option HANDLE
  m_buffer : List Nat
  m_bakbuffer : List Nat
  pending : Nat
deriving DecidableEq, Repr

/-- The class `watch`, with the ghost fields of the embedding.  `m_tasks` is the map from id to
task, kept in key order; `m_notify` is the queue, oldest notification first. -/
structure watch where
  m_notify : List notify
  m_gentask : taskid
  m_tasks : List (taskid × task)
  m_terminate : Bool
  os_trace : List oscall
  assert_failed : Bool
  out_of_bounds : Bool
deriving DecidableEq, Repr

/-- The lookup `m_tasks.find(id)`. -/
def find (m : List (taskid × task)) (id : taskid) : Option task := m.lookup id

/-- The call `m_tasks.erase(it)` for the entry with key `id`. -/
def erase (m : List (taskid × task)) (id : taskid) : List (taskid × task) :=
  m.filter (fun kv => kv.1 ≠ id)

/-- The call `m_tasks.emplace(std::make_pair(id, t))`: an existing key is kept. -/
def emplace : List (taskid × task) → taskid → task → List (taskid × task)
  | [], id, t => [(id, t)]
  | (k, v) :: rest, id, t =>
    if id < k then (id, t) :: (k, v) :: rest
    else if id = k then (k, v) :: rest
    else (k, v) :: emplace rest id t

/-- The entry with key `id`, if there is one, now holds the task `t`: how a change made to a
registered task through its pointer shows in the registry. -/
def assign (m : List (taskid × task)) (id : taskid) (t : task) : List (taskid × task) :=
  m.map (fun kv => if kv.1 = id then (kv.1, t) else kv)

/-- A statement `assert(c)`. -/
def watch.check (w : watch) (c : Bool) : watch :=
  { w with assert_failed := w.assert_failed || !c }

/-- Record requests made to the operating system. -/
def watch.sys (w : watch) (calls : List oscall) : watch :=
  { w with os_trace := w.os_trace ++ calls }

/-- The constructor `task::task(watch, id)`; `buf` and `bak` are the contents the two arrays
happen to have, the constructor does not initialise them. -/
def task.create (id : taskid) (buf bak : List Nat) : task :=
  { m_id := id, m_path := [], m_directory := none, m_buffer := buf, m_bakbuffer := bak,
    pending := 0 }

/-- The destructor `task::~task`. -/
def task.destroy (t : task) (w : watch) : watch :=
  w.check t.m_directory.isNone

/-- The method `task::push_notify`, acting on the queue of the owning service. -/
def push_notify (w : watch) (type : tasktype) (message : wstring) : watch :=
  { w with m_notify := w.m_notify ++ [⟨type, message⟩] }

/-- The method `task::open`. -/
def task.open (t : task) (w : watch) (path : wstring) (e : open_env) : Bool × task × watch :=
  if t.m_directory.isSome then (true, t, w)
  else
    match e.absolute path with
    | none =>
      (false, { t with m_path := [] },
        push_notify w tasktype.Error (L "`std::filesystem::absolute` failed: " ++ e.message))
    | some p =>
      let t1 := { t with m_path := p }
      let w1 := w.sys [oscall.CreateFileW p]
      match e.create_file with
      | none => (false, t1, push_notify w1 tasktype.Error e.message)
      | some h => (true, { t1 with m_directory := some h }, w1)

/-- The method `task::cancel`; the second component lists the requests it made. -/
def task.cancel (t : task) : task × List oscall :=
  match t.m_directory with
  | some h => ({ t with m_directory := none }, [oscall.CancelIo h, oscall.CloseHandle h])
  | none => (t, [])

/-- The method `task::getid`. -/
def task.getid (t : task) : taskid := t.m_id

/-- The method `watch::removetask`.  The entry found is the one that owns `t`, and erasing it
destroys `t`. -/
def watch.removetask (w : watch) (t : task) : watch :=
  match find w.m_tasks t.getid with
  | some _ => t.destroy { w with m_tasks := erase w.m_tasks t.getid }
  | none => w

/-- The method `task::remove`. -/
def task.remove (t : task) (w : watch) : task × watch :=
  let c := t.cancel
  (c.1, (w.sys c.2).removetask c.1)

/-- The method `task::start`. -/
def task.start (t : task) (w : watch) (e : start_env) : Bool × task × watch :=
  match t.m_directory with
  | none => (false, t, w)
  | some h =>
    if !e.reset_event then (false, t, w)
    else if !e.read_changes then
      (false, { t with m_directory := none },
        push_notify (w.sys [oscall.ReadDirectoryChangesW h, oscall.CloseHandle h])
          tasktype.Error e.message)
    else
      (true, { t with pending := t.pending + 1 }, w.sys [oscall.ReadDirectoryChangesW h])

/-- The `switch (fni.Action)` of `task::event_cb`. -/
def action_type (a : DWORD) : Option tasktype :=
  if a = FILE_ACTION_MODIFIED then some tasktype.Modify
  else if a = FILE_ACTION_ADDED ∨ a = FILE_ACTION_REMOVED ∨ a = FILE_ACTION_RENAMED_OLD_NAME
      ∨ a = FILE_ACTION_RENAMED_NEW_NAME then some tasktype.Rename
  else none

/-- The decimal rendering `std::format(L"{}", id)`. -/
def format_id (id : taskid) : wstring := L (toString id)

/-- The method `task::event_cb`. -/
def task.event_cb (P : platform) (t : task) (w : watch) (dwErrorCode : DWORD)
    (dwNumberOfBytesTransfered : DWORD) (e : start_env) : Bool × task × watch :=
  if dwErrorCode ≠ 0 then
    (false, t, push_notify w tasktype.TaskRemove (format_id t.m_id))
  else if dwNumberOfBytesTransfered = 0 then
    (true, t, w)
  else
    let w1 := w.check (decide (kNameOffset + kWcharSize ≤ dwNumberOfBytesTransfered))
    let w2 := w1.check (decide (dwNumberOfBytesTransfered ≤ kBufSize))
    let t1 := { t with m_bakbuffer := memcpy dwNumberOfBytesTransfered t.m_bakbuffer t.m_buffer }
    let w3 : watch :=
      { w2 with out_of_bounds := w2.out_of_bounds || decide (kBufSize < dwNumberOfBytesTransfered) }
    let s := t1.start w3 e
    let d := record_loop P action_type s.2.1.m_path s.2.1.m_bakbuffer (kBufSize + 1) 0
    let w4 : watch :=
      { s.2.2 with
        m_notify := s.2.2.m_notify ++ d.notes
        assert_failed := s.2.2.assert_failed || d.assert_failed
        out_of_bounds := s.2.2.out_of_bounds || d.out_of_bounds }
    (true, s.2.1, w4)

/-- What the environment answers to one `task::update`: the result of `GetOverlappedResult`, the
value of `GetLastError()`, the byte count, the bytes the completed read stored at the start of the
primary buffer, and the answers for the read that `event_cb` arms. -/
structure poll_env where
  ok : Bool
  last_error : DWORD
  bytes : DWORD
  data : List Nat
  start : start_env

/-- The method `task::update`.  When the read has completed, its data are in `m_buffer` and it is
no longer outstanding. -/
def task.update (P : platform) (t : task) (w : watch) (e : poll_env) : Bool × task × watch :=
  if !e.ok && e.last_error = ERROR_IO_INCOMPLETE then (true, t, w)
  else
    let t1 := { t with m_buffer := memcpy e.data.length t.m_buffer e.data,
                       pending := t.pending - 1 }
    t1.event_cb P w e.last_error e.bytes e.start

/-- The constructor `watch::watch`. -/
def watch.init (P : platform) : watch :=
  { m_notify := [], m_gentask := P.kInvalidTaskId, m_tasks := [], m_terminate := false,
    os_trace := [], assert_failed := false, out_of_bounds := false }

/-- What the environment answers during one `watch::apc_add`. -/
structure add_env where
  buf : List Nat
  bak : List Nat
  opening : open_env
  start : start_env

/-- The method `watch::apc_add`; on the two early returns the task is destroyed, and so it is
when `emplace` finds the id in the registry already and does not take the pair. -/
def watch.apc_add (w : watch) (id : taskid) (path : wstring) (e : add_env) : watch :=
  let t := task.create id e.buf e.bak
  let o := t.open w path e.opening
  if !o.1 then o.2.1.destroy o.2.2
  else
    let s := o.2.1.start o.2.2 e.start
    if !s.1 then s.2.1.destroy s.2.2
    else if (find s.2.2.m_tasks id).isSome then s.2.1.destroy s.2.2
    else { s.2.2 with m_tasks := emplace s.2.2.m_tasks id s.2.1 }

/-- The loop `it->second->cancel()` over a registry, with the requests made. -/
def cancel_each : List (taskid × task) → List (taskid × task) × List oscall
  | [] => ([], [])
  | (k, t) :: rest =>
    let c := t.cancel
    let r := cancel_each rest
    ((k, c.1) :: r.1, c.2 ++ r.2)

/-- The method `watch::apc_remove`. -/
def watch.apc_remove (w : watch) (id : taskid) : watch :=
  match find w.m_tasks id with
  | some t =>
    { w with m_tasks := assign w.m_tasks id t.cancel.1, os_trace := w.os_trace ++ t.cancel.2 }
  | none => w

/-- The method `watch::apc_terminate`. -/
def watch.apc_terminate (w : watch) : watch :=
  let w1 := { w with m_terminate := true }
  if w1.m_tasks.isEmpty then w1
  else
    let r := cancel_each w1.m_tasks
    { w1 with m_tasks := r.1, os_trace := w1.os_trace ++ r.2 }

/-- The loop of `watch::update` over the entries of the registry: a task whose `update` returns
false is erased, and with that destroyed. -/
def update_each (P : platform) (env : taskid → poll_env) :
    List (taskid × task) → watch → List (taskid × task) × watch
  | [], w => ([], w)
  | (k, t) :: rest, w =>
    let u := t.update P w (env k)
    if u.1 then
      let r := update_each P env rest u.2.2
      ((k, u.2.1) :: r.1, r.2)
    else
      update_each P env rest (u.2.1.destroy u.2.2)

/-- The method `watch::update`. -/
def watch.update (P : platform) (w : watch) (env : taskid → poll_env) : watch :=
  let r := update_each P env w.m_tasks w
  { r.2 with m_tasks := r.1 }

/-- The method `watch::select`: the notification popped, if any, and the new state. -/
def watch.select (P : platform) (w : watch) (env : taskid → poll_env) : Option notify × watch :=
  let w1 := w.update P env
  match w1.m_notify with
  | [] => (none, w1)
  | n :: rest => (some n, { w1 with m_notify := rest })

/-- The method `watch::stop`. -/
def watch.stop (w : watch) : watch :=
  push_notify w.apc_terminate tasktype.TaskTerminate (L "")

/-- The method `watch::add`; `path` is its argument. -/
def watch.add (P : platform) (w : watch) (path : wstring) (e : add_env) : taskid × watch :=
  let id := P.incr w.m_gentask
  let w1 := { w with m_gentask := id }
  let w2 := w1.apc_add id path e
  (id, push_notify w2 tasktype.TaskAdd (L "(" ++ format_id id ++ L ")" ++ path))

/-- The method `watch::remove`. -/
def watch.remove (w : watch) (id : taskid) : Bool × watch :=
  (true, w.apc_remove id)

/-- The destructor `watch::~watch`, up to its assertion. -/
def watch.destroy (w : watch) : watch :=
  let w1 := w.stop
  w1.check w1.m_tasks.isEmpty

/-- A call of the public interface, with what the environment answers during the call. -/
inductive call where
  | add (path : wstring) (e : add_env)
  | remove (id : taskid)
  | stop
  | select (env : taskid → poll_env)

/-- A state after one public call. -/
def step (P : platform) (w : watch) : call → watch
  | call.add path e => (w.add P path e).2
  | call.remove id => (w.remove id).2
  | call.stop => w.stop
  | call.select env => (w.select P env).2

/-- The state after a sequence of public calls. -/
def run (P : platform) (w : watch) (cs : List call) : watch :=
  cs.foldl (step P) w

/-- The ids returned by the calls of `add` in a sequence of public calls, in call order. -/
def returned_ids (P : platform) : watch → List call → List taskid
  | _, [] => []
  | w, call.add path e :: cs => (w.add P path e).1 :: returned_ids P (w.add P path e).2 cs
  | w, c :: cs => returned_ids P (step P w c) cs

/-- The number of calls of `add` in a sequence of public calls. -/
def adds : List call → Nat
  | [] => 0
  | call.add _ _ :: cs => adds cs + 1
  | _ :: cs => adds cs

end filewatch

/-! ## The callback-driven back end, `bee::win::fsevent` -/

namespace fsevent

/-- The class `task`; see `filewatch.task` for what is left out. -/
structure task where
  m_id : taskid
  m_path : wstring
  m_directory : Option HANDLE
  m_buffer : List Nat
  m_bakbuffer : List Nat
  pending : Nat
deriving DecidableEq, Repr

/-- Modelled from the spec: the enumeration `apc_arg::type` of the missing header, the three
control commands. -/
inductive apc_type where
  | Add
  | Remove
  | Terminate
deriving DecidableEq, Repr

/-- Modelled from the spec: the struct `apc_arg` of the missing header; a member that the
initialiser list of a `push` does not name is value-initialised. -/
structure apc_arg where
  m_type : apc_type
  m_id : taskid
  m_path : wstring
deriving DecidableEq, Repr

/-- The object `std::thread` behind `m_thread`. -/
structure thread where
  joinable : Bool
deriving DecidableEq, Repr

/-- The class `watch`, with the ghost fields of the embedding.  `m_apc_queue` and `m_notify` are
queues, oldest element first.  Ghost: `apc_pending` counts the calls of `filewatch_apc_cb` that
`QueueUserAPC` has queued and that have not run; `worker` says that a worker thread exists and
has not returned from `thread_cb`. -/
structure watch where
  m_thread : Option thread
  m_apc_queue : List apc_arg
  m_tasks : List (taskid × task)
  m_notify : List notify
  m_terminate : Bool
  m_gentask : taskid
  os_trace : List oscall
  assert_failed : Bool
  out_of_bounds : Bool
  apc_pending : Nat
  worker : Bool
deriving DecidableEq, Repr

/-- The lookup `m_tasks.find(id)`. -/
def find (m : List (taskid × task)) (id : taskid) : Option task := m.lookup id

/-- The call `m_tasks.erase(it)` for the entry with key `id`. -/
def erase (m : List (taskid × task)) (id : taskid) : List (taskid × task) :=
  m.filter (fun kv => kv.1 ≠ id)

/-- The call `m_tasks.insert(std::make_pair(id, t))`: an existing key is kept. -/
def insert : List (taskid × task) → taskid → task → List (taskid × task)
  | [], id, t => [(id, t)]
  | (k, v) :: rest, id, t =>
    if id < k then (id, t) :: (k, v) :: rest
    else if id = k then (k, v) :: rest
    else (k, v) :: insert rest id t

/-- The entry with key `id`, if there is one, now holds the task `t`: how a change made to a
registered task through its pointer shows in the registry. -/
def assign (m : List (taskid × task)) (id : taskid) (t : task) : List (taskid × task) :=
  m.map (fun kv => if kv.1 = id then (kv.1, t) else kv)

/-- A statement `assert(c)`. -/
def watch.check (w : watch) (c : Bool) : watch :=
  { w with assert_failed := w.assert_failed || !c }

/-- Record requests made to the operating system. -/
def watch.sys (w : watch) (calls : List oscall) : watch :=
  { w with os_trace := w.os_trace ++ calls }

/-- The constructor `task::task(watch, id)`; `buf` and `bak` are the contents the two arrays
happen to have, the constructor does not initialise them. -/
def task.create (id : taskid) (buf bak : List Nat) : task :=
  { m_id := id, m_path := [], m_directory := none, m_buffer := buf, m_bakbuffer := bak,
    pending := 0 }

/-- The destructor `task::~task`. -/
def task.destroy (t : task) (w : watch) : watch :=
  w.check t.m_directory.isNone

/-- The method `task::push_notify`, acting on the queue of the owning service. -/
def push_notify (w : watch) (type : tasktype) (message : wstring) : watch :=
  { w with m_notify := w.m_notify ++ [⟨type, message⟩] }

/-- The method `task::open`. -/
def task.open (t : task) (w : watch) (path : wstring) (e : open_env) : Bool × task × watch :=
  if t.m_directory.isSome then (true, t, w)
  else
    match e.absolute path with
    | none =>
      (false, { t with m_path := [] },
        push_notify w tasktype.Error (L "`std::filesystem::absolute` failed: " ++ e.message))
    | some p =>
      let t1 := { t with m_path := p }
      let w1 := w.sys [oscall.CreateFileW p]
      match e.create_file with
      | none => (false, t1, push_notify w1 tasktype.Error (L "`CreateFileW` failed: " ++ e.message))
      | some h => (true, { t1 with m_directory := some h }, w1)

/-- The method `task::cancel`; the second component lists the requests it made. -/
def task.cancel (t : task) : task × List oscall :=
  match t.m_directory with
  | some h => ({ t with m_directory := none }, [oscall.CancelIo h, oscall.CloseHandle h])
  | none => (t, [])

/-- The method `task::getid`. -/
def task.getid (t : task) : taskid := t.m_id

/-- The method `watch::removetask`.  The entry found is the one that owns `t`, and erasing it
destroys `t`. -/
def watch.removetask (w : watch) (t : task) : watch :=
  match find w.m_tasks t.getid with
  | some _ => t.destroy { w with m_tasks := erase w.m_tasks t.getid }
  | none => w

/-- The method `task::remove`. -/
def task.remove (t : task) (w : watch) : watch :=
  w.removetask t

/-- The method `task::start`; on an invalid handle `ReadDirectoryChangesW` fails. -/
def task.start (t : task) (w : watch) (e : start_env) : Bool × task × watch :=
  let w1 := w.check t.m_directory.isSome
  match t.m_directory with
  | some h =>
    if !e.read_changes then
      (false, t, push_notify (w1.sys [oscall.ReadDirectoryChangesW h]) tasktype.Error
        (L "`ReadDirectoryChangesW` failed: " ++ e.message))
    else
      (true, { t with pending := t.pending + 1 }, w1.sys [oscall.ReadDirectoryChangesW h])
  | none =>
    (false, t, push_notify w1 tasktype.Error (L "`ReadDirectoryChangesW` failed: " ++ e.message))

/-- The `switch (fni.Action)` of `task::changes_cb`. -/
def action_type (a : DWORD) : Option tasktype :=
  if a = FILE_ACTION_ADDED then some tasktype.Create
  else if a = FILE_ACTION_REMOVED then some tasktype.Delete
  else if a = FILE_ACTION_MODIFIED then some tasktype.Modify
  else if a = FILE_ACTION_RENAMED_OLD_NAME ∨ a = FILE_ACTION_RENAMED_NEW_NAME then
    some tasktype.Rename
  else none

/-- The method `task::changes_cb`. -/
def task.changes_cb (P : platform) (t : task) (w : watch) (dwErrorCode : DWORD)
    (dwNumberOfBytesTransfered : DWORD) (e : start_env) : task × watch :=
  if dwErrorCode = ERROR_OPERATION_ABORTED then
    (t, t.remove w)
  else if dwNumberOfBytesTransfered = 0 then
    (t, w)
  else
    let w1 := w.check (decide (kNameOffset + kWcharSize ≤ dwNumberOfBytesTransfered))
    let w2 := w1.check (decide (dwNumberOfBytesTransfered ≤ kBufSize))
    let t1 := { t with m_bakbuffer := memcpy dwNumberOfBytesTransfered t.m_bakbuffer t.m_buffer }
    let w3 : watch :=
      { w2 with out_of_bounds := w2.out_of_bounds || decide (kBufSize < dwNumberOfBytesTransfered) }
    let s := t1.start w3 e
    let d := record_loop P action_type s.2.1.m_path s.2.1.m_bakbuffer (kBufSize + 1) 0
    let w4 : watch :=
      { s.2.2 with
        m_notify := s.2.2.m_notify ++ d.notes
        assert_failed := s.2.2.assert_failed || d.assert_failed
        out_of_bounds := s.2.2.out_of_bounds || d.out_of_bounds }
    (s.2.1, w4)

/-- The constructor `watch::watch`. -/
def watch.init (P : platform) : watch :=
  { m_thread := none, m_apc_queue := [], m_tasks := [], m_notify := [], m_terminate := false,
    m_gentask := P.kInvalidTaskId, os_trace := [], assert_failed := false,
    out_of_bounds := false, apc_pending := 0, worker := false }

/-- The method `watch::thread_signal`; `ok` is the result of `QueueUserAPC`. -/
def watch.thread_signal (w : watch) (ok : Bool) : Bool × watch :=
  (ok, { w.sys [oscall.QueueUserAPC] with
         apc_pending := if ok then w.apc_pending + 1 else w.apc_pending })

/-- The method `watch::thread_init`. -/
def watch.thread_init (w : watch) : Bool × watch :=
  if w.m_thread.isSome then (true, w)
  else (true, { w with m_thread := some ⟨true⟩, worker := true })

/-- The condition of the loop of `watch::thread_cb`. -/
def watch.loop_condition (w : watch) : Bool :=
  !w.m_terminate || !w.m_tasks.isEmpty

/-- What the environment answers during one `watch::apc_add`. -/
structure add_env where
  buf : List Nat
  bak : List Nat
  opening : open_env
  start : start_env

/-- The method `watch::apc_add`.  The task is destroyed when it was not put into the registry. -/
def watch.apc_add (w : watch) (id : taskid) (path : wstring) (e : add_env) : watch :=
  let t := task.create id e.buf e.bak
  let o := t.open w path e.opening
  if !o.1 then o.2.1.destroy o.2.2
  else
    let fresh := (find o.2.2.m_tasks id).isNone
    let w1 : watch := { o.2.2 with m_tasks := insert o.2.2.m_tasks id o.2.1 }
    let s := o.2.1.start w1 e.start
    if fresh then { s.2.2 with m_tasks := assign s.2.2.m_tasks id s.2.1 }
    else s.2.1.destroy s.2.2

/-- The method `watch::apc_remove`. -/
def watch.apc_remove (w : watch) (id : taskid) : watch :=
  match find w.m_tasks id with
  | some t =>
    { w with m_tasks := assign w.m_tasks id t.cancel.1, os_trace := w.os_trace ++ t.cancel.2 }
  | none => w

/-- The loop `it->cancel()` over the tasks of a registry, with the requests made. -/
def cancel_each : List (taskid × task) → List (taskid × task) × List oscall
  | [] => ([], [])
  | (k, t) :: rest =>
    let c := t.cancel
    let r := cancel_each rest
    ((k, c.1) :: r.1, c.2 ++ r.2)

/-- The method `watch::apc_terminate`. -/
def watch.apc_terminate (w : watch) : watch :=
  if w.m_tasks.isEmpty then w
  else
    let r := cancel_each w.m_tasks
    { w with m_tasks := r.1, os_trace := w.os_trace ++ r.2, m_terminate := true }

/-- The loop of `watch::apc_cb` over the queued commands; each `pop` shortens `m_apc_queue`. -/
def apc_loop (env : taskid → add_env) : List apc_arg → watch → watch
  | [], w => w
  | arg :: rest, w =>
    let w1 : watch := { w with m_apc_queue := rest }
    match arg.m_type with
    | apc_type.Add => apc_loop env rest (w1.apc_add arg.m_id arg.m_path (env arg.m_id))
    | apc_type.Remove => apc_loop env rest (w1.apc_remove arg.m_id)
    | apc_type.Terminate => w1.apc_terminate

/-- The method `watch::apc_cb`. -/
def watch.apc_cb (w : watch) (env : taskid → add_env) : watch :=
  apc_loop env w.m_apc_queue w

/-- A completion as the operating system reports it to `fwtask_changes_cb`: error code, byte
count, the bytes the read stored at the start of the primary buffer, and the answers for the
read that `changes_cb` arms. -/
structure completion where
  error : DWORD
  bytes : DWORD
  data : List Nat
  start : start_env

/-- The function `fwtask_changes_cb` for the task registered under `id`.  It runs only for a
task with an outstanding read; the read has stored its data and is no longer outstanding. -/
def watch.fwtask_changes_cb (P : platform) (w : watch) (id : taskid) (c : completion) : watch :=
  match find w.m_tasks id with
  | none => w
  | some t =>
    if t.pending = 0 then w
    else
      let t1 := { t with m_buffer := memcpy c.data.length t.m_buffer c.data,
                         pending := t.pending - 1 }
      let w1 : watch := { w with m_tasks := assign w.m_tasks id t1 }
      let r := t1.changes_cb P w1 c.error c.bytes c.start
      { r.2 with m_tasks := assign r.2.m_tasks id r.1 }

/-- What the worker thread is made to run while it sleeps in `SleepEx(INFINITE, true)`. -/
inductive worker_event where
  | apc (env : taskid → add_env)
  | changes (id : taskid) (c : completion)

/-- One callback on the worker thread.  `filewatch_apc_cb` runs only when one is queued. -/
def watch.work (P : platform) (w : watch) : worker_event → watch
  | worker_event.apc env =>
    if w.apc_pending = 0 then w
    else ({ w with apc_pending := w.apc_pending - 1 }).apc_cb env
  | worker_event.changes id c => w.fwtask_changes_cb P id c

/-- The method `watch::thread_cb`, run against the callbacks that each successive `SleepEx`
executes before it returns.  When the list is used up and the loop condition still holds, the
thread stays asleep (`worker` remains true). -/
def thread_cb (P : platform) : List (List worker_event) → watch → watch
  | [], w => if w.loop_condition then w else { w with worker := false }
  | batch :: rest, w =>
    if w.loop_condition then thread_cb P rest (batch.foldl (watch.work P) w)
    else { w with worker := false }

/-- Progress of the worker thread, if there is one. -/
def watch.worker_run (P : platform) (w : watch) (sched : List (List worker_event)) : watch :=
  if w.worker then thread_cb P sched w else w

/-- The method `watch::stop`.  `signal_ok` is the result of `QueueUserAPC`; `sched` is what the
worker thread runs while the caller waits in `join`.  The first component says whether `stop`
returned: it is false when the worker is still asleep after `sched`. -/
def watch.stop (P : platform) (w : watch) (signal_ok : Bool) (sched : List (List worker_event)) :
    Bool × watch :=
  match w.m_thread with
  | none => (true, w)
  | some th =>
    if !th.joinable then (true, { w with m_thread := none })
    else
      let w1 : watch := { w with m_apc_queue := w.m_apc_queue ++ [⟨apc_type.Terminate, 0, []⟩] }
      let s := w1.thread_signal signal_ok
      if !s.1 then (true, { s.2 with m_thread := none })
      else
        let w2 := s.2.worker_run P sched
        if w2.worker then (false, w2)
        else (true, { w2 with m_thread := none })

/-- The method `watch::add`. -/
def watch.add (P : platform) (w : watch) (path : wstring) (signal_ok : Bool) : taskid × watch :=
  let i := w.thread_init
  if !i.1 then (P.kInvalidTaskId, i.2)
  else
    let id := P.incr i.2.m_gentask
    let w1 : watch :=
      { i.2 with m_gentask := id, m_apc_queue := i.2.m_apc_queue ++ [⟨apc_type.Add, id, path⟩] }
    (id, (w1.thread_signal signal_ok).2)

/-- The method `watch::remove`. -/
def watch.remove (w : watch) (id : taskid) (signal_ok : Bool) : Bool × watch :=
  match w.m_thread with
  | none => (false, w)
  | some _ =>
    let w1 : watch := { w with m_apc_queue := w.m_apc_queue ++ [⟨apc_type.Remove, id, []⟩] }
    (true, (w1.thread_signal signal_ok).2)

/-- The method `watch::select`: the notification popped, if any, and the new state. -/
def watch.select (w : watch) : Option notify × watch :=
  match w.m_notify with
  | [] => (none, w)
  | n :: rest => (some n, { w with m_notify := rest })

/-- The destructor `watch::~watch`, up to its assertion; the first component says whether it
got past `stop`. -/
def watch.destroy (P : platform) (w : watch) (signal_ok : Bool)
    (sched : List (List worker_event)) : Bool × watch :=
  let s := w.stop P signal_ok sched
  if s.1 then (true, s.2.check s.2.m_tasks.isEmpty) else (false, s.2)

/-- What happens to a service: a call of the public interface, with what the environment
answers during the call, or progress of the worker thread between two calls. -/
inductive call where
  | add (path : wstring) (signal_ok : Bool)
  | remove (id : taskid) (signal_ok : Bool)
  | stop (signal_ok : Bool) (sched : List (List worker_event))
  | select
  | worker (sched : List (List worker_event))

/-- The state after one call. -/
def step (P : platform) (w : watch) : call → watch
  | call.add path ok => (w.add P path ok).2
  | call.remove id ok => (w.remove id ok).2
  | call.stop ok sched => (w.stop P ok sched).2
  | call.select => w.select.2
  | call.worker sched => w.worker_run P sched

/-- Whether the call returns in state `w`; only `stop` can wait for ever. -/
def returns (P : platform) (w : watch) : call → Bool
  | call.stop ok sched => (w.stop P ok sched).1
  | _ => true

/-- The state after a sequence of calls; a call that does not return ends the sequence. -/
def run (P : platform) : watch → List call → watch
  | w, [] => w
  | w, c :: cs => if returns P w c then run P (step P w c) cs else step P w c

/-- The ids returned by the calls of `add` in a sequence of calls, in call order. -/
def returned_ids (P : platform) : watch → List call → List taskid
  | _, [] => []
  | w, call.add path ok :: cs => (w.add P path ok).1 :: returned_ids P (w.add P path ok).2 cs
  | w, c :: cs => if returns P w c then returned_ids P (step P w c) cs else []

/-- The number of calls of `add` in a sequence of calls. -/
def adds : List call → Nat
  | [] => 0
  | call.add _ _ :: cs => adds cs + 1
  | _ :: cs => adds cs

/-- The kinds of notification that occur in `fsevent_win.cpp`. -/
def event_kind (ty : tasktype) : Prop :=
  ty = tasktype.Error ∨ ty = tasktype.Create ∨ ty = tasktype.Delete ∨ ty = tasktype.Modify
    ∨ ty = tasktype.Rename

/-- Every notification in the queue has one of the kinds of `event_kind`. -/
def watch.plain (w : watch) : Prop :=
  ∀ n ∈ w.m_notify, event_kind n.m_type

/-- The number of `TaskTerminate` notifications in the queue. -/
def watch.terminate_count (w : watch) : Nat :=
  w.m_notify.countP (fun n => decide (n.m_type = tasktype.TaskTerminate))

end fsevent

/-! ## The host-name test of `bee/net/endpoint.cpp`

A `std::string_view` is the list of its characters; the position `std::string_view::npos` is
`none` of `Option Nat`. -/

namespace net

/-- The search of `find_first_not_of` through the characters `s` that stand at index `i` and
behind it: the index of the first character that is not in `set`. -/
def first_not_of (set : List Char) : List Char → Nat → Option Nat
  | [], _ => none
  | c :: rest, i => if c ∈ set then first_not_of set rest (i + 1) else some i

/-- The method `std::string_view::find_first_not_of(set, pos)`. -/
def find_first_not_of (ip : List Char) (set : String) (pos : Nat) : Option Nat :=
  first_not_of set.toList (ip.drop pos) pos

/-- The search of `find_last_of` through the characters `s` that stand at index `i` and behind
it: the index of the last character equal to `c`. -/
def last_of (c : Char) : List Char → Nat → Option Nat
  | [], _ => none
  | x :: rest, i =>
    match last_of c rest (i + 1) with
    | some j => some j
    | none => if x = c then some i else none

/-- The method `std::string_view::find_last_of(c)`. -/
def find_last_of (ip : List Char) (c : Char) : Option Nat :=
  last_of c ip 0

/-- The function `needsnolookup`. -/
def needsnolookup (ip : List Char) : Bool :=
  match find_first_not_of ip "0123456789." 0 with
  | none => true
  | some _ =>
    match find_first_not_of ip "0123456789abcdefABCDEF:" 0 with
    | none => true
    | some pos =>
      if ip.get? pos ≠ some '.' then false
      else
        match find_last_of ip ':' with
        | none => false
        | some last =>
          match find_first_not_of ip "0123456789." last with
          | none => true
          | some _ => false

/-- The constant `AI_NUMERICHOST` of the socket headers. -/
def AI_NUMERICHOST : Nat := 4

/-- The member `hint.ai_flags` with which `endpoint::from_hostname` calls `gethostaddr`: the
structure is zero-initialised and the flag is set when `needsnolookup` says so. -/
def from_hostname_flags (ip : List Char) : Nat :=
  if needsnolookup ip then AI_NUMERICHOST else 0

end net

end bee

/-! ## Inputs used in examples -/

namespace bee

/-- A platform with 32-bit signed ids, sentinel zero, and paths joined with a backslash. -/
def example_platform : platform :=
  { kInvalidTaskId := 0, taskid_min := -2147483648, taskid_max := 2147483647,
    path_join := fun d f => d ++ [92] ++ f }

/-- An environment in which every path is absolute already and the directory opens as `h`. -/
def opens_as (h : HANDLE) : open_env :=
  { absolute := fun p => some p, create_file := some h, message := [] }

/-- An environment in which arming a read succeeds. -/
def arms : start_env := { reset_event := true, read_changes := true, message := [] }

/-- An environment in which `ReadDirectoryChangesW` rejects the request, with message `"no"`. -/
def arms_not : start_env := { reset_event := true, read_changes := false, message := L "no" }

/-- Two adds of the same directory with a remove between them, then a stop. -/
def filewatch.example_calls : List filewatch.call :=
  [filewatch.call.add (L "d") ⟨[], [], opens_as 7, arms⟩,
   filewatch.call.remove 1,
   filewatch.call.add (L "d") ⟨[], [], opens_as 8, arms⟩,
   filewatch.call.stop]

/-- The answers of the environment to the worker while it applies `Add` commands: the task
with id `k` opens its directory as handle `100 + k`. -/
def fsevent.example_env (id : taskid) : fsevent.add_env :=
  ⟨[], [], opens_as (100 + id.toNat), arms⟩

/-- The completion that reports a cancelled read. -/
def fsevent.aborted : fsevent.completion :=
  { error := ERROR_OPERATION_ABORTED, bytes := 0, data := [], start := arms }

/-- Two adds of the same directory with a remove between them, the worker running after each
call, then a stop during which the worker applies `Terminate` and receives the abort of the
read it cancelled. -/
def fsevent.example_calls : List fsevent.call :=
  [fsevent.call.add (L "d") true,
   fsevent.call.worker [[fsevent.worker_event.apc fsevent.example_env]],
   fsevent.call.remove 1 true,
   fsevent.call.worker [[fsevent.worker_event.apc fsevent.example_env,
                         fsevent.worker_event.changes 1 fsevent.aborted]],
   fsevent.call.add (L "d") true,
   fsevent.call.worker [[fsevent.worker_event.apc fsevent.example_env]],
   fsevent.call.stop true [[fsevent.worker_event.apc fsevent.example_env],
                           [fsevent.worker_event.changes 2 fsevent.aborted]]]

/-- A buffer of 14 bytes with one record: file `a` was added. -/
def one_record : List Nat := [0, 0, 0, 0, 1, 0, 0, 0, 2, 0, 0, 0, 97, 0]

/-- A buffer of 30 bytes with two records, the second at offset 16: file `a` was renamed
to `b`. -/
def two_records : List Nat :=
  [16, 0, 0, 0, 4, 0, 0, 0, 2, 0, 0, 0, 97, 0, 0, 0,
   0, 0, 0, 0, 5, 0, 0, 0, 2, 0, 0, 0, 98, 0]

/-- The first 14 bytes of a completion whose only record announces a next record at offset 16,
beyond the 14 bytes transferred. -/
def open_ended : List Nat := [16, 0, 0, 0, 1, 0, 0, 0, 2, 0, 0, 0, 97, 0]

/-- What an earlier completion left in the secondary buffer: at offset 16 a record saying that
file `z` was modified. -/
def stale : List Nat :=
  [0, 0, 0, 0, 0, 0, 0, 0, 0, 0, 0, 0, 0, 0, 0, 0,
   0, 0, 0, 0, 3, 0, 0, 0, 2, 0, 0, 0, 122, 0]

/-- A task of the poll-driven back end that watches directory `d` through handle 7, with its
read outstanding and the given contents of the two buffers. -/
def filewatch.example_task (buf bak : List Nat) : filewatch.task :=
  { m_id := 1, m_path := L "d", m_directory := some 7, m_buffer := buf, m_bakbuffer := bak,
    pending := 0 }

/-- A task of the callback-driven back end that watches directory `d` through handle 7, with
the given contents of the two buffers. -/
def fsevent.example_task (buf bak : List Nat) : fsevent.task :=
  { m_id := 1, m_path := L "d", m_directory := some 7, m_buffer := buf, m_bakbuffer := bak,
    pending := 0 }

/-- A completion without error and with zero bytes. -/
def fsevent.zero_bytes : fsevent.completion :=
  { error := 0, bytes := 0, data := [], start := arms }

/-- An answer to `task::update`: the read has completed without error, with zero bytes. -/
def filewatch.zero_bytes : filewatch.poll_env :=
  { ok := true, last_error := 0, bytes := 0, data := [], start := arms }

/-- One directory is added to the callback-driven service, the worker opens it and arms the
read, and the read completes without error and with zero bytes. -/
def fsevent.zero_byte_calls : List fsevent.call :=
  [fsevent.call.add (L "d") true,
   fsevent.call.worker [[fsevent.worker_event.apc fsevent.example_env]],
   fsevent.call.worker [[fsevent.worker_event.changes 1 fsevent.zero_bytes]]]

/-- One directory is added to the poll-driven service, and at the next `select` its read has
completed without error and with zero bytes. -/
def filewatch.zero_byte_calls : List filewatch.call :=
  [filewatch.call.add (L "d") ⟨[], [], opens_as 7, arms⟩,
   filewatch.call.select (fun _ => filewatch.zero_bytes)]

/-- A lifetime with one task: `add`, the worker applies the command, then `stop`, during which
the worker applies `Terminate` and receives the abort of the read it cancelled. -/
def fsevent.example_lifetime : List fsevent.call :=
  [fsevent.call.add (L "d") true,
   fsevent.call.worker [[fsevent.worker_event.apc fsevent.example_env]],
   fsevent.call.stop true [[fsevent.worker_event.apc fsevent.example_env],
                           [fsevent.worker_event.changes 1 fsevent.aborted]]]

/-- Modelled from the spec: `cancel()` followed by de-registration from the service, the
operation that the specification says `remove()` is equivalent to. -/
def fsevent.task.cancel_then_deregister (t : fsevent.task) (w : fsevent.watch) :
    fsevent.task × fsevent.watch :=
  (t.cancel.1, (w.sys t.cancel.2).removetask t.cancel.1)

/-- The `switch (arg.m_type)` of `watch::apc_cb`: one command applied. -/
def fsevent.watch.apply_command (w : fsevent.watch) (env : taskid → fsevent.add_env)
    (arg : fsevent.apc_arg) : fsevent.watch :=
  match arg.m_type with
  | fsevent.apc_type.Add => w.apc_add arg.m_id arg.m_path (env arg.m_id)
  | fsevent.apc_type.Remove => w.apc_remove arg.m_id
  | fsevent.apc_type.Terminate => w.apc_terminate

/-- The commands of a queue up to and including the first `Terminate`, all of them if there is
none. -/
def fsevent.upto_terminate : List fsevent.apc_arg → List fsevent.apc_arg
  | [] => []
  | a :: rest =>
    if a.m_type = fsevent.apc_type.Terminate then [a] else a :: fsevent.upto_terminate rest

/-- The commands of a queue behind the first `Terminate`, none if there is no `Terminate`. -/
def fsevent.after_terminate : List fsevent.apc_arg → List fsevent.apc_arg
  | [] => []
  | a :: rest =>
    if a.m_type = fsevent.apc_type.Terminate then rest else fsevent.after_terminate rest

/-- A poll-driven service with one directory added (task 1, handle 7, read outstanding). -/
def filewatch.one_task : filewatch.watch :=
  ((filewatch.watch.init example_platform).add example_platform (L "d")
    ⟨[], [], opens_as 7, arms⟩).2

/-- Every overlapped result is still incomplete. -/
def filewatch.incomplete (_ : taskid) : filewatch.poll_env :=
  { ok := false, last_error := ERROR_IO_INCOMPLETE, bytes := 0, data := [], start := arms }

/-- A callback-driven service in which two directories were added and the worker has applied
both commands (tasks 1 and 2, handles 101 and 102, reads outstanding). -/
def fsevent.two_tasks : fsevent.watch :=
  fsevent.run example_platform (fsevent.watch.init example_platform)
    [fsevent.call.add (L "d") true, fsevent.call.add (L "d") true,
     fsevent.call.worker [[fsevent.worker_event.apc fsevent.example_env]]]

/-- A control queue: remove task 1, terminate, then add a directory under id 3. -/
def fsevent.example_queue : List fsevent.apc_arg :=
  [⟨fsevent.apc_type.Remove, 1, []⟩, ⟨fsevent.apc_type.Terminate, 0, []⟩,
   ⟨fsevent.apc_type.Add, 3, L "d"⟩]

/-- The task registered under id 1 in `fsevent.two_tasks`. -/
def fsevent.watched : fsevent.task :=
  { m_id := 1, m_path := L "d", m_directory := some 101, m_buffer := [], m_bakbuffer := [],
    pending := 1 }

/-- An environment in which `ResetEvent` fails. -/
def resets_not : start_env := { reset_event := false, read_changes := true, message := L "no" }

/-- One directory is added to the callback-driven service; the worker opens it as handle 7, but
`ReadDirectoryChangesW` rejects the first read. -/
def fsevent.unarmed_calls : List fsevent.call :=
  [fsevent.call.add (L "d") true,
   fsevent.call.worker [[fsevent.worker_event.apc (fun _ => ⟨[], [], opens_as 7, arms_not⟩)]]]

/-- A completion with error code 5 (`ERROR_ACCESS_DENIED`) and `n` bytes, whose data are `data`. -/
def fsevent.denied (n : DWORD) (data : List Nat) : fsevent.completion :=
  { error := 5, bytes := n, data := data, start := arms }

/-- An answer to `task::update`: `GetOverlappedResult` fails with error code `err`. -/
def filewatch.failed (err : DWORD) (_ : taskid) : filewatch.poll_env :=
  { ok := false, last_error := err, bytes := 0, data := [], start := arms }

/-- An answer to `task::update`: the read has completed without error and has delivered the
buffer with one record, 14 bytes. -/
def filewatch.completed (_ : taskid) : filewatch.poll_env :=
  { ok := true, last_error := 0, bytes := 14, data := one_record, start := arms }

/-- The environment lets a task of the poll-driven back end open directory `d` (absolute path
`p`, handle `h`) and arm its first read. -/
def filewatch.add_env.succeeds (e : filewatch.add_env) (d p : wstring) (h : HANDLE) : Prop :=
  e.opening.absolute d = some p ∧ e.opening.create_file = some h ∧ e.start.reset_event = true
    ∧ e.start.read_changes = true

/-- The environment lets a task of the callback-driven back end open directory `d` (absolute
path `p`, handle `h`). -/
def fsevent.add_env.opens (e : fsevent.add_env) (d p : wstring) (h : HANDLE) : Prop :=
  e.opening.absolute d = some p ∧ e.opening.create_file = some h

/-- A poll-driven service with the same directory added twice (tasks 1 and 2, handles 7 and
8). -/
def filewatch.two_tasks : filewatch.watch :=
  (filewatch.one_task.add example_platform (L "d") ⟨[], [], opens_as 8, arms⟩).2

/-- An environment in which every path is absolute already and `CreateFileW` fails. -/
def opens_not : open_env :=
  { absolute := fun p => some p, create_file := none, message := L "no" }

/-- A callback-driven service after `add` of a directory that cannot be opened: the worker has
applied the command and pushed the error, no task is registered. -/
def fsevent.no_task : fsevent.watch :=
  fsevent.run example_platform (fsevent.watch.init example_platform)
    [fsevent.call.add (L "missing") true,
     fsevent.call.worker [[fsevent.worker_event.apc (fun _ => ⟨[], [], opens_not, arms⟩)]]]

/-- No task of a registry of the poll-driven back end has more than one asynchronous read
outstanding. -/
def filewatch.single_read (m : List (taskid × filewatch.task)) : Prop :=
  ∀ kv ∈ m, kv.2.pending ≤ 1

/-- No task of a registry of the callback-driven back end has more than one asynchronous read
outstanding. -/
def fsevent.single_read (m : List (taskid × fsevent.task)) : Prop :=
  ∀ kv ∈ m, kv.2.pending ≤ 1

/-- The method `task::changes_cb` in a run in which the read that `start()` has armed stores
the bytes `late` at the start of the primary buffer while the handler is still at work: the
statements of `fsevent.task.changes_cb`, with that write of the operating system between
`start()` and the loop. -/
def fsevent.task.changes_cb_racing (P : platform) (t : fsevent.task) (w : fsevent.watch)
    (dwErrorCode : DWORD) (dwNumberOfBytesTransfered : DWORD) (e : start_env)
    (late : List Nat) : fsevent.task × fsevent.watch :=
  if dwErrorCode = ERROR_OPERATION_ABORTED then
    (t, t.remove w)
  else if dwNumberOfBytesTransfered = 0 then
    (t, w)
  else
    let w1 := w.check (decide (kNameOffset + kWcharSize ≤ dwNumberOfBytesTransfered))
    let w2 := w1.check (decide (dwNumberOfBytesTransfered ≤ kBufSize))
    let t1 := { t with m_bakbuffer := memcpy dwNumberOfBytesTransfered t.m_bakbuffer t.m_buffer }
    let w3 : fsevent.watch :=
      { w2 with out_of_bounds := w2.out_of_bounds || decide (kBufSize < dwNumberOfBytesTransfered) }
    let s := t1.start w3 e
    let t2 : fsevent.task :=
      if s.1 then { s.2.1 with m_buffer := memcpy late.length s.2.1.m_buffer late } else s.2.1
    let d := record_loop P fsevent.action_type t2.m_path t2.m_bakbuffer (kBufSize + 1) 0
    let w4 : fsevent.watch :=
      { s.2.2 with
        m_notify := s.2.2.m_notify ++ d.notes
        assert_failed := s.2.2.assert_failed || d.assert_failed
        out_of_bounds := s.2.2.out_of_bounds || d.out_of_bounds }
    (t2, w4)

/-- The method `task::event_cb` in a run in which the read that `start()` has armed stores the
bytes `late` at the start of the primary buffer while the handler is still at work: the
statements of `filewatch.task.event_cb`, with that write of the operating system between
`start()` and the loop. -/
def filewatch.task.event_cb_racing (P : platform) (t : filewatch.task) (w : filewatch.watch)
    (dwErrorCode : DWORD) (dwNumberOfBytesTransfered : DWORD) (e : start_env)
    (late : List Nat) : Bool × filewatch.task × filewatch.watch :=
  if dwErrorCode ≠ 0 then
    (false, t, filewatch.push_notify w tasktype.TaskRemove (filewatch.format_id t.m_id))
  else if dwNumberOfBytesTransfered = 0 then
    (true, t, w)
  else
    let w1 := w.check (decide (kNameOffset + kWcharSize ≤ dwNumberOfBytesTransfered))
    let w2 := w1.check (decide (dwNumberOfBytesTransfered ≤ kBufSize))
    let t1 := { t with m_bakbuffer := memcpy dwNumberOfBytesTransfered t.m_bakbuffer t.m_buffer }
    let w3 : filewatch.watch :=
      { w2 with out_of_bounds := w2.out_of_bounds || decide (kBufSize < dwNumberOfBytesTransfered) }
    let s := t1.start w3 e
    let t2 : filewatch.task :=
      if s.1 then { s.2.1 with m_buffer := memcpy late.length s.2.1.m_buffer late } else s.2.1
    let d := record_loop P filewatch.action_type t2.m_path t2.m_bakbuffer (kBufSize + 1) 0
    let w4 : filewatch.watch :=
      { s.2.2 with
        m_notify := s.2.2.m_notify ++ d.notes
        assert_failed := s.2.2.assert_failed || d.assert_failed
        out_of_bounds := s.2.2.out_of_bounds || d.out_of_bounds }
    (true, t2, w4)

/-- A walk along `NextEntryOffset` that starts at offset `off` and ends at the first record
whose `NextEntryOffset` is zero; the list holds the byte ranges of the records on the way.  The
walk knows neither a byte count nor the size of an array. -/
inductive walk (buf : List Nat) : Nat → List (Nat × Nat) → Prop where
  | last (off : Nat) :
      NextEntryOffset buf off = 0 → walk buf off [(off, record_end buf off)]
  | next (off : Nat) (rest : List (Nat × Nat)) :
      NextEntryOffset buf off ≠ 0 → walk buf (off + NextEntryOffset buf off) rest →
      walk buf off ((off, record_end buf off) :: rest)

/-- The first 14 bytes of a buffer whose only record (file `a` added) names a next record at
offset 16384, the first byte behind the array. -/
def leaves_array : List Nat := [0, 64, 0, 0, 1, 0, 0, 0, 2, 0, 0, 0, 97, 0]

/-- The notifications that one `task::update` pushes: what it leaves in the queue behind the
notifications that were there before. -/
def filewatch.task.update_pushed (P : platform) (t : filewatch.task) (w : filewatch.watch)
    (e : filewatch.poll_env) : List notify :=
  (t.update P w e).2.2.m_notify.drop w.m_notify.length

/-- The notifications that the loop of `watch::update` pushes, in the order of the pushes, each
with the key of the registry entry whose task pushed it. -/
def filewatch.update_each_log (P : platform) (env : taskid → filewatch.poll_env) :
    List (taskid × filewatch.task) → filewatch.watch → List (taskid × notify)
  | [], _ => []
  | (k, t) :: rest, w =>
    (t.update_pushed P w (env k)).map (fun x => (k, x))
      ++ (if (t.update P w (env k)).1 then
            filewatch.update_each_log P env rest (t.update P w (env k)).2.2
          else
            filewatch.update_each_log P env rest
              ((t.update P w (env k)).2.1.destroy (t.update P w (env k)).2.2))

/-- The notifications that one public call pushes, in the order of the pushes, each with its
origin: `some id` for a notification that the task with id `id` pushed (while `apc_add` opened
and armed it, or in its `update`), `none` for one that the service pushed itself. -/
def filewatch.step_log (P : platform) (w : filewatch.watch) :
    filewatch.call → List (Option taskid × notify)
  | filewatch.call.add path e =>
    (((({ w with m_gentask := P.incr w.m_gentask } : filewatch.watch).apc_add
        (P.incr w.m_gentask) path e).m_notify.drop w.m_notify.length).map
          (fun x => (some (P.incr w.m_gentask), x)))
      ++ [(none, ⟨tasktype.TaskAdd,
            L "(" ++ filewatch.format_id (P.incr w.m_gentask) ++ L ")" ++ path⟩)]
  | filewatch.call.remove _ => []
  | filewatch.call.stop => [(none, ⟨tasktype.TaskTerminate, L ""⟩)]
  | filewatch.call.select env =>
    (filewatch.update_each_log P env w.m_tasks w).map (fun x => (some x.1, x.2))

/-- Everything that a sequence of public calls pushes, in the order of the pushes. -/
def filewatch.run_log (P : platform) :
    filewatch.watch → List filewatch.call → List (Option taskid × notify)
  | _, [] => []
  | w, c :: cs => filewatch.step_log P w c ++ filewatch.run_log P (filewatch.step P w c) cs

/-- The number of notifications that one public call pops: one for a `select` that returns a
notification. -/
def filewatch.step_pops (P : platform) (w : filewatch.watch) : filewatch.call → Nat
  | filewatch.call.select env => if (w.select P env).1.isSome then 1 else 0
  | _ => 0

/-- The number of notifications that a sequence of public calls pops. -/
def filewatch.pops (P : platform) : filewatch.watch → List filewatch.call → Nat
  | _, [] => 0
  | w, c :: cs => filewatch.step_pops P w c + filewatch.pops P (filewatch.step P w c) cs

/-- The members of a callback-driven service that opening, arming, cancelling and
de-registering a task leave alone: the terminate flag, the control queue, the thread object, the
state of the worker and the id counter. -/
def fsevent.watch.control (w : fsevent.watch) :
    Bool × List fsevent.apc_arg × Option fsevent.thread × Bool × taskid :=
  (w.m_terminate, w.m_apc_queue, w.m_thread, w.worker, w.m_gentask)

/-- A callback-driven service to which no `Terminate` was issued and whose ids are in step with
the counter: the terminate flag is unset, no `Terminate` command is queued, the worker of a
thread that was started has not returned, and no key of the registry and no id of a queued `Add`
lies beyond the counter. -/
def fsevent.watch.live (w : fsevent.watch) : Prop :=
  w.m_terminate = false
  ∧ (∀ a ∈ w.m_apc_queue, a.m_type ≠ fsevent.apc_type.Terminate)
  ∧ (w.m_thread.isSome = true → w.worker = true)
  ∧ (∀ k ∈ w.m_tasks.map Prod.fst, (k : Int) ≤ (w.m_gentask : Int))
  ∧ (∀ a ∈ w.m_apc_queue, a.m_type = fsevent.apc_type.Add → (a.m_id : Int) ≤ (w.m_gentask : Int))

/-- Whether a call is a call of `stop`. -/
def fsevent.call.stops : fsevent.call → Bool
  | fsevent.call.stop _ _ => true
  | _ => false

/-- A callback-driven service whose lifetime `fsevent.example_lifetime` has ended: `stop()` has
returned, the registry is empty, the terminate flag is set. -/
def fsevent.stopped : fsevent.watch :=
  fsevent.run example_platform (fsevent.watch.init example_platform) fsevent.example_lifetime

end bee

/-! # Theorems -/

namespace bee

/-! ## The id counter -/

namespace filewatch

@[simp] theorem fw_push_notify_gentask (w : watch) (ty : tasktype) (m : wstring) :
    (push_notify w ty m).m_gentask = w.m_gentask := rfl

@[simp] theorem fw_check_gentask (w : watch) (c : Bool) : (w.check c).m_gentask = w.m_gentask := rfl

@[simp] theorem fw_sys_gentask (w : watch) (cs : List oscall) : (w.sys cs).m_gentask = w.m_gentask :=
  rfl

@[simp] theorem fw_destroy_gentask (t : task) (w : watch) :
    (t.destroy w).m_gentask = w.m_gentask := rfl

@[simp] theorem fw_open_gentask (t : task) (w : watch) (path : wstring) (e : open_env) :
    (t.open w path e).2.2.m_gentask = w.m_gentask := by
  unfold task.open
  split
  · rfl
  · split
    · rfl
    · split <;> rfl

@[simp] theorem fw_start_gentask (t : task) (w : watch) (e : start_env) :
    (t.start w e).2.2.m_gentask = w.m_gentask := by
  unfold task.start
  split
  · rfl
  · split
    · rfl
    · split <;> rfl

@[simp] theorem fw_event_cb_gentask (P : platform) (t : task) (w : watch) (err n : DWORD)
    (e : start_env) : (t.event_cb P w err n e).2.2.m_gentask = w.m_gentask := by
  unfold task.event_cb
  split
  · rfl
  · split
    · rfl
    · simp

@[simp] theorem fw_update_gentask (P : platform) (t : task) (w : watch) (e : poll_env) :
    (t.update P w e).2.2.m_gentask = w.m_gentask := by
  unfold task.update
  split
  · rfl
  · simp

theorem fw_update_each_gentask (P : platform) (env : taskid → poll_env) (m : List (taskid × task)) :
    ∀ w : watch, (update_each P env m w).2.m_gentask = w.m_gentask := by
  induction m with
  | nil => intro w; rfl
  | cons kv rest ih =>
    intro w
    obtain ⟨k, t⟩ := kv
    simp only [update_each]
    split <;> simp [ih]

@[simp] theorem fw_apc_add_gentask (w : watch) (id : taskid) (path : wstring) (e : add_env) :
    (w.apc_add id path e).m_gentask = w.m_gentask := by
  simp only [watch.apc_add]
  split
  · simp
  · split
    · simp
    · split <;> simp

@[simp] theorem fw_apc_remove_gentask (w : watch) (id : taskid) :
    (w.apc_remove id).m_gentask = w.m_gentask := by
  unfold watch.apc_remove
  split <;> rfl

@[simp] theorem fw_apc_terminate_gentask (w : watch) : w.apc_terminate.m_gentask = w.m_gentask := by
  simp only [watch.apc_terminate]
  split <;> rfl

@[simp] theorem fw_stop_gentask (w : watch) : w.stop.m_gentask = w.m_gentask := by
  simp [watch.stop]

@[simp] theorem fw_select_gentask (P : platform) (w : watch) (env : taskid → poll_env) :
    (w.select P env).2.m_gentask = w.m_gentask := by
  simp only [watch.select, watch.update]
  split <;> simp [fw_update_each_gentask]

@[simp] theorem fw_remove_gentask (w : watch) (id : taskid) :
    (w.remove id).2.m_gentask = w.m_gentask := by
  simp [watch.remove]

theorem fw_add_fst (P : platform) (w : watch) (path : wstring) (e : add_env) :
    (w.add P path e).1 = P.incr w.m_gentask := rfl

@[simp] theorem fw_add_gentask (P : platform) (w : watch) (path : wstring) (e : add_env) :
    (w.add P path e).2.m_gentask = P.incr w.m_gentask := by
  simp [watch.add]

/-- The ids that `add` returns from a state with counter `g`, as long as the counter does not
wrap around. -/
theorem fw_returned_ids_from (P : platform) (cs : List call) :
    ∀ w : watch, (w.m_gentask : Int) + (adds cs : Int) ≤ (P.taskid_max : Int) →
      returned_ids P w cs
        = (List.range (adds cs)).map (fun i : Nat => w.m_gentask + ((i : Int) + 1)) := by
  induction cs with
  | nil => intro w _; rfl
  | cons c cs ih =>
    intro w h
    cases c with
    | add path e =>
      have ha : adds (call.add path e :: cs) = adds cs + 1 := rfl
      rw [ha] at h
      push_cast at h
      have hlt : (w.m_gentask : Int) < (P.taskid_max : Int) := by linarith
      have hg : (w.add P path e).2.m_gentask = w.m_gentask + 1 := by
        simp [platform.incr, hlt]
      have h1 : ((w.add P path e).2.m_gentask : Int) + (adds cs : Int) ≤ (P.taskid_max : Int) := by
        rw [hg]; linarith
      rw [ha, List.range_succ_eq_map]
      simp only [returned_ids, ih _ h1, hg, fw_add_fst, platform.incr, hlt, if_true,
        List.map_cons, List.map_map]
      refine congrArg₂ _ (by simp) (List.map_congr_left ?_)
      intro i _
      simp only [Function.comp, Nat.cast_succ]
      ring
    | remove id =>
      have h1 : ((step P w (call.remove id)).m_gentask : Int) + (adds cs : Int) ≤ (P.taskid_max : Int) := by
        simpa [step, adds] using h
      simpa [returned_ids, adds, step] using ih _ h1
    | stop =>
      have h1 : ((step P w call.stop).m_gentask : Int) + (adds cs : Int) ≤ (P.taskid_max : Int) := by
        simpa [step, adds] using h
      simpa [returned_ids, adds, step] using ih _ h1
    | select env =>
      have h1 : ((step P w (call.select env)).m_gentask : Int) + (adds cs : Int) ≤ (P.taskid_max : Int) := by
        simpa [step, adds] using h
      simpa [returned_ids, adds, step] using ih _ h1

end filewatch

namespace fsevent

@[simp] theorem fs_push_notify_gentask (w : watch) (ty : tasktype) (m : wstring) :
    (push_notify w ty m).m_gentask = w.m_gentask := rfl

@[simp] theorem fs_check_gentask (w : watch) (c : Bool) : (w.check c).m_gentask = w.m_gentask := rfl

@[simp] theorem fs_sys_gentask (w : watch) (cs : List oscall) : (w.sys cs).m_gentask = w.m_gentask :=
  rfl

@[simp] theorem fs_destroy_gentask (t : task) (w : watch) :
    (t.destroy w).m_gentask = w.m_gentask := rfl

@[simp] theorem fs_open_gentask (t : task) (w : watch) (path : wstring) (e : open_env) :
    (t.open w path e).2.2.m_gentask = w.m_gentask := by
  unfold task.open
  split
  · rfl
  · split
    · rfl
    · split <;> rfl

@[simp] theorem fs_start_gentask (t : task) (w : watch) (e : start_env) :
    (t.start w e).2.2.m_gentask = w.m_gentask := by
  simp only [task.start]
  split
  · split <;> rfl
  · rfl

@[simp] theorem fs_removetask_gentask (w : watch) (t : task) :
    (w.removetask t).m_gentask = w.m_gentask := by
  unfold watch.removetask
  split <;> rfl

@[simp] theorem fs_changes_cb_gentask (P : platform) (t : task) (w : watch) (err n : DWORD)
    (e : start_env) : (t.changes_cb P w err n e).2.m_gentask = w.m_gentask := by
  unfold task.changes_cb
  split
  · simp [task.remove]
  · split
    · rfl
    · simp

@[simp] theorem fs_apc_add_gentask (w : watch) (id : taskid) (path : wstring) (e : add_env) :
    (w.apc_add id path e).m_gentask = w.m_gentask := by
  simp only [watch.apc_add]
  split
  · simp
  · split <;> simp

@[simp] theorem fs_apc_remove_gentask (w : watch) (id : taskid) :
    (w.apc_remove id).m_gentask = w.m_gentask := by
  unfold watch.apc_remove
  split <;> rfl

@[simp] theorem fs_apc_terminate_gentask (w : watch) : w.apc_terminate.m_gentask = w.m_gentask := by
  simp only [watch.apc_terminate]
  split <;> rfl

theorem fs_apc_loop_gentask (env : taskid → add_env) (q : List apc_arg) :
    ∀ w : watch, (apc_loop env q w).m_gentask = w.m_gentask := by
  induction q with
  | nil => intro w; rfl
  | cons arg rest ih =>
    intro w
    simp only [apc_loop]
    split <;> simp [ih]

@[simp] theorem fs_changes_gentask (P : platform) (w : watch) (id : taskid) (c : completion) :
    (w.fwtask_changes_cb P id c).m_gentask = w.m_gentask := by
  simp only [watch.fwtask_changes_cb]
  split
  · rfl
  · split
    · rfl
    · simp

@[simp] theorem fs_work_gentask (P : platform) (w : watch) (ev : worker_event) :
    (w.work P ev).m_gentask = w.m_gentask := by
  cases ev with
  | apc env =>
    simp only [watch.work]
    split
    · rfl
    · simp [watch.apc_cb, fs_apc_loop_gentask]
  | changes id c => simp [watch.work]

theorem fs_batch_gentask (P : platform) (batch : List worker_event) :
    ∀ w : watch, (batch.foldl (watch.work P) w).m_gentask = w.m_gentask := by
  induction batch with
  | nil => intro w; rfl
  | cons ev rest ih => intro w; simp [List.foldl, ih]

theorem fs_thread_cb_gentask (P : platform) (sched : List (List worker_event)) :
    ∀ w : watch, (thread_cb P sched w).m_gentask = w.m_gentask := by
  induction sched with
  | nil => intro w; simp only [thread_cb]; split <;> rfl
  | cons batch rest ih =>
    intro w
    simp only [thread_cb]
    split
    · simp [ih, fs_batch_gentask]
    · rfl

@[simp] theorem fs_worker_run_gentask (P : platform) (w : watch) (sched : List (List worker_event)) :
    (w.worker_run P sched).m_gentask = w.m_gentask := by
  unfold watch.worker_run
  split
  · exact fs_thread_cb_gentask P sched w
  · rfl

@[simp] theorem fs_thread_signal_gentask (w : watch) (ok : Bool) :
    (w.thread_signal ok).2.m_gentask = w.m_gentask := rfl

@[simp] theorem fs_stop_gentask (P : platform) (w : watch) (ok : Bool)
    (sched : List (List worker_event)) : (w.stop P ok sched).2.m_gentask = w.m_gentask := by
  simp only [watch.stop]
  split
  · rfl
  · split
    · rfl
    · split
      · rfl
      · split <;> simp

@[simp] theorem fs_remove_gentask (w : watch) (id : taskid) (ok : Bool) :
    (w.remove id ok).2.m_gentask = w.m_gentask := by
  simp only [watch.remove]
  split <;> rfl

@[simp] theorem fs_select_gentask (w : watch) : w.select.2.m_gentask = w.m_gentask := by
  simp only [watch.select]
  split <;> rfl

@[simp] theorem fs_thread_init_gentask (w : watch) : w.thread_init.2.m_gentask = w.m_gentask := by
  simp only [watch.thread_init]
  split <;> rfl

@[simp] theorem fs_thread_init_fst (w : watch) : w.thread_init.1 = true := by
  simp only [watch.thread_init]
  split <;> rfl

/-! ### The thread object -/

@[simp] theorem fs_push_notify_thread (w : watch) (ty : tasktype) (m : wstring) :
    (push_notify w ty m).m_thread = w.m_thread := rfl

@[simp] theorem fs_check_thread (w : watch) (c : Bool) : (w.check c).m_thread = w.m_thread := rfl

@[simp] theorem fs_sys_thread (w : watch) (cs : List oscall) : (w.sys cs).m_thread = w.m_thread :=
  rfl

@[simp] theorem fs_destroy_thread (t : task) (w : watch) :
    (t.destroy w).m_thread = w.m_thread := rfl

@[simp] theorem fs_open_thread (t : task) (w : watch) (path : wstring) (e : open_env) :
    (t.open w path e).2.2.m_thread = w.m_thread := by
  unfold task.open
  split
  · rfl
  · split
    · rfl
    · split <;> rfl

@[simp] theorem fs_start_thread (t : task) (w : watch) (e : start_env) :
    (t.start w e).2.2.m_thread = w.m_thread := by
  simp only [task.start]
  split
  · split <;> rfl
  · rfl

@[simp] theorem fs_removetask_thread (w : watch) (t : task) :
    (w.removetask t).m_thread = w.m_thread := by
  unfold watch.removetask
  split <;> rfl

@[simp] theorem fs_changes_cb_thread (P : platform) (t : task) (w : watch) (err n : DWORD)
    (e : start_env) : (t.changes_cb P w err n e).2.m_thread = w.m_thread := by
  unfold task.changes_cb
  split
  · simp [task.remove]
  · split
    · rfl
    · simp

@[simp] theorem fs_apc_add_thread (w : watch) (id : taskid) (path : wstring) (e : add_env) :
    (w.apc_add id path e).m_thread = w.m_thread := by
  simp only [watch.apc_add]
  split
  · simp
  · split <;> simp

@[simp] theorem fs_apc_remove_thread (w : watch) (id : taskid) :
    (w.apc_remove id).m_thread = w.m_thread := by
  unfold watch.apc_remove
  split <;> rfl

@[simp] theorem fs_apc_terminate_thread (w : watch) : w.apc_terminate.m_thread = w.m_thread := by
  simp only [watch.apc_terminate]
  split <;> rfl

theorem fs_apc_loop_thread (env : taskid → add_env) (q : List apc_arg) :
    ∀ w : watch, (apc_loop env q w).m_thread = w.m_thread := by
  induction q with
  | nil => intro w; rfl
  | cons arg rest ih =>
    intro w
    simp only [apc_loop]
    split <;> simp [ih]

@[simp] theorem fs_changes_thread (P : platform) (w : watch) (id : taskid) (c : completion) :
    (w.fwtask_changes_cb P id c).m_thread = w.m_thread := by
  simp only [watch.fwtask_changes_cb]
  split
  · rfl
  · split
    · rfl
    · simp

@[simp] theorem fs_work_thread (P : platform) (w : watch) (ev : worker_event) :
    (w.work P ev).m_thread = w.m_thread := by
  cases ev with
  | apc env =>
    simp only [watch.work]
    split
    · rfl
    · simp [watch.apc_cb, fs_apc_loop_thread]
  | changes id c => simp [watch.work]

theorem fs_batch_thread (P : platform) (batch : List worker_event) :
    ∀ w : watch, (batch.foldl (watch.work P) w).m_thread = w.m_thread := by
  induction batch with
  | nil => intro w; rfl
  | cons ev rest ih => intro w; simp [List.foldl, ih]

theorem fs_thread_cb_thread (P : platform) (sched : List (List worker_event)) :
    ∀ w : watch, (thread_cb P sched w).m_thread = w.m_thread := by
  induction sched with
  | nil => intro w; simp only [thread_cb]; split <;> rfl
  | cons batch rest ih =>
    intro w
    simp only [thread_cb]
    split
    · simp [ih, fs_batch_thread]
    · rfl

@[simp] theorem fs_worker_run_thread (P : platform) (w : watch) (sched : List (List worker_event)) :
    (w.worker_run P sched).m_thread = w.m_thread := by
  unfold watch.worker_run
  split
  · exact fs_thread_cb_thread P sched w
  · rfl

@[simp] theorem fs_thread_signal_thread (w : watch) (ok : Bool) :
    (w.thread_signal ok).2.m_thread = w.m_thread := rfl

@[simp] theorem fs_remove_thread (w : watch) (id : taskid) (ok : Bool) :
    (w.remove id ok).2.m_thread = w.m_thread := by
  simp only [watch.remove]
  split <;> rfl

@[simp] theorem fs_select_thread (w : watch) : w.select.2.m_thread = w.m_thread := by
  simp only [watch.select]
  split <;> rfl

theorem fs_add_thread (P : platform) (w : watch) (path : wstring) (ok : Bool) :
    (w.add P path ok).2.m_thread.isSome = true := by
  by_cases h : w.m_thread.isSome = true
  · simp [watch.add, watch.thread_init, h, watch.thread_signal, watch.sys]
  · simp [watch.add, watch.thread_init, h, watch.thread_signal, watch.sys]

theorem fs_stop_thread (P : platform) (w : watch) (ok : Bool) (sched : List (List worker_event))
    (h : (w.stop P ok sched).1 = true) : (w.stop P ok sched).2.m_thread = none := by
  revert h
  simp only [watch.stop]
  split
  · intro _; assumption
  · split
    · intro _; rfl
    · split
      · intro _; rfl
      · split
        · intro h; cases h
        · intro _; rfl

theorem fs_add_fst (P : platform) (w : watch) (path : wstring) (ok : Bool) :
    (w.add P path ok).1 = P.incr w.m_gentask := by
  simp [watch.add]

@[simp] theorem fs_add_gentask (P : platform) (w : watch) (path : wstring) (ok : Bool) :
    (w.add P path ok).2.m_gentask = P.incr w.m_gentask := by
  simp [watch.add, watch.thread_signal, watch.sys]

end fsevent

/-- The ids that `add` returns from a state with counter `g`, as long as the counter does not
wrap around: the next ids after `g`, as many as calls of `add` were made. -/
theorem fsevent.fs_returned_ids_from (P : platform) (cs : List fsevent.call) :
    ∀ w : fsevent.watch, (w.m_gentask : Int) + (fsevent.adds cs : Int) ≤ (P.taskid_max : Int) →
      ∃ k : Nat, k ≤ fsevent.adds cs ∧ fsevent.returned_ids P w cs
        = (List.range k).map (fun i : Nat => w.m_gentask + ((i : Int) + 1)) := by
  induction cs with
  | nil => intro w _; exact ⟨0, le_refl _, rfl⟩
  | cons c cs ih =>
    intro w h
    cases c with
    | add path ok =>
      have ha : fsevent.adds (fsevent.call.add path ok :: cs) = fsevent.adds cs + 1 := rfl
      rw [ha] at h
      push_cast at h
      have hlt : (w.m_gentask : Int) < (P.taskid_max : Int) := by linarith
      have hg : (w.add P path ok).2.m_gentask = w.m_gentask + 1 := by
        simp [platform.incr, hlt]
      have h1 : ((w.add P path ok).2.m_gentask : Int) + (fsevent.adds cs : Int)
          ≤ (P.taskid_max : Int) := by
        rw [hg]; linarith
      obtain ⟨k, hk, hids⟩ := ih _ h1
      refine ⟨k + 1, by omega, ?_⟩
      rw [List.range_succ_eq_map]
      simp only [fsevent.returned_ids, hids, hg, fsevent.fs_add_fst, platform.incr, hlt, if_true,
        List.map_cons, List.map_map]
      refine congrArg₂ _ (by simp) (List.map_congr_left ?_)
      intro i _
      simp only [Function.comp, Nat.cast_succ]
      ring
    | remove id ok =>
      have h1 : ((fsevent.step P w (fsevent.call.remove id ok)).m_gentask : Int)
          + (fsevent.adds cs : Int) ≤ (P.taskid_max : Int) := by
        simpa [fsevent.step, fsevent.adds] using h
      simpa [fsevent.returned_ids, fsevent.adds, fsevent.step, fsevent.returns] using ih _ h1
    | stop ok sched =>
      have h1 : ((fsevent.step P w (fsevent.call.stop ok sched)).m_gentask : Int)
          + (fsevent.adds cs : Int) ≤ (P.taskid_max : Int) := by
        simpa [fsevent.step, fsevent.adds] using h
      by_cases hr : fsevent.returns P w (fsevent.call.stop ok sched) = true
      · simpa [fsevent.returned_ids, fsevent.adds, fsevent.step, hr] using ih _ h1
      · exact ⟨0, Nat.zero_le _, by simp [fsevent.returned_ids, hr]⟩
    | select =>
      have h1 : ((fsevent.step P w fsevent.call.select).m_gentask : Int)
          + (fsevent.adds cs : Int) ≤ (P.taskid_max : Int) := by
        simpa [fsevent.step, fsevent.adds] using h
      simpa [fsevent.returned_ids, fsevent.adds, fsevent.step, fsevent.returns] using ih _ h1
    | worker sched =>
      have h1 : ((fsevent.step P w (fsevent.call.worker sched)).m_gentask : Int)
          + (fsevent.adds cs : Int) ≤ (P.taskid_max : Int) := by
        simpa [fsevent.step, fsevent.adds] using h
      simpa [fsevent.returned_ids, fsevent.adds, fsevent.step, fsevent.returns] using ih _ h1

/-- Consecutive integers after `g` are strictly increasing, pairwise distinct, and none is `g`. -/
theorem consecutive_ids (g : taskid) (k : Nat) :
    ((List.range k).map (fun i : Nat => g + ((i : Int) + 1))).Pairwise (fun a b => a < b)
    ∧ ((List.range k).map (fun i : Nat => g + ((i : Int) + 1))).Nodup
    ∧ g ∉ (List.range k).map (fun i : Nat => g + ((i : Int) + 1)) := by
  have hp : ((List.range k).map (fun i : Nat => g + ((i : Int) + 1))).Pairwise
      (fun a b => a < b) := by
    rw [List.pairwise_map]
    refine (List.pairwise_lt_range k).imp ?_
    intro a b hab
    have : (a : Int) < (b : Int) := by exact_mod_cast hab
    show g + ((a : Int) + 1) < g + ((b : Int) + 1)
    linarith
  refine ⟨hp, hp.imp (fun h => ne_of_lt h), ?_⟩
  intro hmem
  rw [List.mem_map] at hmem
  obtain ⟨i, _, hi⟩ := hmem
  have : (0 : Int) ≤ (i : Int) := Int.ofNat_nonneg i
  have h2 : g + ((i : Int) + 1) = g := hi
  linarith

/-- C1. In both back ends `add` pre-increments `m_gentask` and returns it, and over any
sequence of calls that makes fewer adds than the id type can count, the k-th `add` returns
`kInvalidTaskId + k`; hence the returned ids are strictly increasing, pairwise distinct (an id is
not handed out a second time, whatever happened to its task) and never the sentinel. -/
theorem add_returns_fresh_ids (P : platform) (fc : List filewatch.call) (ec : List fsevent.call)
    (hf : (P.kInvalidTaskId : Int) + (filewatch.adds fc : Int) ≤ (P.taskid_max : Int))
    (he : (P.kInvalidTaskId : Int) + (fsevent.adds ec : Int) ≤ (P.taskid_max : Int)) :
    (∀ (w : filewatch.watch) (path : wstring) (e : filewatch.add_env),
        (w.add P path e).1 = P.incr w.m_gentask
        ∧ (w.add P path e).2.m_gentask = (w.add P path e).1)
    ∧ (∀ (w : fsevent.watch) (path : wstring) (ok : Bool),
        (w.add P path ok).1 = P.incr w.m_gentask
        ∧ (w.add P path ok).2.m_gentask = (w.add P path ok).1)
    ∧ (filewatch.returned_ids P (filewatch.watch.init P) fc).length = filewatch.adds fc
    ∧ filewatch.returned_ids P (filewatch.watch.init P) fc
        = (List.range (filewatch.returned_ids P (filewatch.watch.init P) fc).length).map
            (fun k : Nat => P.kInvalidTaskId + ((k : Int) + 1))
    ∧ (filewatch.returned_ids P (filewatch.watch.init P) fc).Pairwise (fun a b => a < b)
    ∧ (filewatch.returned_ids P (filewatch.watch.init P) fc).Nodup
    ∧ P.kInvalidTaskId ∉ filewatch.returned_ids P (filewatch.watch.init P) fc
    ∧ fsevent.returned_ids P (fsevent.watch.init P) ec
        = (List.range (fsevent.returned_ids P (fsevent.watch.init P) ec).length).map
            (fun k : Nat => P.kInvalidTaskId + ((k : Int) + 1))
    ∧ (fsevent.returned_ids P (fsevent.watch.init P) ec).Pairwise (fun a b => a < b)
    ∧ (fsevent.returned_ids P (fsevent.watch.init P) ec).Nodup
    ∧ P.kInvalidTaskId ∉ fsevent.returned_ids P (fsevent.watch.init P) ec := by
  have h1 := filewatch.fw_returned_ids_from P fc (filewatch.watch.init P) hf
  obtain ⟨k, _, h2⟩ := fsevent.fs_returned_ids_from P ec (fsevent.watch.init P) he
  have g1 : (filewatch.watch.init P).m_gentask = P.kInvalidTaskId := rfl
  have g2 : (fsevent.watch.init P).m_gentask = P.kInvalidTaskId := rfl
  rw [g1] at h1
  rw [g2] at h2
  have c1 := consecutive_ids P.kInvalidTaskId (filewatch.adds fc)
  have c2 := consecutive_ids P.kInvalidTaskId k
  refine ⟨fun w path e => ⟨filewatch.fw_add_fst P w path e, ?_⟩,
    fun w path ok => ⟨fsevent.fs_add_fst P w path ok, ?_⟩, ?_⟩
  · rw [filewatch.fw_add_gentask, filewatch.fw_add_fst]
  · rw [fsevent.fs_add_gentask, fsevent.fs_add_fst]
  · rw [h1, h2]
    simp only [List.length_map, List.length_range]
    exact ⟨trivial, trivial, c1.1, c1.2.1, c1.2.2, trivial, c2.1, c2.2.1, c2.2.2⟩

/-- C1, at an example: in each back end the two adds of the example return the ids 1 and 2. -/
theorem add_returns_fresh_ids_witness :
    ((example_platform.kInvalidTaskId : Int) + (filewatch.adds filewatch.example_calls : Int)
        ≤ (example_platform.taskid_max : Int))
    ∧ ((example_platform.kInvalidTaskId : Int) + (fsevent.adds fsevent.example_calls : Int)
        ≤ (example_platform.taskid_max : Int))
    ∧ filewatch.returned_ids example_platform (filewatch.watch.init example_platform)
        filewatch.example_calls = [1, 2]
    ∧ fsevent.returned_ids example_platform (fsevent.watch.init example_platform)
        fsevent.example_calls = [1, 2] := by
  have h := add_returns_fresh_ids example_platform filewatch.example_calls fsevent.example_calls
    (by decide) (by decide)
  refine ⟨by decide, by decide, ?_, ?_⟩
  · rw [h.2.2.2.1, h.2.2.1]; rfl
  · rw [h.2.2.2.2.2.2.2.1]; rfl

/-- C2, refuted as stated: in the example two adds were made, the worker ran and `stop` returned;
`remove` then returns false although `add` has been called on the service. -/
theorem remove_false_after_add_and_stop :
    fsevent.adds fsevent.example_calls = 2
    ∧ ((fsevent.run example_platform (fsevent.watch.init example_platform)
          fsevent.example_calls).remove 2 true).1 = false := by
  decide

/-- C2, as the code has it: `remove(id)` returns false exactly when `m_thread` is null, and then
changes nothing; otherwise, for every id, it returns true and appends one `Remove(id)` at the back
of the control queue.  `m_thread` is null in the constructed service and after every `stop` that
returns, it is non-null after every `add`, and `remove`, `select` and the worker leave it alone. -/
theorem remove_false_iff_no_thread (P : platform) (w : fsevent.watch) (id : taskid) (ok : Bool) :
    ((w.remove id ok).1 = false ↔ w.m_thread = none)
    ∧ ((w.remove id ok).1 = false → (w.remove id ok).2 = w)
    ∧ ((w.remove id ok).1 = true →
        (w.remove id ok).2.m_apc_queue = w.m_apc_queue ++ [⟨fsevent.apc_type.Remove, id, []⟩])
    ∧ (fsevent.watch.init P).m_thread = none
    ∧ (∀ (path : wstring) (s : Bool), (w.add P path s).2.m_thread ≠ none)
    ∧ (∀ (s : Bool) (sched : List (List fsevent.worker_event)),
        (w.stop P s sched).1 = true → (w.stop P s sched).2.m_thread = none)
    ∧ (∀ (i : taskid) (s : Bool), (w.remove i s).2.m_thread = w.m_thread)
    ∧ w.select.2.m_thread = w.m_thread
    ∧ (∀ sched : List (List fsevent.worker_event), (w.worker_run P sched).m_thread = w.m_thread) := by
  refine ⟨?_, ?_, ?_, rfl, ?_, fun s sched h => fsevent.fs_stop_thread P w s sched h,
    fun i s => fsevent.fs_remove_thread w i s, fsevent.fs_select_thread w,
    fun sched => fsevent.fs_worker_run_thread P w sched⟩
  · cases h : w.m_thread <;> simp [fsevent.watch.remove, h]
  · cases h : w.m_thread <;> simp [fsevent.watch.remove, h]
  · cases h : w.m_thread <;>
      simp [fsevent.watch.remove, h, fsevent.watch.thread_signal, fsevent.watch.sys]
  · intro path s hn
    have := fsevent.fs_add_thread P w path s
    rw [hn] at this
    cases this

/-- C2, at examples: after the example, whose `stop` returned, `remove(2)` changes nothing; after a
single `add`, `remove(5)`, for an id that was never handed out, appends `Remove(5)`. -/
theorem remove_false_iff_no_thread_witness :
    ((fsevent.run example_platform (fsevent.watch.init example_platform)
        fsevent.example_calls).remove 2 true).2
      = fsevent.run example_platform (fsevent.watch.init example_platform) fsevent.example_calls
    ∧ (((fsevent.watch.init example_platform).add example_platform (L "d") true).2.remove 5
        true).2.m_apc_queue
      = ((fsevent.watch.init example_platform).add example_platform (L "d") true).2.m_apc_queue
          ++ [⟨fsevent.apc_type.Remove, 5, []⟩] :=
  ⟨(remove_false_iff_no_thread example_platform
      (fsevent.run example_platform (fsevent.watch.init example_platform) fsevent.example_calls)
      2 true).2.1 (by decide),
   (remove_false_iff_no_thread example_platform
      ((fsevent.watch.init example_platform).add example_platform (L "d") true).2
      5 true).2.2.1 (by decide)⟩

/-! ## Stopping the poll-driven service -/

/-- Cancelling every task of a registry keeps the keys. -/
theorem fw_cancel_each_keys (m : List (taskid × filewatch.task)) :
    (filewatch.cancel_each m).1.map Prod.fst = m.map Prod.fst := by
  induction m with
  | nil => rfl
  | cons kv rest ih =>
    obtain ⟨k, t⟩ := kv
    simp [filewatch.cancel_each, ih]

/-- A cancelled task has an invalid handle, and cancelling it again requests nothing. -/
theorem fw_cancel_cancel (t : filewatch.task) :
    t.cancel.1.m_directory = none ∧ t.cancel.1.cancel = (t.cancel.1, []) := by
  cases h : t.m_directory <;> simp [filewatch.task.cancel, h]

/-- Cancelling every task of a registry a second time changes nothing and requests nothing. -/
theorem fw_cancel_each_twice (m : List (taskid × filewatch.task)) :
    filewatch.cancel_each (filewatch.cancel_each m).1 = ((filewatch.cancel_each m).1, []) := by
  induction m with
  | nil => rfl
  | cons kv rest ih =>
    obtain ⟨k, t⟩ := kv
    simp only [filewatch.cancel_each, ih, (fw_cancel_cancel t).2, List.append_nil]

/-- Applying `Terminate` a second time changes nothing. -/
theorem fw_apc_terminate_twice (w : filewatch.watch) :
    w.apc_terminate.apc_terminate = w.apc_terminate := by
  cases hm : w.m_tasks with
  | nil => simp [filewatch.watch.apc_terminate, hm]
  | cons kv rest =>
    obtain ⟨k, t⟩ := kv
    have h2 := fw_cancel_each_twice ((k, t) :: rest)
    simp only [filewatch.cancel_each] at h2
    simp [filewatch.watch.apc_terminate, hm, filewatch.cancel_each, h2]

/-- Applying `Terminate` does not look at the notification queue. -/
theorem fw_apc_terminate_push (v : filewatch.watch) (ty : tasktype) (m : wstring) :
    (filewatch.push_notify v ty m).apc_terminate = filewatch.push_notify v.apc_terminate ty m := by
  cases hm : v.m_tasks <;> simp [filewatch.watch.apc_terminate, filewatch.push_notify, hm]

/-- The method `stop` erases nothing: the registry has the same keys after it as before. -/
theorem fw_stop_keys (w : filewatch.watch) :
    w.stop.m_tasks.map Prod.fst = w.m_tasks.map Prod.fst := by
  cases hm : w.m_tasks with
  | nil => simp [filewatch.watch.stop, filewatch.watch.apc_terminate, filewatch.push_notify, hm]
  | cons kv rest =>
    have := fw_cancel_each_keys (kv :: rest)
    simpa [filewatch.watch.stop, filewatch.watch.apc_terminate, filewatch.push_notify, hm]
      using this

/-- C3, evaluated on the code: `stop` erases nothing, the registry has the same keys after it as
before.  With one directory added, the registry still holds task 1 after `stop`, and the
assertion `m_tasks.empty()` of the destructor fails. -/
theorem stop_keeps_registry (w : filewatch.watch) :
    w.stop.m_tasks.map Prod.fst = w.m_tasks.map Prod.fst
    ∧ ((filewatch.watch.init example_platform).add example_platform (L "d")
          ⟨[], [], opens_as 7, arms⟩).2.stop.m_tasks.map Prod.fst = [1]
    ∧ ((filewatch.watch.init example_platform).add example_platform (L "d")
          ⟨[], [], opens_as 7, arms⟩).2.assert_failed = false
    ∧ ((filewatch.watch.init example_platform).add example_platform (L "d")
          ⟨[], [], opens_as 7, arms⟩).2.destroy.assert_failed = true := by
  refine ⟨?_, by decide, by decide, by decide⟩
  cases hm : w.m_tasks with
  | nil => simp [filewatch.watch.stop, filewatch.watch.apc_terminate, filewatch.push_notify, hm]
  | cons kv rest =>
    have := fw_cancel_each_keys (kv :: rest)
    simpa [filewatch.watch.stop, filewatch.watch.apc_terminate, filewatch.push_notify, hm]
      using this

/-- C4, refuted as stated: on the service just constructed, the queue after two calls of `stop`
holds two `TaskTerminate` notifications and differs from the queue after one call. -/
theorem stop_twice_differs :
    (filewatch.watch.init example_platform).stop.stop.m_notify
      = [⟨tasktype.TaskTerminate, []⟩, ⟨tasktype.TaskTerminate, []⟩]
    ∧ (filewatch.watch.init example_platform).stop.m_notify = [⟨tasktype.TaskTerminate, []⟩]
    ∧ (filewatch.watch.init example_platform).stop.stop.m_notify
      ≠ (filewatch.watch.init example_platform).stop.m_notify := by
  decide

/-- C4, as the code has it: a second `stop` leaves the registry (and with it every task and its
handle), the terminate flag and everything else as the first `stop` left them, makes no request to
the operating system, and appends one more `TaskTerminate` to the notification queue. -/
theorem stop_twice (w : filewatch.watch) :
    w.stop.stop
      = { w.stop with m_notify := w.stop.m_notify ++ [⟨tasktype.TaskTerminate, L ""⟩] }
    ∧ w.stop.stop.m_tasks = w.stop.m_tasks
    ∧ w.stop.stop.m_terminate = w.stop.m_terminate
    ∧ w.stop.m_terminate = true
    ∧ w.stop.stop.os_trace = w.stop.os_trace
    ∧ w.stop.stop.m_notify = w.stop.m_notify ++ [⟨tasktype.TaskTerminate, L ""⟩]
    ∧ (∀ kv ∈ w.stop.m_tasks, kv.2.m_directory = none) := by
  have key : w.stop.stop
      = { w.stop with m_notify := w.stop.m_notify ++ [⟨tasktype.TaskTerminate, L ""⟩] } := by
    simp only [filewatch.watch.stop, fw_apc_terminate_push, fw_apc_terminate_twice]
    rfl
  refine ⟨key, by rw [key], by rw [key], ?_, by rw [key], by rw [key], ?_⟩
  · simp only [filewatch.watch.stop, filewatch.push_notify, filewatch.watch.apc_terminate]
    split <;> rfl
  · intro kv hkv
    have hall : ∀ m : List (taskid × filewatch.task),
        ∀ x ∈ (filewatch.cancel_each m).1, x.2.m_directory = none := by
      intro m
      induction m with
      | nil => intro x hx; cases hx
      | cons a rest ih =>
        obtain ⟨k, t⟩ := a
        intro x hx
        simp only [filewatch.cancel_each, List.mem_cons] at hx
        rcases hx with rfl | hx
        · exact (fw_cancel_cancel t).1
        · exact ih x hx
    cases hm : w.m_tasks with
    | nil =>
      simp [filewatch.watch.stop, filewatch.watch.apc_terminate, filewatch.push_notify, hm] at hkv
    | cons a rest =>
      have h3 : w.stop.m_tasks = (filewatch.cancel_each (a :: rest)).1 := by
        simp [filewatch.watch.stop, filewatch.watch.apc_terminate, filewatch.push_notify, hm]
      rw [h3] at hkv
      exact hall _ kv hkv

/-! ## The kinds of notification of the callback-driven back end -/

/-- The record loop pushes only kinds that its `switch` names. -/
theorem record_loop_kinds (P : platform) (kind : DWORD → Option tasktype) (dir : wstring)
    (buf : List Nat) (fuel : Nat) :
    ∀ off : Nat, ∀ n ∈ (record_loop P kind dir buf fuel off).notes,
      ∃ a : DWORD, kind a = some n.m_type := by
  induction fuel with
  | zero => intro off n hn; simp [record_loop] at hn
  | succ fuel ih =>
    intro off n hn
    simp only [record_loop] at hn
    have hhere : ∀ x ∈ (match kind (Action buf off) with
        | some ty => [(⟨ty, P.path_join dir (FileName buf off)⟩ : notify)]
        | none => []), ∃ a : DWORD, kind a = some x.m_type := by
      intro x hx
      cases hk : kind (Action buf off) with
      | none => simp [hk] at hx
      | some ty =>
        simp only [hk, List.mem_singleton] at hx
        exact ⟨Action buf off, by rw [hk, hx]⟩
    split at hn
    · exact hhere n hn
    · rw [List.mem_append] at hn
      rcases hn with hn | hn
      · exact hhere n hn
      · exact ih _ n hn

namespace fsevent

/-- The `switch` of `changes_cb` names only kinds of `event_kind`. -/
theorem fs_action_type_kind (a : DWORD) (ty : tasktype) (h : action_type a = some ty) :
    event_kind ty := by
  unfold action_type at h
  unfold event_kind
  split at h
  · cases h; simp
  · split at h
    · cases h; simp
    · split at h
      · cases h; simp
      · split at h
        · cases h; simp
        · cases h

theorem fs_plain_of_eq (w v : watch) (h : v.m_notify = w.m_notify) (hw : w.plain) : v.plain := by
  unfold watch.plain at *
  rw [h]
  exact hw

theorem fs_plain_push (w : watch) (ty : tasktype) (m : wstring) (hk : event_kind ty)
    (hw : w.plain) : (push_notify w ty m).plain := by
  intro n hn
  simp only [push_notify, List.mem_append, List.mem_singleton] at hn
  rcases hn with hn | hn
  · exact hw n hn
  · rw [hn]; exact hk

theorem fs_kind_error : event_kind tasktype.Error := Or.inl rfl

theorem fs_open_plain (t : task) (w : watch) (path : wstring) (e : open_env) (hw : w.plain) :
    (t.open w path e).2.2.plain := by
  unfold task.open
  split
  · exact hw
  · split
    · exact fs_plain_push _ _ _ fs_kind_error hw
    · split
      · exact fs_plain_push _ _ _ fs_kind_error (fs_plain_of_eq w _ rfl hw)
      · exact fs_plain_of_eq w _ rfl hw

theorem fs_start_plain (t : task) (w : watch) (e : start_env) (hw : w.plain) :
    (t.start w e).2.2.plain := by
  simp only [task.start]
  split
  · split
    · exact fs_plain_push _ _ _ fs_kind_error (fs_plain_of_eq w _ rfl hw)
    · exact fs_plain_of_eq w _ rfl hw
  · exact fs_plain_push _ _ _ fs_kind_error (fs_plain_of_eq w _ rfl hw)

theorem fs_removetask_notify (w : watch) (t : task) :
    (w.removetask t).m_notify = w.m_notify := by
  unfold watch.removetask
  split <;> rfl

theorem fs_changes_cb_plain (P : platform) (t : task) (w : watch) (err n : DWORD)
    (e : start_env) (hw : w.plain) : (t.changes_cb P w err n e).2.plain := by
  unfold task.changes_cb
  split
  · exact fs_plain_of_eq w _ (fs_removetask_notify w t) hw
  · split
    · exact hw
    · intro x hx
      simp only [List.mem_append] at hx
      rcases hx with hx | hx
      · refine fs_start_plain _ _ e ?_ x hx
        exact fs_plain_of_eq w _ rfl hw
      · obtain ⟨a, ha⟩ := record_loop_kinds P action_type _ _ _ 0 x hx
        exact fs_action_type_kind a _ ha

theorem fs_apc_add_plain (w : watch) (id : taskid) (path : wstring) (e : add_env)
    (hw : w.plain) : (w.apc_add id path e).plain := by
  simp only [watch.apc_add]
  split
  · exact fs_plain_of_eq _ _ rfl (fs_open_plain _ w path e.opening hw)
  · split
    · exact fs_plain_of_eq _ _ rfl
        (fs_start_plain _ _ e.start (fs_plain_of_eq _ _ rfl (fs_open_plain _ w path e.opening hw)))
    · exact fs_plain_of_eq _ _ rfl
        (fs_start_plain _ _ e.start (fs_plain_of_eq _ _ rfl (fs_open_plain _ w path e.opening hw)))

theorem fs_apc_remove_notify (w : watch) (id : taskid) :
    (w.apc_remove id).m_notify = w.m_notify := by
  unfold watch.apc_remove
  split <;> rfl

theorem fs_apc_terminate_notify (w : watch) : w.apc_terminate.m_notify = w.m_notify := by
  simp only [watch.apc_terminate]
  split <;> rfl

theorem fs_apc_loop_plain (env : taskid → add_env) (q : List apc_arg) :
    ∀ w : watch, w.plain → (apc_loop env q w).plain := by
  induction q with
  | nil => intro w hw; exact hw
  | cons arg rest ih =>
    intro w hw
    simp only [apc_loop]
    split
    · exact ih _ (fs_apc_add_plain _ _ _ _ (fs_plain_of_eq w _ rfl hw))
    · exact ih _ (fs_plain_of_eq w _ (fs_apc_remove_notify _ _) hw)
    · exact fs_plain_of_eq w _ (fs_apc_terminate_notify _) hw

theorem fs_changes_plain (P : platform) (w : watch) (id : taskid) (c : completion)
    (hw : w.plain) : (w.fwtask_changes_cb P id c).plain := by
  simp only [watch.fwtask_changes_cb]
  split
  · exact hw
  · split
    · exact hw
    · exact fs_plain_of_eq _ _ rfl (fs_changes_cb_plain P _ _ _ _ _ (fs_plain_of_eq w _ rfl hw))

theorem fs_work_plain (P : platform) (w : watch) (ev : worker_event) (hw : w.plain) :
    (w.work P ev).plain := by
  cases ev with
  | apc env =>
    simp only [watch.work]
    split
    · exact hw
    · exact fs_apc_loop_plain env _ _ (fs_plain_of_eq w _ rfl hw)
  | changes id c => exact fs_changes_plain P w id c hw

theorem fs_batch_plain (P : platform) (batch : List worker_event) :
    ∀ w : watch, w.plain → (batch.foldl (watch.work P) w).plain := by
  induction batch with
  | nil => intro w hw; exact hw
  | cons ev rest ih => intro w hw; exact ih _ (fs_work_plain P w ev hw)

theorem fs_thread_cb_plain (P : platform) (sched : List (List worker_event)) :
    ∀ w : watch, w.plain → (thread_cb P sched w).plain := by
  induction sched with
  | nil => intro w hw; simp only [thread_cb]; split <;> exact hw
  | cons batch rest ih =>
    intro w hw
    simp only [thread_cb]
    split
    · exact ih _ (fs_batch_plain P batch w hw)
    · exact hw

theorem fs_worker_run_plain (P : platform) (w : watch) (sched : List (List worker_event))
    (hw : w.plain) : (w.worker_run P sched).plain := by
  unfold watch.worker_run
  split
  · exact fs_thread_cb_plain P sched w hw
  · exact hw

theorem fs_stop_plain (P : platform) (w : watch) (ok : Bool) (sched : List (List worker_event))
    (hw : w.plain) : (w.stop P ok sched).2.plain := by
  simp only [watch.stop]
  split
  · exact hw
  · split
    · exact hw
    · split
      · exact hw
      · have h2 := fs_worker_run_plain P
          (({ w with m_apc_queue := w.m_apc_queue ++ [⟨apc_type.Terminate, 0, []⟩] } :
            watch).thread_signal ok).2 sched (fs_plain_of_eq w _ rfl hw)
        split
        · exact h2
        · exact fs_plain_of_eq _ _ rfl h2

theorem fs_add_plain (P : platform) (w : watch) (path : wstring) (ok : Bool) (hw : w.plain) :
    (w.add P path ok).2.plain := by
  refine fs_plain_of_eq w _ ?_ hw
  by_cases h : w.m_thread.isSome = true <;>
    simp [watch.add, watch.thread_init, h, watch.thread_signal, watch.sys]

theorem fs_remove_plain (w : watch) (id : taskid) (ok : Bool) (hw : w.plain) :
    (w.remove id ok).2.plain := by
  refine fs_plain_of_eq w _ ?_ hw
  simp only [watch.remove]
  split <;> rfl

theorem fs_select_plain (w : watch) (hw : w.plain) : w.select.2.plain := by
  unfold watch.select
  split
  · exact hw
  · rename_i n rest hq
    intro x hx
    exact hw x (by rw [hq]; exact List.mem_cons_of_mem _ hx)

theorem fs_step_plain (P : platform) (w : watch) (c : call) (hw : w.plain) :
    (step P w c).plain := by
  cases c with
  | add path ok => exact fs_add_plain P w path ok hw
  | remove id ok => exact fs_remove_plain w id ok hw
  | stop ok sched => exact fs_stop_plain P w ok sched hw
  | select => exact fs_select_plain w hw
  | worker sched => exact fs_worker_run_plain P w sched hw

theorem fs_run_plain (P : platform) (cs : List call) :
    ∀ w : watch, w.plain → (run P w cs).plain := by
  induction cs with
  | nil => intro w hw; exact hw
  | cons c cs ih =>
    intro w hw
    simp only [run]
    split
    · exact ih _ (fs_step_plain P w c hw)
    · exact fs_step_plain P w c hw

theorem fs_destroy_plain (P : platform) (w : watch) (ok : Bool)
    (sched : List (List worker_event)) (hw : w.plain) : (w.destroy P ok sched).2.plain := by
  simp only [watch.destroy]
  split
  · exact fs_plain_of_eq _ _ rfl (fs_stop_plain P w ok sched hw)
  · exact fs_stop_plain P w ok sched hw

theorem fs_plain_count (w : watch) (hw : w.plain) : w.terminate_count = 0 := by
  unfold watch.terminate_count
  rw [List.countP_eq_zero]
  intro n hn
  have := hw n hn
  unfold event_kind at this
  rcases this with h | h | h | h | h <;> simp [h]

end fsevent

/-- C5, refuted as stated: in the lifetime with one task (`add`, `stop`, destruction), `stop`
returns, the registry is empty, no assertion fails, and the notification queue, from which nothing
was popped, holds no `TaskTerminate` notification instead of one; the same with no task at all. -/
theorem lifetime_without_terminate :
    fsevent.adds fsevent.example_lifetime = 1
    ∧ ((fsevent.run example_platform (fsevent.watch.init example_platform)
          fsevent.example_lifetime).destroy example_platform true []).1 = true
    ∧ ((fsevent.run example_platform (fsevent.watch.init example_platform)
          fsevent.example_lifetime).destroy example_platform true []).2.m_tasks = []
    ∧ ((fsevent.run example_platform (fsevent.watch.init example_platform)
          fsevent.example_lifetime).destroy example_platform true []).2.assert_failed = false
    ∧ ((fsevent.run example_platform (fsevent.watch.init example_platform)
          fsevent.example_lifetime).destroy example_platform true []).2.terminate_count = 0
    ∧ ((fsevent.run example_platform (fsevent.watch.init example_platform)
          [fsevent.call.stop true []]).destroy example_platform true []).2.terminate_count = 0 := by
  decide

/-- C5, as the code has it: whatever calls are made on a service (in particular M adds, for any
M, with any progress of the worker), followed by `stop` and by destruction, the notification
queue holds no `TaskTerminate` notification; every notification in it has one of the kinds Error,
Create, Delete, Modify, Rename. -/
theorem lifetime_kinds (P : platform) (cs : List fsevent.call) (ok : Bool)
    (sched : List (List fsevent.worker_event)) (ok2 : Bool)
    (sched2 : List (List fsevent.worker_event)) :
    ((fsevent.run P (fsevent.watch.init P)
        (cs ++ [fsevent.call.stop ok sched])).destroy P ok2 sched2).2.terminate_count = 0
    ∧ ∀ n ∈ ((fsevent.run P (fsevent.watch.init P)
        (cs ++ [fsevent.call.stop ok sched])).destroy P ok2 sched2).2.m_notify,
        n.m_type = tasktype.Error ∨ n.m_type = tasktype.Create ∨ n.m_type = tasktype.Delete
          ∨ n.m_type = tasktype.Modify ∨ n.m_type = tasktype.Rename := by
  have h0 : (fsevent.watch.init P).plain := by
    intro n hn
    cases hn
  have h := fsevent.fs_destroy_plain P _ ok2 sched2
    (fsevent.fs_run_plain P (cs ++ [fsevent.call.stop ok sched]) _ h0)
  exact ⟨fsevent.fs_plain_count _ h, h⟩

/-! ## Cancelling a task -/

/-- C10. In both back ends, after `cancel` the handle is invalid; a second `cancel` makes no
request to the operating system and leaves the task as it is; and `cancel` on a task whose handle
is invalid already makes no request and leaves the task as it is. -/
theorem cancel_idempotent (t : filewatch.task) (u : fsevent.task) :
    t.cancel.1.m_directory = none
    ∧ t.cancel.1.cancel = (t.cancel.1, [])
    ∧ (t.m_directory = none → t.cancel = (t, []))
    ∧ u.cancel.1.m_directory = none
    ∧ u.cancel.1.cancel = (u.cancel.1, [])
    ∧ (u.m_directory = none → u.cancel = (u, [])) := by
  refine ⟨(fw_cancel_cancel t).1, (fw_cancel_cancel t).2, ?_, ?_, ?_, ?_⟩
  · intro h; simp [filewatch.task.cancel, h]
  · cases h : u.m_directory <;> simp [fsevent.task.cancel, h]
  · cases h : u.m_directory <;> simp [fsevent.task.cancel, h]
  · intro h; simp [fsevent.task.cancel, h]

/-- C10, at examples: a task of each back end that was never opened is left as it is, with no
request made. -/
theorem cancel_idempotent_witness :
    (filewatch.task.create 1 [] []).cancel = (filewatch.task.create 1 [] [], [])
    ∧ (fsevent.task.create 1 [] []).cancel = (fsevent.task.create 1 [] [], []) :=
  ⟨(cancel_idempotent (filewatch.task.create 1 [] []) (fsevent.task.create 1 [] [])).2.2.1 rfl,
   (cancel_idempotent (filewatch.task.create 1 [] []) (fsevent.task.create 1 [] [])).2.2.2.2.2
     rfl⟩

/-! ## Decoding the records of a completed read -/

theorem byte_at_cons_zero (x : Nat) (l : List Nat) : byte_at (x :: l) 0 = x % 256 := rfl

theorem byte_at_cons_succ (x : Nat) (l : List Nat) (i : Nat) :
    byte_at (x :: l) (i + 1) = byte_at l i := rfl

theorem byte_at_tail (l : List Nat) (i : Nat) : byte_at l.tail i = byte_at l (i + 1) := by
  cases l with
  | nil => simp [byte_at]
  | cons x l => rfl

theorem byte_at_head (l : List Nat) : l.headD 0 % 256 = byte_at l 0 := by
  cases l with
  | nil => rfl
  | cons x l => rfl

/-- After `memcpy(dst, src, n)` the first `n` bytes are those of `src`, the others are left. -/
theorem byte_at_memcpy (n : Nat) :
    ∀ (dst src : List Nat) (i : Nat),
      byte_at (memcpy n dst src) i = if i < n then byte_at src i else byte_at dst i := by
  induction n with
  | zero => intro dst src i; simp [memcpy]
  | succ n ih =>
    intro dst src i
    cases i with
    | zero =>
      simp only [memcpy, byte_at_cons_zero, Nat.zero_lt_succ, if_true]
      exact byte_at_head src
    | succ i =>
      simp only [memcpy, byte_at_cons_succ, ih, byte_at_tail]
      simp

/-- Two buffers that hold the same bytes below `n`. -/
theorem fields_agree (a b : List Nat) (n off : Nat) (h : ∀ i < n, byte_at a i = byte_at b i)
    (hoff : off + kNameOffset ≤ n) :
    NextEntryOffset a off = NextEntryOffset b off ∧ Action a off = Action b off
    ∧ FileNameLength a off = FileNameLength b off ∧ record_end a off = record_end b off := by
  unfold kNameOffset at hoff
  have h1 : NextEntryOffset a off = NextEntryOffset b off := by
    unfold NextEntryOffset dword_at
    rw [h off (by omega), h (off + 1) (by omega), h (off + 2) (by omega), h (off + 3) (by omega)]
  have h2 : Action a off = Action b off := by
    unfold Action dword_at
    rw [h (off + 4) (by omega), h (off + 4 + 1) (by omega), h (off + 4 + 2) (by omega),
      h (off + 4 + 3) (by omega)]
  have h3 : FileNameLength a off = FileNameLength b off := by
    unfold FileNameLength dword_at
    rw [h (off + 8) (by omega), h (off + 8 + 1) (by omega), h (off + 8 + 2) (by omega),
      h (off + 8 + 3) (by omega)]
  exact ⟨h1, h2, h3, by unfold record_end; rw [h3]⟩

theorem name_agree (a b : List Nat) (n off : Nat) (h : ∀ i < n, byte_at a i = byte_at b i)
    (hend : record_end a off ≤ n) : FileName a off = FileName b off := by
  have hoff : off + kNameOffset ≤ n := by unfold record_end at hend; omega
  have hl := (fields_agree a b n off h hoff).2.2.1
  unfold FileName
  rw [← hl]
  apply List.map_congr_left
  intro k hk
  rw [List.mem_range] at hk
  unfold record_end at hend
  unfold kWcharSize at hk hend ⊢
  unfold wchar_at
  rw [h _ (by omega), h _ (by omega)]

/-- A well-formed chain inside the first `n` bytes depends on those bytes only. -/
theorem chain_agree (a b : List Nat) (n : Nat) (h : ∀ i < n, byte_at a i = byte_at b i) :
    ∀ (off : Nat) (recs : List (DWORD × wstring)), chain a n off recs → chain b n off recs := by
  intro off recs hc
  induction hc with
  | last off hend hz =>
    have hoff : off + kNameOffset ≤ n := by unfold record_end at hend; omega
    obtain ⟨h1, h2, _, h4⟩ := fields_agree a b n off h hoff
    rw [h2, name_agree a b n off h hend]
    exact chain.last off (h4 ▸ hend) (h1 ▸ hz)
  | next off rest hend hnz _ ih =>
    have hoff : off + kNameOffset ≤ n := by unfold record_end at hend; omega
    obtain ⟨h1, h2, _, h4⟩ := fields_agree a b n off h hoff
    rw [h2, name_agree a b n off h hend]
    exact chain.next off rest (h4 ▸ hend) (h1 ▸ hnz) (h1 ▸ ih)

/-- The notifications of the records `recs` under the `switch` `kind`. -/
theorem chain_nonempty (buf : List Nat) (n off : Nat) (recs : List (DWORD × wstring))
    (hc : chain buf n off recs) : off + kNameOffset ≤ n ∧ recs ≠ [] := by
  induction hc with
  | last off hend _ => exact ⟨by unfold record_end at hend; omega, by simp⟩
  | next off rest hend _ _ _ => exact ⟨by unfold record_end at hend; omega, by simp⟩

/-- On a well-formed chain inside the array the record loop visits exactly the records of the
chain: it pushes one notification for each record whose action the `switch` knows, in order,
reads nothing at or beyond `n`, and stays inside the array. -/
theorem record_loop_chain (P : platform) (kind : DWORD → Option tasktype) (dir : wstring)
    (buf : List Nat) (n : Nat) (hn : n ≤ kBufSize) :
    ∀ (off : Nat) (recs : List (DWORD × wstring)), chain buf n off recs →
      ∀ fuel : Nat, kBufSize < off + fuel →
        (record_loop P kind dir buf fuel off).notes
            = recs.filterMap (fun r => (kind r.1).map (fun ty => ⟨ty, P.path_join dir r.2⟩))
        ∧ (record_loop P kind dir buf fuel off).assert_failed
            = recs.any (fun r => (kind r.1).isNone)
        ∧ (record_loop P kind dir buf fuel off).out_of_bounds = false
        ∧ (record_loop P kind dir buf fuel off).out_of_fuel = false
        ∧ (record_loop P kind dir buf fuel off).reads.length = recs.length
        ∧ ∀ rd ∈ (record_loop P kind dir buf fuel off).reads, rd.1 < rd.2 ∧ rd.2 ≤ n := by
  intro off recs hc
  induction hc with
  | last off hend hz =>
    intro fuel hfuel
    have hoff : off + kNameOffset ≤ record_end buf off := by unfold record_end; omega
    have hk : 0 < kNameOffset := by decide
    cases fuel with
    | zero => omega
    | succ fuel =>
      have hin : ¬ (kBufSize < record_end buf off) := by omega
      simp only [record_loop, hin, decide_False, hz, if_true]
      refine ⟨?_, ?_, ?_, ?_, ?_, ?_⟩
      · cases hk2 : kind (Action buf off) <;> simp [hk2]
      · cases hk2 : kind (Action buf off) <;> simp [hk2]
      · trivial
      · trivial
      · trivial
      · intro rd hrd
        simp only [List.mem_singleton] at hrd
        subst hrd
        exact ⟨by show off < record_end buf off; omega, hend⟩
  | next off rest hend hnz hrest ih =>
    intro fuel hfuel
    have hoff : off + kNameOffset ≤ record_end buf off := by unfold record_end; omega
    have hk : 0 < kNameOffset := by decide
    cases fuel with
    | zero => omega
    | succ fuel =>
      have hin : ¬ (kBufSize < record_end buf off) := by omega
      have hpos : (0 : Nat) < NextEntryOffset buf off := Nat.pos_of_ne_zero hnz
      obtain ⟨i1, i2, i3, i4, i5, i6⟩ := ih fuel (by omega)
      simp only [record_loop, hin, decide_False, if_false, hnz, i1, i2, i3, i4]
      refine ⟨?_, ?_, ?_, ?_, ?_, ?_⟩
      · cases hk2 : kind (Action buf off) <;> simp [hk2]
      · cases hk2 : kind (Action buf off) <;> simp [hk2]
      · trivial
      · trivial
      · simp [i5]
      · intro rd hrd
        simp only [List.mem_cons] at hrd
        rcases hrd with hrd | hrd
        · subst hrd
          exact ⟨by show off < record_end buf off; omega, hend⟩
        · exact i6 rd hrd

/-- A run of the record loop that stays inside the array ends: with the fuel that the handlers
give it, the loop has met a zero `NextEntryOffset` before the fuel is used up, and every record
it has read lies inside the array. -/
theorem record_loop_fuel (P : platform) (kind : DWORD → Option tasktype) (dir : wstring)
    (buf : List Nat) :
    ∀ (fuel off : Nat), kBufSize < off + fuel → 0 < fuel →
      (record_loop P kind dir buf fuel off).out_of_bounds = false →
      (record_loop P kind dir buf fuel off).out_of_fuel = false
      ∧ ∀ rd ∈ (record_loop P kind dir buf fuel off).reads, rd.2 ≤ kBufSize := by
  intro fuel
  induction fuel with
  | zero => intro off _ h; omega
  | succ fuel ih =>
    intro off hfuel _ hb
    simp only [record_loop] at hb ⊢
    split
    · rename_i hz
      simp only [hz, if_true, decide_eq_false_iff_not] at hb
      refine ⟨rfl, ?_⟩
      intro rd hrd
      simp only [List.mem_singleton] at hrd
      subst hrd
      show record_end buf off ≤ kBufSize
      omega
    · rename_i hnz
      simp only [hnz, if_false, Bool.or_eq_false_iff, decide_eq_false_iff_not] at hb
      have hk : kNameOffset = 12 := rfl
      have hend : off + kNameOffset ≤ record_end buf off := by unfold record_end; omega
      have hpos : (0 : Nat) < NextEntryOffset buf off := Nat.pos_of_ne_zero hnz
      obtain ⟨i1, i2⟩ := ih (off + NextEntryOffset buf off) (by omega) (by omega) hb.2
      refine ⟨i1, ?_⟩
      intro rd hrd
      simp only [List.mem_cons] at hrd
      rcases hrd with hrd | hrd
      · subst hrd
        show record_end buf off ≤ kBufSize
        omega
      · exact i2 rd hrd

/-- What `fsevent`'s `task::start` does to the task and to the queue. -/
theorem fs_start_effect (t : fsevent.task) (w : fsevent.watch) (e : start_env) :
    (t.start w e).2.1.m_path = t.m_path
    ∧ (t.start w e).2.1.m_bakbuffer = t.m_bakbuffer
    ∧ (t.start w e).2.2.m_notify
        = w.m_notify ++ (if t.m_directory.isSome && e.read_changes then []
            else [⟨tasktype.Error, L "`ReadDirectoryChangesW` failed: " ++ e.message⟩])
    ∧ (t.start w e).2.2.assert_failed = (w.assert_failed || t.m_directory.isNone)
    ∧ (t.start w e).2.2.out_of_bounds = w.out_of_bounds
    ∧ (t.start w e).2.2.m_tasks = w.m_tasks := by
  cases hd : t.m_directory <;> cases hr : e.read_changes <;>
    simp [fsevent.task.start, hd, hr, fsevent.push_notify, fsevent.watch.sys,
      fsevent.watch.check]

/-- What `filewatch`'s `task::start` does to the task and to the queue. -/
theorem fw_start_effect (t : filewatch.task) (w : filewatch.watch) (e : start_env) :
    (t.start w e).2.1.m_path = t.m_path
    ∧ (t.start w e).2.1.m_bakbuffer = t.m_bakbuffer
    ∧ (t.start w e).2.2.m_notify
        = w.m_notify ++ (if t.m_directory.isSome && e.reset_event && !e.read_changes then
            [⟨tasktype.Error, e.message⟩] else [])
    ∧ (t.start w e).2.2.assert_failed = w.assert_failed
    ∧ (t.start w e).2.2.out_of_bounds = w.out_of_bounds
    ∧ (t.start w e).2.2.m_tasks = w.m_tasks := by
  cases hd : t.m_directory <;> cases hr : e.read_changes <;> cases hs : e.reset_event <;>
    simp [filewatch.task.start, hd, hr, hs, filewatch.push_notify, filewatch.watch.sys]

/-- The branch of `changes_cb` that decodes: what it leaves in the queue and in the flags. -/
theorem fs_changes_cb_decode (P : platform) (t : fsevent.task) (w : fsevent.watch)
    (err n : DWORD) (e : start_env) (h1 : err ≠ ERROR_OPERATION_ABORTED) (h2 : n ≠ 0) :
    (t.changes_cb P w err n e).2.m_notify
        = w.m_notify ++ (if t.m_directory.isSome && e.read_changes then []
            else [⟨tasktype.Error, L "`ReadDirectoryChangesW` failed: " ++ e.message⟩])
          ++ (record_loop P fsevent.action_type t.m_path (memcpy n t.m_bakbuffer t.m_buffer)
                (kBufSize + 1) 0).notes
    ∧ (t.changes_cb P w err n e).2.assert_failed
        = (w.assert_failed || !decide (kNameOffset + kWcharSize ≤ n) || !decide (n ≤ kBufSize)
            || t.m_directory.isNone
            || (record_loop P fsevent.action_type t.m_path (memcpy n t.m_bakbuffer t.m_buffer)
                (kBufSize + 1) 0).assert_failed)
    ∧ (t.changes_cb P w err n e).2.m_tasks = w.m_tasks := by
  unfold fsevent.task.changes_cb
  rw [if_neg h1, if_neg h2]
  obtain ⟨e1, e2, e3, e4, _, e6⟩ := fs_start_effect
    { t with m_bakbuffer := memcpy n t.m_bakbuffer t.m_buffer }
    ({ (w.check (decide (kNameOffset + kWcharSize ≤ n))).check (decide (n ≤ kBufSize)) with
        out_of_bounds :=
          ((w.check (decide (kNameOffset + kWcharSize ≤ n))).check
            (decide (n ≤ kBufSize))).out_of_bounds || decide (kBufSize < n) }) e
  refine ⟨?_, ?_, ?_⟩
  · simp only [e1, e2, e3]
    rfl
  · simp only [e1, e2, e4]
    simp [fsevent.watch.check]
  · simp only [e6]
    rfl

/-- The branch of `event_cb` that decodes: what it leaves in the queue and in the flags. -/
theorem fw_event_cb_decode (P : platform) (t : filewatch.task) (w : filewatch.watch)
    (n : DWORD) (e : start_env) (h2 : n ≠ 0) :
    (t.event_cb P w 0 n e).1 = true
    ∧ (t.event_cb P w 0 n e).2.2.m_notify
        = w.m_notify ++ (if t.m_directory.isSome && e.reset_event && !e.read_changes then
            [⟨tasktype.Error, e.message⟩] else [])
          ++ (record_loop P filewatch.action_type t.m_path (memcpy n t.m_bakbuffer t.m_buffer)
                (kBufSize + 1) 0).notes
    ∧ (t.event_cb P w 0 n e).2.2.assert_failed
        = (w.assert_failed || !decide (kNameOffset + kWcharSize ≤ n) || !decide (n ≤ kBufSize)
            || (record_loop P filewatch.action_type t.m_path (memcpy n t.m_bakbuffer t.m_buffer)
                (kBufSize + 1) 0).assert_failed)
    ∧ (t.event_cb P w 0 n e).2.2.m_tasks = w.m_tasks := by
  unfold filewatch.task.event_cb
  rw [if_neg (by simp), if_neg h2]
  obtain ⟨e1, e2, e3, e4, _, e6⟩ := fw_start_effect
    { t with m_bakbuffer := memcpy n t.m_bakbuffer t.m_buffer }
    ({ (w.check (decide (kNameOffset + kWcharSize ≤ n))).check (decide (n ≤ kBufSize)) with
        out_of_bounds :=
          ((w.check (decide (kNameOffset + kWcharSize ≤ n))).check
            (decide (n ≤ kBufSize))).out_of_bounds || decide (kBufSize < n) }) e
  refine ⟨rfl, ?_, ?_, ?_⟩
  · simp only [e1, e2, e3]
    rfl
  · simp only [e1, e2, e4]
    simp [filewatch.watch.check]
  · simp only [e6]
    rfl

theorem filterMap_of_some {α β : Type} (f : α → Option β) (g : α → β) (l : List α)
    (h : ∀ r ∈ l, f r = some (g r)) : l.filterMap f = l.map g := by
  induction l with
  | nil => rfl
  | cons a l ih =>
    have ha := h a (List.mem_cons_self a l)
    have hl := ih (fun r hr => h r (List.mem_cons_of_mem a hr))
    simp [List.filterMap_cons, ha, hl]

/-- The example buffer with one record is a well-formed chain of 14 bytes. -/
theorem one_record_chain : chain one_record 14 0 [(FILE_ACTION_ADDED, [97])] :=
  chain.last 0 (by decide) (by decide)

/-- The example buffer with two records is a well-formed chain of 30 bytes. -/
theorem two_records_chain :
    chain two_records 30 0
      [(FILE_ACTION_RENAMED_OLD_NAME, [97]), (FILE_ACTION_RENAMED_NEW_NAME, [98])] :=
  chain.next 0 [(FILE_ACTION_RENAMED_NEW_NAME, [98])] (by decide) (by decide)
    (chain.last 16 (by decide) (by decide))

/-- C6, refuted as stated: the buffer holds a well-formed chain of one record (file `a` added)
and the completion carries no error, but the re-armed read is rejected; `changes_cb` appends two
notifications, an Error first and then the Create. -/
theorem changes_cb_extra_error :
    chain (fsevent.example_task one_record []).m_buffer 14 0 [(FILE_ACTION_ADDED, [97])]
    ∧ ((fsevent.example_task one_record []).changes_cb example_platform
        (fsevent.watch.init example_platform) 0 14 arms_not).2.m_notify
      = [⟨tasktype.Error, L "`ReadDirectoryChangesW` failed: no"⟩,
         ⟨tasktype.Create, [100, 92, 97]⟩] :=
  ⟨one_record_chain, by decide⟩

/-- C6, as the code has it: on a completion without error whose buffer holds a well-formed chain
of records with known action codes inside the transferred bytes, `changes_cb` appends first the
Error notification of `task::start` if the re-armed read was not accepted (nothing if it was), and
then exactly one notification per record, in record order: Create for ADDED, Delete for REMOVED,
Modify for MODIFIED, Rename for either half of a rename, each with the task's path joined with
the record's file name.  The registry is not touched, and the assertions that can fail are the
one on the least byte count and the one on the handle in `start`. -/
theorem changes_cb_on_chain (P : platform) (t : fsevent.task) (w : fsevent.watch) (n : DWORD)
    (e : start_env) (recs : List (DWORD × wstring)) (hn : n ≤ kBufSize)
    (hc : chain t.m_buffer n 0 recs)
    (ha : ∀ r ∈ recs, r.1 = FILE_ACTION_ADDED ∨ r.1 = FILE_ACTION_REMOVED
      ∨ r.1 = FILE_ACTION_MODIFIED ∨ r.1 = FILE_ACTION_RENAMED_OLD_NAME
      ∨ r.1 = FILE_ACTION_RENAMED_NEW_NAME) :
    (t.changes_cb P w 0 n e).2.m_notify
        = w.m_notify
          ++ (if t.m_directory.isSome && e.read_changes then []
              else [⟨tasktype.Error, L "`ReadDirectoryChangesW` failed: " ++ e.message⟩])
          ++ recs.map (fun r =>
              ⟨if r.1 = FILE_ACTION_ADDED then tasktype.Create
               else if r.1 = FILE_ACTION_REMOVED then tasktype.Delete
               else if r.1 = FILE_ACTION_MODIFIED then tasktype.Modify
               else tasktype.Rename,
               P.path_join t.m_path r.2⟩)
    ∧ (t.changes_cb P w 0 n e).2.m_tasks = w.m_tasks
    ∧ (t.changes_cb P w 0 n e).2.assert_failed
        = (w.assert_failed || !decide (kNameOffset + kWcharSize ≤ n) || t.m_directory.isNone) := by
  have hn0 : n ≠ 0 := by
    intro h0
    have h12 := (chain_nonempty _ _ _ _ hc).1
    rw [h0] at h12
    exact absurd h12 (by decide)
  obtain ⟨d1, d2, d3⟩ := fs_changes_cb_decode P t w 0 n e (by decide) hn0
  have hb : chain (memcpy n t.m_bakbuffer t.m_buffer) n 0 recs := by
    refine chain_agree t.m_buffer _ n ?_ 0 recs hc
    intro i hi
    rw [byte_at_memcpy, if_pos hi]
  obtain ⟨r1, r2, _, _, _, _⟩ := record_loop_chain P fsevent.action_type t.m_path _ n hn 0 recs hb
    (kBufSize + 1) (by omega)
  have hk : ∀ r ∈ recs, (fsevent.action_type r.1).map
      (fun ty => (⟨ty, P.path_join t.m_path r.2⟩ : notify))
      = some ⟨if r.1 = FILE_ACTION_ADDED then tasktype.Create
               else if r.1 = FILE_ACTION_REMOVED then tasktype.Delete
               else if r.1 = FILE_ACTION_MODIFIED then tasktype.Modify
               else tasktype.Rename, P.path_join t.m_path r.2⟩ := by
    intro r hr
    rcases ha r hr with h | h | h | h | h <;> rw [h] <;> rfl
  have hnone : recs.any (fun r => (fsevent.action_type r.1).isNone) = false := by
    rw [List.any_eq_false]
    intro r hr
    rcases ha r hr with h | h | h | h | h <;> rw [h] <;> decide
  refine ⟨?_, d3, ?_⟩
  · rw [d1, r1, filterMap_of_some _ _ recs hk]
  · rw [d2, r2, hnone]
    simp [hn]

/-- C6, at an example: the chain of two records (`a` renamed to `b`), the re-armed read accepted:
two Rename notifications, for `d\a` and `d\b`, in this order. -/
theorem changes_cb_on_chain_witness :
    chain (fsevent.example_task two_records []).m_buffer 30 0
      [(FILE_ACTION_RENAMED_OLD_NAME, [97]), (FILE_ACTION_RENAMED_NEW_NAME, [98])]
    ∧ ((fsevent.example_task two_records []).changes_cb example_platform
        (fsevent.watch.init example_platform) 0 30 arms).2.m_notify
      = [⟨tasktype.Rename, [100, 92, 97]⟩, ⟨tasktype.Rename, [100, 92, 98]⟩] :=
  ⟨two_records_chain,
   (changes_cb_on_chain example_platform (fsevent.example_task two_records [])
      (fsevent.watch.init example_platform) 30 arms
      [(FILE_ACTION_RENAMED_OLD_NAME, [97]), (FILE_ACTION_RENAMED_NEW_NAME, [98])]
      (by decide) two_records_chain (by decide)).1.trans (by decide)⟩

/-- C7, refuted as stated: the same completion in the poll-driven back end, the re-armed read
rejected: `event_cb` returns true and appends two notifications, an Error and then the Rename. -/
theorem event_cb_extra_error :
    chain (filewatch.example_task one_record []).m_buffer 14 0 [(FILE_ACTION_ADDED, [97])]
    ∧ ((filewatch.example_task one_record []).event_cb example_platform
        (filewatch.watch.init example_platform) 0 14 arms_not).1 = true
    ∧ ((filewatch.example_task one_record []).event_cb example_platform
        (filewatch.watch.init example_platform) 0 14 arms_not).2.2.m_notify
      = [⟨tasktype.Error, L "no"⟩, ⟨tasktype.Rename, [100, 92, 97]⟩] :=
  ⟨one_record_chain, by decide, by decide⟩

/-- C7, as the code has it: on a completion without error whose buffer holds a well-formed chain
of records with known action codes inside the transferred bytes, `event_cb` returns true and
appends first the Error notification of `task::start` if `ReadDirectoryChangesW` rejected the
re-armed read (nothing otherwise), and then exactly one notification per record, in record order:
Modify for MODIFIED, Rename for ADDED, REMOVED and either half of a rename (two separate Rename
notifications for one rename), each with the task's path joined with the record's file name. -/
theorem event_cb_on_chain (P : platform) (t : filewatch.task) (w : filewatch.watch) (n : DWORD)
    (e : start_env) (recs : List (DWORD × wstring)) (hn : n ≤ kBufSize)
    (hc : chain t.m_buffer n 0 recs)
    (ha : ∀ r ∈ recs, r.1 = FILE_ACTION_ADDED ∨ r.1 = FILE_ACTION_REMOVED
      ∨ r.1 = FILE_ACTION_MODIFIED ∨ r.1 = FILE_ACTION_RENAMED_OLD_NAME
      ∨ r.1 = FILE_ACTION_RENAMED_NEW_NAME) :
    (t.event_cb P w 0 n e).1 = true
    ∧ (t.event_cb P w 0 n e).2.2.m_notify
        = w.m_notify
          ++ (if t.m_directory.isSome && e.reset_event && !e.read_changes then
              [⟨tasktype.Error, e.message⟩] else [])
          ++ recs.map (fun r =>
              ⟨if r.1 = FILE_ACTION_MODIFIED then tasktype.Modify else tasktype.Rename,
               P.path_join t.m_path r.2⟩)
    ∧ (t.event_cb P w 0 n e).2.2.m_tasks = w.m_tasks
    ∧ (t.event_cb P w 0 n e).2.2.assert_failed
        = (w.assert_failed || !decide (kNameOffset + kWcharSize ≤ n)) := by
  have hn0 : n ≠ 0 := by
    intro h0
    have h12 := (chain_nonempty _ _ _ _ hc).1
    rw [h0] at h12
    exact absurd h12 (by decide)
  obtain ⟨d0, d1, d2, d3⟩ := fw_event_cb_decode P t w n e hn0
  have hb : chain (memcpy n t.m_bakbuffer t.m_buffer) n 0 recs := by
    refine chain_agree t.m_buffer _ n ?_ 0 recs hc
    intro i hi
    rw [byte_at_memcpy, if_pos hi]
  obtain ⟨r1, r2, _, _, _, _⟩ := record_loop_chain P filewatch.action_type t.m_path _ n hn 0 recs
    hb (kBufSize + 1) (by omega)
  have hk : ∀ r ∈ recs, (filewatch.action_type r.1).map
      (fun ty => (⟨ty, P.path_join t.m_path r.2⟩ : notify))
      = some ⟨if r.1 = FILE_ACTION_MODIFIED then tasktype.Modify else tasktype.Rename,
          P.path_join t.m_path r.2⟩ := by
    intro r hr
    rcases ha r hr with h | h | h | h | h <;> rw [h] <;> rfl
  have hnone : recs.any (fun r => (filewatch.action_type r.1).isNone) = false := by
    rw [List.any_eq_false]
    intro r hr
    rcases ha r hr with h | h | h | h | h <;> rw [h] <;> decide
  refine ⟨d0, ?_, d3, ?_⟩
  · rw [d1, r1, filterMap_of_some _ _ recs hk]
  · rw [d2, r2, hnone]
    simp [hn]

/-- C7, at an example: the chain of two records (`a` renamed to `b`), the re-armed read accepted:
`event_cb` returns true and appends two Rename notifications, for `d\a` and `d\b`. -/
theorem event_cb_on_chain_witness :
    chain (filewatch.example_task two_records []).m_buffer 30 0
      [(FILE_ACTION_RENAMED_OLD_NAME, [97]), (FILE_ACTION_RENAMED_NEW_NAME, [98])]
    ∧ ((filewatch.example_task two_records []).event_cb example_platform
        (filewatch.watch.init example_platform) 0 30 arms).1 = true
    ∧ ((filewatch.example_task two_records []).event_cb example_platform
        (filewatch.watch.init example_platform) 0 30 arms).2.2.m_notify
      = [⟨tasktype.Rename, [100, 92, 97]⟩, ⟨tasktype.Rename, [100, 92, 98]⟩] :=
  ⟨two_records_chain,
   (event_cb_on_chain example_platform (filewatch.example_task two_records [])
      (filewatch.watch.init example_platform) 30 arms
      [(FILE_ACTION_RENAMED_OLD_NAME, [97]), (FILE_ACTION_RENAMED_NEW_NAME, [98])]
      (by decide) two_records_chain (by decide)).1,
   (event_cb_on_chain example_platform (filewatch.example_task two_records [])
      (filewatch.watch.init example_platform) 30 arms
      [(FILE_ACTION_RENAMED_OLD_NAME, [97]), (FILE_ACTION_RENAMED_NEW_NAME, [98])]
      (by decide) two_records_chain (by decide)).2.1.trans (by decide)⟩

/-! ## A completion with zero bytes -/

/-- C8, evaluated on the code: on a completion without error and with zero bytes both handlers
return at once; they push nothing, but they do not call `start` either, so task and service are
exactly as before.  In the poll-driven example (`add`, whose TaskAdd the `select` then pops) the
task stays registered with no read outstanding and `ReadDirectoryChangesW` was requested once
only, by `apc_add`; likewise in the callback-driven example, where moreover a later `stop` does not return: the cancelled task has no read whose
abort could be reported, so it is never erased and the worker loop goes on. -/
theorem zero_bytes_not_rearmed (P : platform) (t : filewatch.task) (w : filewatch.watch)
    (u : fsevent.task) (v : fsevent.watch) (e : start_env) :
    t.event_cb P w 0 0 e = (true, t, w)
    ∧ u.changes_cb P v 0 0 e = (u, v)
    ∧ (filewatch.run example_platform (filewatch.watch.init example_platform)
        (filewatch.zero_byte_calls.take 1)).m_notify = [⟨tasktype.TaskAdd, L "(1)d"⟩]
    ∧ (filewatch.run example_platform (filewatch.watch.init example_platform)
        filewatch.zero_byte_calls).m_notify = []
    ∧ (filewatch.run example_platform (filewatch.watch.init example_platform)
        filewatch.zero_byte_calls).m_tasks.map (fun kv => (kv.1, kv.2.pending)) = [(1, 0)]
    ∧ (filewatch.run example_platform (filewatch.watch.init example_platform)
        filewatch.zero_byte_calls).os_trace
        = [oscall.CreateFileW (L "d"), oscall.ReadDirectoryChangesW 7]
    ∧ (fsevent.run example_platform (fsevent.watch.init example_platform)
        fsevent.zero_byte_calls).m_notify = []
    ∧ (fsevent.run example_platform (fsevent.watch.init example_platform)
        (fsevent.zero_byte_calls.take 2)).m_tasks.map (fun kv => (kv.1, kv.2.pending)) = [(1, 1)]
    ∧ (fsevent.run example_platform (fsevent.watch.init example_platform)
        fsevent.zero_byte_calls).m_tasks.map (fun kv => (kv.1, kv.2.pending)) = [(1, 0)]
    ∧ (fsevent.run example_platform (fsevent.watch.init example_platform)
        fsevent.zero_byte_calls).os_trace
        = [oscall.QueueUserAPC, oscall.CreateFileW (L "d"), oscall.ReadDirectoryChangesW 101]
    ∧ ((fsevent.run example_platform (fsevent.watch.init example_platform)
        fsevent.zero_byte_calls).stop example_platform true
          [[fsevent.worker_event.apc fsevent.example_env],
           [fsevent.worker_event.changes 1 fsevent.aborted]]).1 = false := by
  refine ⟨rfl, rfl, by decide, by decide, by decide, by decide, by decide, by decide, by decide,
    by decide, by decide⟩

/-! ## The record decoder on arbitrary buffers -/

/-- A run of the record loop that has ended is the walk along `NextEntryOffset` from its first
offset to the first record whose `NextEntryOffset` is zero. -/
theorem record_loop_walk (P : platform) (kind : DWORD → Option tasktype) (dir : wstring)
    (buf : List Nat) (fuel : Nat) :
    ∀ off : Nat, (record_loop P kind dir buf fuel off).out_of_fuel = false →
      walk buf off (record_loop P kind dir buf fuel off).reads := by
  induction fuel with
  | zero => intro off h; simp [record_loop] at h
  | succ fuel ih =>
    intro off h
    simp only [record_loop] at h ⊢
    split
    · rename_i hz
      exact walk.last off hz
    · rename_i hnz
      simp only [hnz, if_false] at h
      exact walk.next off _ hnz (ih _ h)

/-- C9, refuted as stated: 14 bytes were transferred, whose only record names a next record at
offset 16; the secondary buffer still holds an older record there.  In both back ends the
decoder reads the record at offset 16, beyond the 14 bytes, and the handler pushes a notification
for it (file `z`) and no Error notification. -/
theorem decoder_reads_past_count :
    (record_loop example_platform fsevent.action_type (L "d") (memcpy 14 stale open_ended)
        (kBufSize + 1) 0).reads = [(0, 14), (16, 30)]
    ∧ ((fsevent.example_task open_ended stale).changes_cb example_platform
        (fsevent.watch.init example_platform) 0 14 arms).2.m_notify
      = [⟨tasktype.Create, [100, 92, 97]⟩, ⟨tasktype.Modify, [100, 92, 122]⟩]
    ∧ (record_loop example_platform filewatch.action_type (L "d") (memcpy 14 stale open_ended)
        (kBufSize + 1) 0).reads = [(0, 14), (16, 30)]
    ∧ ((filewatch.example_task open_ended stale).event_cb example_platform
        (filewatch.watch.init example_platform) 0 14 arms).2.2.m_notify
      = [⟨tasktype.Rename, [100, 92, 97]⟩, ⟨tasktype.Modify, [100, 92, 122]⟩] := by
  decide

/-- C9, as the code has it: the record loop of each back end starts at offset 0 and walks along
`NextEntryOffset` to the first record whose `NextEntryOffset` is zero; it compares no offset and
no length with the byte count or with the size of the array, and it pushes no Error notification
(only the kinds of its `switch`).  When the buffer holds a well-formed chain inside the `n`
transferred bytes, the loop reads exactly the records of the chain, no byte at or beyond `n`,
stays inside the array and ends.  Otherwise it goes on with what the secondary buffer holds
beyond `n`, and with the memory behind the array: a run that stays inside the array ends, and
when the first record names `kBufSize` as the offset of the next one, the loop reads a record at
the first byte behind the array. -/
theorem decoder_total (P : platform) (dir : wstring) (buf : List Nat) (n : Nat)
    (recs : List (DWORD × wstring)) :
    ((record_loop P filewatch.action_type dir buf (kBufSize + 1) 0).out_of_fuel = false →
        walk buf 0 (record_loop P filewatch.action_type dir buf (kBufSize + 1) 0).reads)
    ∧ ((record_loop P fsevent.action_type dir buf (kBufSize + 1) 0).out_of_fuel = false →
        walk buf 0 (record_loop P fsevent.action_type dir buf (kBufSize + 1) 0).reads)
    ∧ ((record_loop P filewatch.action_type dir buf (kBufSize + 1) 0).out_of_bounds = false →
        (record_loop P filewatch.action_type dir buf (kBufSize + 1) 0).out_of_fuel = false
        ∧ ∀ rd ∈ (record_loop P filewatch.action_type dir buf (kBufSize + 1) 0).reads,
            rd.2 ≤ kBufSize)
    ∧ ((record_loop P fsevent.action_type dir buf (kBufSize + 1) 0).out_of_bounds = false →
        (record_loop P fsevent.action_type dir buf (kBufSize + 1) 0).out_of_fuel = false
        ∧ ∀ rd ∈ (record_loop P fsevent.action_type dir buf (kBufSize + 1) 0).reads,
            rd.2 ≤ kBufSize)
    ∧ (∀ x ∈ (record_loop P filewatch.action_type dir buf (kBufSize + 1) 0).notes,
        x.m_type = tasktype.Modify ∨ x.m_type = tasktype.Rename)
    ∧ (∀ x ∈ (record_loop P fsevent.action_type dir buf (kBufSize + 1) 0).notes,
        x.m_type = tasktype.Create ∨ x.m_type = tasktype.Delete ∨ x.m_type = tasktype.Modify
          ∨ x.m_type = tasktype.Rename)
    ∧ (n ≤ kBufSize → chain buf n 0 recs →
        (record_loop P filewatch.action_type dir buf (kBufSize + 1) 0).reads.length = recs.length
        ∧ (record_loop P fsevent.action_type dir buf (kBufSize + 1) 0).reads.length = recs.length
        ∧ (∀ rd ∈ (record_loop P filewatch.action_type dir buf (kBufSize + 1) 0).reads,
            rd.1 < rd.2 ∧ rd.2 ≤ n)
        ∧ (∀ rd ∈ (record_loop P fsevent.action_type dir buf (kBufSize + 1) 0).reads,
            rd.1 < rd.2 ∧ rd.2 ≤ n)
        ∧ (record_loop P filewatch.action_type dir buf (kBufSize + 1) 0).out_of_bounds = false
        ∧ (record_loop P fsevent.action_type dir buf (kBufSize + 1) 0).out_of_bounds = false
        ∧ (record_loop P filewatch.action_type dir buf (kBufSize + 1) 0).out_of_fuel = false
        ∧ (record_loop P fsevent.action_type dir buf (kBufSize + 1) 0).out_of_fuel = false)
    ∧ (NextEntryOffset buf 0 = kBufSize →
        (record_loop P filewatch.action_type dir buf (kBufSize + 1) 0).reads.take 2
          = [(0, record_end buf 0), (kBufSize, record_end buf kBufSize)]
        ∧ (record_loop P fsevent.action_type dir buf (kBufSize + 1) 0).reads.take 2
          = [(0, record_end buf 0), (kBufSize, record_end buf kBufSize)]
        ∧ (record_loop P filewatch.action_type dir buf (kBufSize + 1) 0).out_of_bounds = true
        ∧ (record_loop P fsevent.action_type dir buf (kBufSize + 1) 0).out_of_bounds = true) := by
  refine ⟨record_loop_walk P _ dir buf _ 0, record_loop_walk P _ dir buf _ 0,
    record_loop_fuel P _ dir buf _ 0 (by omega) (by omega),
    record_loop_fuel P _ dir buf _ 0 (by omega) (by omega), ?_, ?_, ?_, ?_⟩
  · intro x hx
    obtain ⟨a, ha⟩ := record_loop_kinds P filewatch.action_type dir buf _ 0 x hx
    unfold filewatch.action_type at ha
    split at ha
    · exact Or.inl (Option.some.inj ha).symm
    · split at ha
      · exact Or.inr (Option.some.inj ha).symm
      · cases ha
  · intro x hx
    obtain ⟨a, ha⟩ := record_loop_kinds P fsevent.action_type dir buf _ 0 x hx
    have hk := fsevent.fs_action_type_kind a _ ha
    unfold fsevent.event_kind at hk
    rcases hk with h | h
    · exfalso
      rw [h] at ha
      unfold fsevent.action_type at ha
      split at ha
      · cases ha
      · split at ha
        · cases ha
        · split at ha
          · cases ha
          · split at ha
            · cases ha
            · cases ha
    · exact h
  · intro hn hc
    obtain ⟨_, _, a3, a4, a5, a6⟩ := record_loop_chain P filewatch.action_type dir buf n hn 0
      recs hc (kBufSize + 1) (by omega)
    obtain ⟨_, _, b3, b4, b5, b6⟩ := record_loop_chain P fsevent.action_type dir buf n hn 0 recs
      hc (kBufSize + 1) (by omega)
    exact ⟨a5, b5, a6, b6, a3, b3, a4, b4⟩
  · intro e1
    have hne : NextEntryOffset buf 0 ≠ 0 := by rw [e1]; decide
    have hout : kBufSize < record_end buf kBufSize := by
      have hk : kNameOffset = 12 := rfl
      unfold record_end
      omega
    have h : ∀ kind : DWORD → Option tasktype,
        (record_loop P kind dir buf (kBufSize + 1) 0).reads.take 2
          = [(0, record_end buf 0), (kBufSize, record_end buf kBufSize)]
        ∧ (record_loop P kind dir buf (kBufSize + 1) 0).out_of_bounds = true := by
      intro kind
      have h1 : ∀ fuel : Nat,
          (record_loop P kind dir buf (fuel + 1) kBufSize).reads.take 1
            = [(kBufSize, record_end buf kBufSize)]
          ∧ (record_loop P kind dir buf (fuel + 1) kBufSize).out_of_bounds = true := by
        intro fuel
        by_cases hz : NextEntryOffset buf kBufSize = 0
        · rw [record_loop]
          simp only [hz, if_true]
          exact ⟨rfl, by simp [hout]⟩
        · rw [record_loop]
          simp only [hz, if_false]
          exact ⟨rfl, by simp [hout]⟩
      have h2 : (record_loop P kind dir buf kBufSize kBufSize).reads.take 1
            = [(kBufSize, record_end buf kBufSize)]
          ∧ (record_loop P kind dir buf kBufSize kBufSize).out_of_bounds = true := h1 16383
      rw [record_loop, if_neg hne]
      simp only [Nat.zero_add, e1]
      refine ⟨?_, ?_⟩
      · show (0, record_end buf 0) :: List.take 1 _ = _
        rw [h2.1]
      · rw [h2.2]
        simp
    exact ⟨(h _).1, (h _).1, (h _).2, (h _).2⟩

/-- C9, at examples: in the buffer with two records, a well-formed chain of 30 bytes, each
back end reads two records, and none of them reaches byte 30; in the buffer `leaves_array` each
back end reads a record at offset 16384, the first byte behind the array. -/
theorem decoder_total_witness :
    (record_loop example_platform filewatch.action_type (L "d") two_records (kBufSize + 1)
        0).reads.length = 2
    ∧ (∀ rd ∈ (record_loop example_platform fsevent.action_type (L "d") two_records
        (kBufSize + 1) 0).reads, rd.1 < rd.2 ∧ rd.2 ≤ 30)
    ∧ (record_loop example_platform fsevent.action_type (L "d") leaves_array (kBufSize + 1)
        0).out_of_bounds = true :=
  ⟨((decoder_total example_platform (L "d") two_records 30
      [(FILE_ACTION_RENAMED_OLD_NAME, [97]), (FILE_ACTION_RENAMED_NEW_NAME, [98])]).2.2.2.2.2.2.1
        (by decide) two_records_chain).1,
   ((decoder_total example_platform (L "d") two_records 30
      [(FILE_ACTION_RENAMED_OLD_NAME, [97]), (FILE_ACTION_RENAMED_NEW_NAME, [98])]).2.2.2.2.2.2.1
        (by decide) two_records_chain).2.2.2.1,
   ((decoder_total example_platform (L "d") leaves_array 14 []).2.2.2.2.2.2.2
      (by decide)).2.2.2⟩

/-! ## Polling while every read is still incomplete -/

/-- While every overlapped result is still incomplete, the loop of `update` changes nothing. -/
theorem fw_update_each_incomplete (P : platform) (env : taskid → filewatch.poll_env)
    (m : List (taskid × filewatch.task)) :
    (∀ kv ∈ m, (env kv.1).ok = false ∧ (env kv.1).last_error = ERROR_IO_INCOMPLETE) →
      ∀ w : filewatch.watch, filewatch.update_each P env m w = (m, w) := by
  induction m with
  | nil => intro _ w; rfl
  | cons kv rest ih =>
    intro h w
    obtain ⟨k, t⟩ := kv
    have hk := h (k, t) (List.mem_cons_self _ _)
    have hrest := ih (fun x hx => h x (List.mem_cons_of_mem _ hx))
    have hu : t.update P w (env k) = (true, t, w) := by
      simp [filewatch.task.update, hk.1, hk.2]
    simp [filewatch.update_each, hu, hrest]

/-- C20. In the poll-driven back end, when the overlapped result of every registered task is
still incomplete, `update` changes nothing, so `select` leaves the registry as it is and pushes
nothing; on an empty queue it returns nothing and leaves the service as it is, otherwise it
returns the oldest notification and removes exactly that one from the queue. -/
theorem select_when_incomplete (P : platform) (w : filewatch.watch)
    (env : taskid → filewatch.poll_env)
    (h : ∀ kv ∈ w.m_tasks, (env kv.1).ok = false ∧ (env kv.1).last_error = ERROR_IO_INCOMPLETE) :
    w.update P env = w
    ∧ (w.select P env).2.m_tasks = w.m_tasks
    ∧ (w.m_notify = [] → w.select P env = (none, w))
    ∧ (∀ (n : notify) (rest : List notify), w.m_notify = n :: rest →
        w.select P env = (some n, { w with m_notify := rest })) := by
  have hu : w.update P env = w := by
    simp [filewatch.watch.update, fw_update_each_incomplete P env w.m_tasks h w]
  refine ⟨hu, ?_, ?_, ?_⟩
  · simp only [filewatch.watch.select, hu]
    split <;> rfl
  · intro hq
    simp [filewatch.watch.select, hu, hq]
  · intro n rest hq
    simp [filewatch.watch.select, hu, hq]

/-- C20, at an example: one task is registered and its read is still incomplete; `select`
returns the TaskAdd notification of the `add`, the only one queued, and leaves the task as it
is. -/
theorem select_when_incomplete_witness :
    (∀ kv ∈ filewatch.one_task.m_tasks, (filewatch.incomplete kv.1).ok = false
        ∧ (filewatch.incomplete kv.1).last_error = ERROR_IO_INCOMPLETE)
    ∧ filewatch.one_task.select example_platform filewatch.incomplete
      = (some ⟨tasktype.TaskAdd, L "(1)d"⟩, { filewatch.one_task with m_notify := [] }) :=
  ⟨fun _ _ => ⟨rfl, rfl⟩,
   (select_when_incomplete example_platform filewatch.one_task filewatch.incomplete
      (fun _ _ => ⟨rfl, rfl⟩)).2.2.2 ⟨tasktype.TaskAdd, L "(1)d"⟩ [] (by decide)⟩

/-! ## The registry of the callback-driven back end -/

theorem fs_find_cons (k : taskid) (t : fsevent.task) (m : List (taskid × fsevent.task))
    (id : taskid) :
    fsevent.find ((k, t) :: m) id = if id = k then some t else fsevent.find m id := by
  unfold fsevent.find
  by_cases h : id = k
  · simp [List.lookup, h]
  · have hb : (id == k) = false := by simpa using h
    simp [List.lookup, h, hb]

theorem fs_find_erase_self (m : List (taskid × fsevent.task)) (id : taskid) :
    fsevent.find (fsevent.erase m id) id = none := by
  induction m with
  | nil => rfl
  | cons kv rest ih =>
    obtain ⟨k, t⟩ := kv
    by_cases h : k = id
    · simpa [fsevent.erase, h] using ih
    · have h2 : ¬ id = k := fun e => h e.symm
      have : fsevent.erase ((k, t) :: rest) id = (k, t) :: fsevent.erase rest id := by
        simp [fsevent.erase, h]
      rw [this, fs_find_cons, if_neg h2, ih]

theorem fs_find_erase_ne (m : List (taskid × fsevent.task)) (id k : taskid) (hk : k ≠ id) :
    fsevent.find (fsevent.erase m id) k = fsevent.find m k := by
  induction m with
  | nil => rfl
  | cons kv rest ih =>
    obtain ⟨a, t⟩ := kv
    by_cases h : a = id
    · have : fsevent.erase ((a, t) :: rest) id = fsevent.erase rest id := by
        simp [fsevent.erase, h]
      have h2 : ¬ k = a := by rw [h]; exact hk
      rw [this, fs_find_cons, if_neg h2, ih]
    · have : fsevent.erase ((a, t) :: rest) id = (a, t) :: fsevent.erase rest id := by
        simp [fsevent.erase, h]
      rw [this, fs_find_cons, fs_find_cons, ih]

theorem fs_erase_absent (m : List (taskid × fsevent.task)) (id : taskid)
    (h : fsevent.find m id = none) : fsevent.erase m id = m := by
  induction m with
  | nil => rfl
  | cons kv rest ih =>
    obtain ⟨a, t⟩ := kv
    rw [fs_find_cons] at h
    by_cases h2 : id = a
    · rw [if_pos h2] at h; cases h
    · rw [if_neg h2] at h
      have h3 : ¬ a = id := fun e => h2 e.symm
      have : fsevent.erase ((a, t) :: rest) id = (a, t) :: fsevent.erase rest id := by
        simp [fsevent.erase, h3]
      rw [this, ih h]

/-- What `removetask` does to the registry, whether or not the task is registered. -/
theorem fs_removetask_tasks (w : fsevent.watch) (t : fsevent.task) :
    (w.removetask t).m_tasks = fsevent.erase w.m_tasks t.m_id := by
  unfold fsevent.watch.removetask fsevent.task.getid
  cases h : fsevent.find w.m_tasks t.m_id with
  | none => simp [fs_erase_absent _ _ h]
  | some u => rfl

/-! ## A completion that reports the abort -/

/-- C13. In the callback-driven back end, on a completion with `ERROR_OPERATION_ABORTED` and any
byte count, `changes_cb` erases the entry of this task's id from the registry and keeps every
other entry as it is, in the same order; it leaves the task itself as it is (no read is armed),
makes no request to the operating system and pushes no notification.  The only other effect is
the assertion of the destructor of the erased task. -/
theorem abort_removes_task (P : platform) (t : fsevent.task) (w : fsevent.watch) (n : DWORD)
    (e : start_env) :
    (t.changes_cb P w ERROR_OPERATION_ABORTED n e).1 = t
    ∧ (t.changes_cb P w ERROR_OPERATION_ABORTED n e).2.m_tasks
        = w.m_tasks.filter (fun kv => kv.1 ≠ t.m_id)
    ∧ fsevent.find (t.changes_cb P w ERROR_OPERATION_ABORTED n e).2.m_tasks t.m_id = none
    ∧ (∀ k : taskid, k ≠ t.m_id →
        fsevent.find (t.changes_cb P w ERROR_OPERATION_ABORTED n e).2.m_tasks k
          = fsevent.find w.m_tasks k)
    ∧ (t.changes_cb P w ERROR_OPERATION_ABORTED n e).2.m_notify = w.m_notify
    ∧ (t.changes_cb P w ERROR_OPERATION_ABORTED n e).2.os_trace = w.os_trace
    ∧ (t.changes_cb P w ERROR_OPERATION_ABORTED n e).2.m_apc_queue = w.m_apc_queue
    ∧ (t.changes_cb P w ERROR_OPERATION_ABORTED n e).2.m_terminate = w.m_terminate
    ∧ (t.changes_cb P w ERROR_OPERATION_ABORTED n e).2.m_thread = w.m_thread
    ∧ (t.changes_cb P w ERROR_OPERATION_ABORTED n e).2.m_gentask = w.m_gentask
    ∧ (t.changes_cb P w ERROR_OPERATION_ABORTED n e).2.assert_failed
        = (w.assert_failed || ((fsevent.find w.m_tasks t.m_id).isSome && t.m_directory.isSome))
    ∧ fsevent.two_tasks.m_tasks.map Prod.fst = [1, 2]
    ∧ (fsevent.two_tasks.fwtask_changes_cb example_platform 1 fsevent.aborted).m_tasks
        = fsevent.two_tasks.m_tasks.filter (fun kv => kv.1 ≠ 1) := by
  have hc : t.changes_cb P w ERROR_OPERATION_ABORTED n e = (t, w.removetask t) := by
    simp [fsevent.task.changes_cb, fsevent.task.remove]
  have ht : (w.removetask t).m_tasks = fsevent.erase w.m_tasks t.m_id := fs_removetask_tasks w t
  rw [hc]
  refine ⟨rfl, ht, ?_, ?_, fsevent.fs_removetask_notify w t, ?_, ?_, ?_,
    fsevent.fs_removetask_thread w t, fsevent.fs_removetask_gentask w t, ?_, by decide,
    by decide⟩
  · show fsevent.find (w.removetask t).m_tasks t.m_id = none
    rw [ht]; exact fs_find_erase_self _ _
  · intro k hk
    show fsevent.find (w.removetask t).m_tasks k = fsevent.find w.m_tasks k
    rw [ht]; exact fs_find_erase_ne _ _ _ hk
  · unfold fsevent.watch.removetask; split <;> rfl
  · unfold fsevent.watch.removetask; split <;> rfl
  · unfold fsevent.watch.removetask; split <;> rfl
  · show (w.removetask t).assert_failed = _
    unfold fsevent.watch.removetask fsevent.task.getid
    cases h : fsevent.find w.m_tasks t.m_id <;> cases hd : t.m_directory <;>
      simp [fsevent.task.destroy, fsevent.watch.check, hd]

/-- C13, at an example: the abort is reported for task 1 of the service with tasks 1 and 2;
task 2 is found in the registry as before. -/
theorem abort_removes_task_witness :
    fsevent.find (fsevent.watched.changes_cb example_platform fsevent.two_tasks
        ERROR_OPERATION_ABORTED 0 arms).2.m_tasks 2
      = fsevent.find fsevent.two_tasks.m_tasks 2 :=
  (abort_removes_task example_platform fsevent.watched fsevent.two_tasks 0 arms).2.2.2.1 2
    (by decide)

/-! ## Removing a task of the callback-driven back end -/

theorem fs_cancel_handle (t : fsevent.task) : t.cancel.1.m_directory = none := by
  cases h : t.m_directory <;> simp [fsevent.task.cancel, h]

theorem fs_cancel_id (t : fsevent.task) : t.cancel.1.m_id = t.m_id := by
  cases h : t.m_directory <;> simp [fsevent.task.cancel, h]

/-- What `task::remove` of the callback-driven back end does in every state: it only
de-registers.  Afterwards the id of the task is absent from the registry, every other entry is
as before, and no request was made to the operating system; the handle is not touched.  The
registry is the same as after `cancel()` followed by de-registration, and the two have the same
effect altogether exactly when the handle of the task is invalid already. -/
theorem remove_deregisters (t : fsevent.task) (w : fsevent.watch) :
    (t.remove w).m_tasks = w.m_tasks.filter (fun kv => kv.1 ≠ t.m_id)
    ∧ fsevent.find (t.remove w).m_tasks t.m_id = none
    ∧ (∀ k : taskid, k ≠ t.m_id → fsevent.find (t.remove w).m_tasks k = fsevent.find w.m_tasks k)
    ∧ (t.remove w).os_trace = w.os_trace
    ∧ (t.cancel_then_deregister w).2.m_tasks = (t.remove w).m_tasks
    ∧ (t.cancel_then_deregister w).1.m_directory = none
    ∧ (t.cancel_then_deregister w = (t, t.remove w) ↔ t.m_directory = none) := by
  have ht : (w.removetask t).m_tasks = fsevent.erase w.m_tasks t.m_id := fs_removetask_tasks w t
  refine ⟨ht, ?_, ?_, ?_, ?_, fs_cancel_handle t, ?_⟩
  · show fsevent.find (w.removetask t).m_tasks t.m_id = none
    rw [ht]; exact fs_find_erase_self _ _
  · intro k hk
    show fsevent.find (w.removetask t).m_tasks k = fsevent.find w.m_tasks k
    rw [ht]; exact fs_find_erase_ne _ _ _ hk
  · show (w.removetask t).os_trace = w.os_trace
    unfold fsevent.watch.removetask; split <;> rfl
  · show ((w.sys t.cancel.2).removetask t.cancel.1).m_tasks = (w.removetask t).m_tasks
    rw [fs_removetask_tasks, fs_removetask_tasks, fs_cancel_id]
    rfl
  · constructor
    · intro h
      have h1 : t.cancel.1 = t := congrArg Prod.fst h
      rw [← h1]
      exact fs_cancel_handle t
    · intro h
      have hc : t.cancel = (t, []) := by simp [fsevent.task.cancel, h]
      simp [fsevent.task.cancel_then_deregister, hc, fsevent.task.remove, fsevent.watch.sys]

/-- Task 1 with its handle made invalid: for it `remove()` and `cancel()` followed by
de-registration are the same. -/
theorem remove_deregisters_witness :
    ({ fsevent.watched with m_directory := none } : fsevent.task).cancel_then_deregister
        fsevent.two_tasks
      = ({ fsevent.watched with m_directory := none },
         ({ fsevent.watched with m_directory := none } : fsevent.task).remove
           fsevent.two_tasks) :=
  (remove_deregisters { fsevent.watched with m_directory := none } fsevent.two_tasks).2.2.2.2.2.2.mpr
    rfl

/-! ## Draining the control queue -/

/-- The commands act on the service without regard to the control queue. -/
theorem fs_apc_add_queue (w : fsevent.watch) (q : List fsevent.apc_arg) (id : taskid)
    (path : wstring) (e : fsevent.add_env) :
    ({ w with m_apc_queue := q } : fsevent.watch).apc_add id path e
      = { w.apc_add id path e with m_apc_queue := q } := by
  cases ha : e.opening.absolute path <;> cases hc : e.opening.create_file <;>
    cases hr : e.start.read_changes <;> cases hf : fsevent.find w.m_tasks id <;>
    simp [fsevent.watch.apc_add, fsevent.task.open, fsevent.task.create, fsevent.task.start,
      fsevent.task.destroy, fsevent.watch.check, fsevent.watch.sys, fsevent.push_notify, ha, hc,
      hr, hf]

theorem fs_apc_remove_queue (w : fsevent.watch) (q : List fsevent.apc_arg) (id : taskid) :
    ({ w with m_apc_queue := q } : fsevent.watch).apc_remove id
      = { w.apc_remove id with m_apc_queue := q } := by
  cases hf : fsevent.find w.m_tasks id <;> simp [fsevent.watch.apc_remove, hf]

theorem fs_apc_terminate_queue (w : fsevent.watch) (q : List fsevent.apc_arg) :
    ({ w with m_apc_queue := q } : fsevent.watch).apc_terminate
      = { w.apc_terminate with m_apc_queue := q } := by
  unfold fsevent.watch.apc_terminate
  dsimp only
  split <;> rfl

theorem fs_apply_command_queue (w : fsevent.watch) (q : List fsevent.apc_arg)
    (env : taskid → fsevent.add_env) (arg : fsevent.apc_arg) :
    ({ w with m_apc_queue := q } : fsevent.watch).apply_command env arg
      = { w.apply_command env arg with m_apc_queue := q } := by
  unfold fsevent.watch.apply_command
  cases arg.m_type
  · exact fs_apc_add_queue w q _ _ _
  · exact fs_apc_remove_queue w q _
  · exact fs_apc_terminate_queue w q

theorem fs_apply_commands_queue (env : taskid → fsevent.add_env) (l : List fsevent.apc_arg) :
    ∀ (w : fsevent.watch) (q : List fsevent.apc_arg),
      l.foldl (fun v a => v.apply_command env a) ({ w with m_apc_queue := q } : fsevent.watch)
        = { l.foldl (fun v a => v.apply_command env a) w with m_apc_queue := q } := by
  induction l with
  | nil => intro w q; rfl
  | cons a rest ih =>
    intro w q
    rw [List.foldl_cons, List.foldl_cons, fs_apply_command_queue w q env a, ih]

/-- The loop of `apc_cb` applies the commands up to the first `Terminate` and leaves the rest. -/
theorem fs_apc_loop_eq (env : taskid → fsevent.add_env) (q : List fsevent.apc_arg) :
    ∀ w : fsevent.watch, w.m_apc_queue = q → fsevent.apc_loop env q w
      = { (fsevent.upto_terminate q).foldl (fun v a => v.apply_command env a) w with
          m_apc_queue := fsevent.after_terminate q } := by
  induction q with
  | nil =>
    intro w hw
    cases w
    simp only at hw
    subst hw
    rfl
  | cons a rest ih =>
    intro w _
    have hstep : fsevent.apc_loop env (a :: rest) w =
        if a.m_type = fsevent.apc_type.Terminate then
          ({ w with m_apc_queue := rest } : fsevent.watch).apply_command env a
        else fsevent.apc_loop env rest
          (({ w with m_apc_queue := rest } : fsevent.watch).apply_command env a) := by
      cases hty : a.m_type <;> simp [fsevent.apc_loop, fsevent.watch.apply_command, hty]
    rw [hstep]
    by_cases hty : a.m_type = fsevent.apc_type.Terminate
    · rw [if_pos hty, fs_apply_command_queue w rest env a]
      simp only [fsevent.upto_terminate, fsevent.after_terminate, hty, if_true, List.foldl_cons,
        List.foldl_nil]
    · rw [if_neg hty, ih _ (by rw [fs_apply_command_queue w rest env a]),
        fs_apply_command_queue w rest env a, fs_apply_commands_queue]
      simp only [fsevent.upto_terminate, fsevent.after_terminate, hty, if_false,
        List.foldl_cons]

theorem fs_upto_after (q : List fsevent.apc_arg) :
    fsevent.upto_terminate q ++ fsevent.after_terminate q = q := by
  induction q with
  | nil => rfl
  | cons a rest ih =>
    by_cases h : a.m_type = fsevent.apc_type.Terminate
    · simp [fsevent.upto_terminate, fsevent.after_terminate, h]
    · simp [fsevent.upto_terminate, fsevent.after_terminate, h, ih]

theorem fs_upto_no_terminate (q : List fsevent.apc_arg)
    (h : ∀ a ∈ q, a.m_type ≠ fsevent.apc_type.Terminate) :
    fsevent.upto_terminate q = q ∧ fsevent.after_terminate q = [] := by
  induction q with
  | nil => exact ⟨rfl, rfl⟩
  | cons a rest ih =>
    have ha := h a (List.mem_cons_self _ _)
    have hr := ih (fun x hx => h x (List.mem_cons_of_mem _ hx))
    simp [fsevent.upto_terminate, fsevent.after_terminate, ha, hr.1, hr.2]

theorem fs_upto_first_terminate (pre post : List fsevent.apc_arg) (a : fsevent.apc_arg)
    (ha : a.m_type = fsevent.apc_type.Terminate)
    (h : ∀ x ∈ pre, x.m_type ≠ fsevent.apc_type.Terminate) :
    fsevent.upto_terminate (pre ++ a :: post) = pre ++ [a]
    ∧ fsevent.after_terminate (pre ++ a :: post) = post := by
  induction pre with
  | nil => simp [fsevent.upto_terminate, fsevent.after_terminate, ha]
  | cons x rest ih =>
    have hx := h x (List.mem_cons_self _ _)
    have hr := ih (fun y hy => h y (List.mem_cons_of_mem _ hy))
    simp [fsevent.upto_terminate, fsevent.after_terminate, hx, hr.1, hr.2]

/-- C17. In the callback-driven back end `apc_cb` applies the queued commands one after the
other, oldest first, up to and including the first `Terminate`, and leaves in the queue exactly
the commands behind that `Terminate`, not applied; if the queue holds no `Terminate`, every
command is applied and the queue is left empty. -/
theorem apc_cb_fifo (w : fsevent.watch) (env : taskid → fsevent.add_env) :
    w.apc_cb env
      = { (fsevent.upto_terminate w.m_apc_queue).foldl (fun v a => v.apply_command env a) w with
          m_apc_queue := fsevent.after_terminate w.m_apc_queue }
    ∧ fsevent.upto_terminate w.m_apc_queue ++ fsevent.after_terminate w.m_apc_queue
        = w.m_apc_queue
    ∧ ((∀ a ∈ w.m_apc_queue, a.m_type ≠ fsevent.apc_type.Terminate) →
        fsevent.upto_terminate w.m_apc_queue = w.m_apc_queue
        ∧ (w.apc_cb env).m_apc_queue = [])
    ∧ (∀ (pre post : List fsevent.apc_arg) (a : fsevent.apc_arg),
        w.m_apc_queue = pre ++ a :: post → a.m_type = fsevent.apc_type.Terminate →
        (∀ x ∈ pre, x.m_type ≠ fsevent.apc_type.Terminate) →
        fsevent.upto_terminate w.m_apc_queue = pre ++ [a]
        ∧ (w.apc_cb env).m_apc_queue = post) := by
  have key := fs_apc_loop_eq env w.m_apc_queue w rfl
  have hq : (w.apc_cb env).m_apc_queue = fsevent.after_terminate w.m_apc_queue := by
    unfold fsevent.watch.apc_cb
    rw [key]
  refine ⟨key, fs_upto_after _, ?_, ?_⟩
  · intro h
    have := fs_upto_no_terminate _ h
    exact ⟨this.1, by rw [hq, this.2]⟩
  · intro pre post a hw ha hpre
    have := fs_upto_first_terminate pre post a ha hpre
    rw [hq, hw]
    exact this

/-- C17, at an example: with the queue `Remove(1), Terminate, Add(3)` on the service with tasks
1 and 2, `apc_cb` leaves `Add(3)` in the queue, and afterwards both tasks are cancelled, the
terminate flag is set, and no task 3 is registered. -/
theorem apc_cb_fifo_witness :
    (({ fsevent.two_tasks with m_apc_queue := fsevent.example_queue } : fsevent.watch).apc_cb
        fsevent.example_env).m_apc_queue = [⟨fsevent.apc_type.Add, 3, L "d"⟩]
    ∧ (({ fsevent.two_tasks with m_apc_queue := fsevent.example_queue } : fsevent.watch).apc_cb
        fsevent.example_env).m_tasks.map (fun kv => (kv.1, kv.2.m_directory))
        = [(1, none), (2, none)]
    ∧ (({ fsevent.two_tasks with m_apc_queue := fsevent.example_queue } : fsevent.watch).apc_cb
        fsevent.example_env).m_terminate = true :=
  ⟨((apc_cb_fifo { fsevent.two_tasks with m_apc_queue := fsevent.example_queue }
      fsevent.example_env).2.2.2 [⟨fsevent.apc_type.Remove, 1, []⟩]
      [⟨fsevent.apc_type.Add, 3, L "d"⟩] ⟨fsevent.apc_type.Terminate, 0, []⟩ rfl rfl
      (by decide)).2,
   by decide, by decide⟩

/-! ## Failures while a task is added -/

/-- C11, evaluated on the code: when the directory opens (as handle `h`) and `ResetEvent` then
fails, `start` returns false without a notification and without closing the handle: `apc_add`
leaves registry and notification queue as they were, no Error is appended, and the assertion of
the task's destructor fails.  In the example, `add` leaves only its own TaskAdd in the queue. -/
theorem apc_add_without_error (w : filewatch.watch) (id : taskid) (path p : wstring)
    (h : HANDLE) (buf bak : List Nat) (msg msg2 : wstring) (accepts : Bool) :
    w.apc_add id path ⟨buf, bak, ⟨fun _ => some p, some h, msg⟩, ⟨false, accepts, msg2⟩⟩
      = { w with os_trace := w.os_trace ++ [oscall.CreateFileW p], assert_failed := true }
    ∧ ((filewatch.watch.init example_platform).add example_platform (L "d")
        ⟨[], [], opens_as 7, resets_not⟩).2.m_notify = [⟨tasktype.TaskAdd, L "(1)d"⟩]
    ∧ ((filewatch.watch.init example_platform).add example_platform (L "d")
        ⟨[], [], opens_as 7, resets_not⟩).2.m_tasks = []
    ∧ ((filewatch.watch.init example_platform).add example_platform (L "d")
        ⟨[], [], opens_as 7, resets_not⟩).2.assert_failed = true := by
  refine ⟨?_, by decide, by decide, by decide⟩
  simp [filewatch.watch.apc_add, filewatch.task.open, filewatch.task.create,
    filewatch.task.start, filewatch.task.destroy, filewatch.watch.check, filewatch.watch.sys]

/-- C12, evaluated on the code: when the directory opens (as handle `h`) and
`ReadDirectoryChangesW` rejects the first read, `apc_add` on the new service pushes the Error
notification, but the task is in the registry, with its handle open and no read outstanding.  In
the example a later `stop` does not return: the worker cancels the task, no abort is ever
reported for it, and it stays in the registry. -/
theorem apc_add_keeps_unarmed_task (P : platform) (id : taskid) (path p : wstring) (h : HANDLE)
    (buf bak : List Nat) (msg msg2 : wstring) (resets : Bool) :
    (fsevent.watch.init P).apc_add id path
        ⟨buf, bak, ⟨fun _ => some p, some h, msg⟩, ⟨resets, false, msg2⟩⟩
      = { fsevent.watch.init P with
          m_tasks := [(id, ⟨id, p, some h, buf, bak, 0⟩)]
          m_notify := [⟨tasktype.Error, L "`ReadDirectoryChangesW` failed: " ++ msg2⟩]
          os_trace := [oscall.CreateFileW p, oscall.ReadDirectoryChangesW h] }
    ∧ (fsevent.run example_platform (fsevent.watch.init example_platform)
        fsevent.unarmed_calls).m_tasks = [(1, ⟨1, L "d", some 7, [], [], 0⟩)]
    ∧ (fsevent.run example_platform (fsevent.watch.init example_platform)
        fsevent.unarmed_calls).m_notify
        = [⟨tasktype.Error, L "`ReadDirectoryChangesW` failed: no"⟩]
    ∧ ((fsevent.run example_platform (fsevent.watch.init example_platform)
        fsevent.unarmed_calls).stop example_platform true
          [[fsevent.worker_event.apc fsevent.example_env],
           [fsevent.worker_event.changes 1 fsevent.aborted]]).1 = false := by
  refine ⟨?_, by decide, by decide, by decide⟩
  simp [fsevent.watch.apc_add, fsevent.task.open, fsevent.task.create, fsevent.task.start,
    fsevent.watch.check, fsevent.watch.sys, fsevent.push_notify, fsevent.watch.init,
    fsevent.find, fsevent.insert, fsevent.assign]

/-! ## Completions that report an error -/

/-- C14, evaluated on the code: `changes_cb` treats every error code but the abort code as it
treats zero.  With error code 5 and zero bytes the task of the example stays registered, no
notification is pushed (no TaskRemove), no read is armed, and a later `stop` does not return; with
error code 5 and 14 bytes the record in the buffer is decoded and its Create notification is
pushed. -/
theorem changes_cb_ignores_error (P : platform) (t : fsevent.task) (w : fsevent.watch)
    (err n : DWORD) (e : start_env) :
    (err = ERROR_OPERATION_ABORTED ∨ t.changes_cb P w err n e = t.changes_cb P w 0 n e)
    ∧ (fsevent.two_tasks.fwtask_changes_cb example_platform 1 (fsevent.denied 0 [])).m_tasks.map
        (fun kv => (kv.1, kv.2.m_directory, kv.2.pending)) = [(1, some 101, 0), (2, some 102, 1)]
    ∧ (fsevent.two_tasks.fwtask_changes_cb example_platform 1 (fsevent.denied 0 [])).m_notify = []
    ∧ (fsevent.two_tasks.fwtask_changes_cb example_platform 1 (fsevent.denied 0 [])).os_trace
        = fsevent.two_tasks.os_trace
    ∧ ((fsevent.two_tasks.fwtask_changes_cb example_platform 1 (fsevent.denied 0 [])).stop
        example_platform true
          [[fsevent.worker_event.apc fsevent.example_env],
           [fsevent.worker_event.changes 1 fsevent.aborted,
            fsevent.worker_event.changes 2 fsevent.aborted]]).1 = false
    ∧ (fsevent.two_tasks.fwtask_changes_cb example_platform 1
        (fsevent.denied 14 one_record)).m_notify = [⟨tasktype.Create, [100, 92, 97]⟩]
    ∧ (fsevent.two_tasks.fwtask_changes_cb example_platform 1
        (fsevent.denied 14 one_record)).m_tasks.map Prod.fst = [1, 2] := by
  refine ⟨?_, by decide, by decide, by decide, by decide, by decide, by decide⟩
  by_cases h : err = ERROR_OPERATION_ABORTED
  · exact Or.inl h
  · right
    have h0 : ¬ ((0 : DWORD) = ERROR_OPERATION_ABORTED) := by decide
    unfold fsevent.task.changes_cb
    rw [if_neg h, if_neg h0]

/-- C15, evaluated on the code: when `GetOverlappedResult` fails with error code 5, `update`
returns false after pushing TaskRemove with the decimal id, and leaves the handle as it is.  In
the example `watch::update` pushes TaskRemove `1` and erases task 1, as claimed, but the handle
was never closed and the assertion of the task's destructor fails; when the task was cancelled
before (and the error code is that of the abort), the assertion holds. -/
theorem update_destroys_open_task (P : platform) (t : filewatch.task) (w : filewatch.watch)
    (bytes : DWORD) (data : List Nat) (s : start_env) :
    (t.update P w ⟨false, 5, bytes, data, s⟩).1 = false
    ∧ (t.update P w ⟨false, 5, bytes, data, s⟩).2.1.m_directory = t.m_directory
    ∧ (t.update P w ⟨false, 5, bytes, data, s⟩).2.2
        = filewatch.push_notify w tasktype.TaskRemove (filewatch.format_id t.m_id)
    ∧ filewatch.one_task.m_tasks.map (fun kv => (kv.1, kv.2.m_directory)) = [(1, some 7)]
    ∧ filewatch.one_task.assert_failed = false
    ∧ (filewatch.one_task.update example_platform (filewatch.failed 5)).m_notify
        = [⟨tasktype.TaskAdd, L "(1)d"⟩, ⟨tasktype.TaskRemove, L "1"⟩]
    ∧ (filewatch.one_task.update example_platform (filewatch.failed 5)).m_tasks = []
    ∧ (filewatch.one_task.update example_platform (filewatch.failed 5)).os_trace
        = [oscall.CreateFileW (L "d"), oscall.ReadDirectoryChangesW 7]
    ∧ (filewatch.one_task.update example_platform (filewatch.failed 5)).assert_failed = true
    ∧ ((filewatch.one_task.remove 1).2.update example_platform
        (filewatch.failed ERROR_OPERATION_ABORTED)).assert_failed = false := by
  refine ⟨?_, ?_, ?_, by decide, by decide, by decide, by decide, by decide, by decide,
    by decide⟩
  · simp [filewatch.task.update, filewatch.task.event_cb, ERROR_IO_INCOMPLETE]
  · simp [filewatch.task.update, filewatch.task.event_cb, ERROR_IO_INCOMPLETE]
  · simp [filewatch.task.update, filewatch.task.event_cb, ERROR_IO_INCOMPLETE]

/-! ## The registry and the queue of the poll-driven back end along a run -/

theorem fw_find_cons (k : taskid) (t : filewatch.task) (m : List (taskid × filewatch.task))
    (id : taskid) :
    filewatch.find ((k, t) :: m) id = if id = k then some t else filewatch.find m id := by
  unfold filewatch.find
  by_cases h : id = k
  · simp [List.lookup, h]
  · have hb : (id == k) = false := by simpa using h
    simp [List.lookup, h, hb]

/-- A key that is not among the keys of a registry is not found. -/
theorem fw_find_none_of_keys (m : List (taskid × filewatch.task)) (id : taskid)
    (h : id ∉ m.map Prod.fst) : filewatch.find m id = none := by
  induction m with
  | nil => rfl
  | cons kv rest ih =>
    obtain ⟨k, t⟩ := kv
    simp only [List.map_cons, List.mem_cons, not_or] at h
    rw [fw_find_cons, if_neg h.1]
    exact ih h.2

theorem fw_emplace_keys (m : List (taskid × filewatch.task)) (id : taskid)
    (t : filewatch.task) :
    ∀ k ∈ (filewatch.emplace m id t).map Prod.fst, k ∈ m.map Prod.fst ∨ k = id := by
  induction m with
  | nil =>
    intro k hk
    simp [filewatch.emplace] at hk
    exact Or.inr hk
  | cons kv rest ih =>
    obtain ⟨a, v⟩ := kv
    intro k hk
    simp only [filewatch.emplace] at hk
    split at hk
    · simp only [List.map_cons, List.mem_cons] at hk ⊢
      rcases hk with hk | hk | hk
      · exact Or.inr hk
      · exact Or.inl (Or.inl hk)
      · exact Or.inl (Or.inr hk)
    · split at hk
      · exact Or.inl hk
      · simp only [List.map_cons, List.mem_cons] at hk ⊢
        rcases hk with hk | hk
        · exact Or.inl (Or.inl hk)
        · rcases ih k hk with h | h
          · exact Or.inl (Or.inr h)
          · exact Or.inr h

theorem fw_assign_keys (m : List (taskid × filewatch.task)) (id : taskid) (t : filewatch.task) :
    (filewatch.assign m id t).map Prod.fst = m.map Prod.fst := by
  induction m with
  | nil => rfl
  | cons kv rest ih =>
    obtain ⟨a, v⟩ := kv
    simp only [filewatch.assign, List.map_cons] at ih ⊢
    rw [ih]
    by_cases h : a = id <;> simp [h]

theorem fw_apc_add_keys (w : filewatch.watch) (id : taskid) (path : wstring)
    (e : filewatch.add_env) :
    ∀ k ∈ (w.apc_add id path e).m_tasks.map Prod.fst, k ∈ w.m_tasks.map Prod.fst ∨ k = id := by
  have ho : ∀ (t : filewatch.task) (v : filewatch.watch) (oe : open_env),
      (t.open v path oe).2.2.m_tasks = v.m_tasks := by
    intro t v oe
    unfold filewatch.task.open
    split
    · rfl
    · split
      · rfl
      · split <;> rfl
  have hs : ∀ (t : filewatch.task) (v : filewatch.watch) (se : start_env),
      (t.start v se).2.2.m_tasks = v.m_tasks := fun t v se => (fw_start_effect t v se).2.2.2.2.2
  intro k hk
  simp only [filewatch.watch.apc_add] at hk
  split at hk
  · left
    simpa [filewatch.task.destroy, filewatch.watch.check, ho] using hk
  · split at hk
    · left
      simpa [filewatch.task.destroy, filewatch.watch.check, ho, hs] using hk
    · split at hk
      · left
        simpa [filewatch.task.destroy, filewatch.watch.check, ho, hs] using hk
      · have := fw_emplace_keys _ id _ k hk
        rw [hs, ho] at this
        exact this

theorem fw_apc_remove_keys (w : filewatch.watch) (id : taskid) :
    (w.apc_remove id).m_tasks.map Prod.fst = w.m_tasks.map Prod.fst := by
  unfold filewatch.watch.apc_remove
  split
  · exact fw_assign_keys _ _ _
  · rfl

theorem fw_update_each_keys (P : platform) (env : taskid → filewatch.poll_env)
    (m : List (taskid × filewatch.task)) :
    ∀ (w : filewatch.watch), ∀ k ∈ (filewatch.update_each P env m w).1.map Prod.fst,
      k ∈ m.map Prod.fst := by
  induction m with
  | nil => intro w k hk; simp [filewatch.update_each] at hk
  | cons kv rest ih =>
    obtain ⟨a, t⟩ := kv
    intro w k hk
    simp only [filewatch.update_each] at hk
    split at hk
    · simp only [List.map_cons, List.mem_cons] at hk ⊢
      rcases hk with hk | hk
      · exact Or.inl hk
      · exact Or.inr (ih _ k hk)
    · simp only [List.map_cons, List.mem_cons]
      exact Or.inr (ih _ k hk)

/-- The keys of the registry after a call are keys from before, or the id that `add` returned. -/
theorem fw_step_keys (P : platform) (w : filewatch.watch) (c : filewatch.call) :
    ∀ k ∈ (filewatch.step P w c).m_tasks.map Prod.fst,
      k ∈ w.m_tasks.map Prod.fst ∨ k = P.incr w.m_gentask := by
  intro k hk
  cases c with
  | add path e =>
    simp only [filewatch.step, filewatch.watch.add, filewatch.push_notify] at hk
    exact fw_apc_add_keys { w with m_gentask := P.incr w.m_gentask } _ _ _ k hk
  | remove id =>
    simp only [filewatch.step, filewatch.watch.remove, fw_apc_remove_keys] at hk
    exact Or.inl hk
  | stop =>
    have := (fw_stop_keys w)
    rw [filewatch.step, this] at hk
    exact Or.inl hk
  | select env =>
    left
    simp only [filewatch.step, filewatch.watch.select, filewatch.watch.update] at hk
    split at hk <;> exact fw_update_each_keys P env _ _ k hk

/-- Along a run whose adds do not exhaust the id type, the counter counts the adds and no key of
the registry lies beyond the counter. -/
theorem fw_run_counter (P : platform) (cs : List filewatch.call) :
    ∀ w : filewatch.watch,
      (w.m_gentask : Int) + (filewatch.adds cs : Int) ≤ (P.taskid_max : Int) →
      (∀ k ∈ w.m_tasks.map Prod.fst, (k : Int) ≤ (w.m_gentask : Int)) →
      ((filewatch.run P w cs).m_gentask : Int) = (w.m_gentask : Int) + (filewatch.adds cs : Int)
      ∧ ∀ k ∈ (filewatch.run P w cs).m_tasks.map Prod.fst,
          (k : Int) ≤ ((filewatch.run P w cs).m_gentask : Int) := by
  induction cs with
  | nil =>
    intro w _ hk
    exact ⟨by simp [filewatch.run, filewatch.adds], hk⟩
  | cons c cs ih =>
    intro w hcap hk
    have hrun : filewatch.run P w (c :: cs) = filewatch.run P (filewatch.step P w c) cs := rfl
    rw [hrun]
    cases c with
    | add path e =>
      have ha : filewatch.adds (filewatch.call.add path e :: cs) = filewatch.adds cs + 1 := rfl
      rw [ha] at hcap ⊢
      push_cast at hcap ⊢
      have hlt : (w.m_gentask : Int) < (P.taskid_max : Int) := by linarith
      have hg : ((filewatch.step P w (filewatch.call.add path e)).m_gentask : Int)
          = (w.m_gentask : Int) + 1 := by
        simp [filewatch.step, platform.incr, hlt]
      have hinc : P.incr w.m_gentask = w.m_gentask + 1 := by simp [platform.incr, hlt]
      have hk2 : ∀ k ∈ (filewatch.step P w (filewatch.call.add path e)).m_tasks.map Prod.fst,
          (k : Int) ≤ ((filewatch.step P w (filewatch.call.add path e)).m_gentask : Int) := by
        intro k hkm
        rw [hg]
        rcases fw_step_keys P w _ k hkm with h | h
        · have := hk k h
          linarith
        · rw [h, hinc]
      obtain ⟨i1, i2⟩ := ih _ (by rw [hg]; linarith) hk2
      exact ⟨by rw [i1, hg]; ring, i2⟩
    | remove id =>
      have hg : (filewatch.step P w (filewatch.call.remove id)).m_gentask = w.m_gentask := by
        simp [filewatch.step]
      have hk2 : ∀ k ∈ (filewatch.step P w (filewatch.call.remove id)).m_tasks.map Prod.fst,
          (k : Int) ≤ ((filewatch.step P w (filewatch.call.remove id)).m_gentask : Int) := by
        intro k hkm
        rw [hg]
        rcases fw_step_keys P w _ k hkm with h | h
        · exact hk k h
        · simp only [filewatch.step, filewatch.watch.remove, fw_apc_remove_keys] at hkm
          exact hk k hkm
      obtain ⟨i1, i2⟩ := ih _ (by rw [hg]; exact hcap) hk2
      exact ⟨by rw [i1, hg]; rfl, i2⟩
    | stop =>
      have hg : (filewatch.step P w filewatch.call.stop).m_gentask = w.m_gentask := by
        simp [filewatch.step]
      have hk2 : ∀ k ∈ (filewatch.step P w filewatch.call.stop).m_tasks.map Prod.fst,
          (k : Int) ≤ ((filewatch.step P w filewatch.call.stop).m_gentask : Int) := by
        intro k hkm
        rw [hg]
        rw [filewatch.step, fw_stop_keys] at hkm
        exact hk k hkm
      obtain ⟨i1, i2⟩ := ih _ (by rw [hg]; exact hcap) hk2
      exact ⟨by rw [i1, hg]; rfl, i2⟩
    | select env =>
      have hg : (filewatch.step P w (filewatch.call.select env)).m_gentask = w.m_gentask := by
        simp [filewatch.step]
      have hk2 : ∀ k ∈ (filewatch.step P w (filewatch.call.select env)).m_tasks.map Prod.fst,
          (k : Int) ≤ ((filewatch.step P w (filewatch.call.select env)).m_gentask : Int) := by
        intro k hkm
        rw [hg]
        simp only [filewatch.step, filewatch.watch.select, filewatch.watch.update] at hkm
        split at hkm <;> exact hk k (fw_update_each_keys P env _ _ k hkm)
      obtain ⟨i1, i2⟩ := ih _ (by rw [hg]; exact hcap) hk2
      exact ⟨by rw [i1, hg]; rfl, i2⟩

/-- In a state reached without exhausting the id type, the next id is not registered. -/
theorem fw_next_id_fresh (P : platform) (cs : List filewatch.call)
    (hcap : (P.kInvalidTaskId : Int) + (filewatch.adds cs : Int) + 1 ≤ (P.taskid_max : Int)) :
    P.incr (filewatch.run P (filewatch.watch.init P) cs).m_gentask
        = P.kInvalidTaskId + (filewatch.adds cs : Int) + 1
    ∧ filewatch.find (filewatch.run P (filewatch.watch.init P) cs).m_tasks
        (P.incr (filewatch.run P (filewatch.watch.init P) cs).m_gentask) = none := by
  have h0 : ∀ k ∈ (filewatch.watch.init P).m_tasks.map Prod.fst,
      (k : Int) ≤ ((filewatch.watch.init P).m_gentask : Int) := by
    intro k hk
    simp [filewatch.watch.init] at hk
  have hc0 : ((filewatch.watch.init P).m_gentask : Int) + (filewatch.adds cs : Int)
      ≤ (P.taskid_max : Int) := by
    show (P.kInvalidTaskId : Int) + (filewatch.adds cs : Int) ≤ (P.taskid_max : Int)
    linarith
  obtain ⟨i1, i2⟩ := fw_run_counter P cs _ hc0 h0
  have hg : ((filewatch.run P (filewatch.watch.init P) cs).m_gentask : Int)
      = (P.kInvalidTaskId : Int) + (filewatch.adds cs : Int) := i1
  have hlt : ((filewatch.run P (filewatch.watch.init P) cs).m_gentask : Int)
      < (P.taskid_max : Int) := by rw [hg]; linarith
  have hinc : P.incr (filewatch.run P (filewatch.watch.init P) cs).m_gentask
      = (filewatch.run P (filewatch.watch.init P) cs).m_gentask + 1 := by
    simp [platform.incr, hlt]
  refine ⟨by rw [hinc, hg], ?_⟩
  apply fw_find_none_of_keys
  intro hmem
  have := i2 _ hmem
  rw [hinc] at this
  linarith

/-! ## The order of the notification queue of the poll-driven back end -/

/-- During `apc_add` nothing is pushed but at most Error notifications, at the back. -/
theorem fw_apc_add_notify (w : filewatch.watch) (id : taskid) (path : wstring)
    (e : filewatch.add_env) :
    ∃ errs : List notify, (∀ x ∈ errs, x.m_type = tasktype.Error)
      ∧ (w.apc_add id path e).m_notify = w.m_notify ++ errs := by
  cases ha : e.opening.absolute path with
  | none =>
    refine ⟨[⟨tasktype.Error, L "`std::filesystem::absolute` failed: " ++ e.opening.message⟩],
      by simp, ?_⟩
    simp [filewatch.watch.apc_add, filewatch.task.open, filewatch.task.create, ha,
      filewatch.task.destroy, filewatch.watch.check, filewatch.push_notify]
  | some p =>
    cases hc : e.opening.create_file with
    | none =>
      refine ⟨[⟨tasktype.Error, e.opening.message⟩], by simp, ?_⟩
      simp [filewatch.watch.apc_add, filewatch.task.open, filewatch.task.create, ha, hc,
        filewatch.task.destroy, filewatch.watch.check, filewatch.push_notify,
        filewatch.watch.sys]
    | some h =>
      cases hr : e.start.reset_event with
      | false =>
        refine ⟨[], by simp, ?_⟩
        simp [filewatch.watch.apc_add, filewatch.task.open, filewatch.task.create, ha, hc, hr,
          filewatch.task.start, filewatch.task.destroy, filewatch.watch.check,
          filewatch.watch.sys]
      | true =>
        cases hrc : e.start.read_changes with
        | false =>
          refine ⟨[⟨tasktype.Error, e.start.message⟩], by simp, ?_⟩
          simp [filewatch.watch.apc_add, filewatch.task.open, filewatch.task.create, ha, hc, hr,
            hrc, filewatch.task.start, filewatch.task.destroy, filewatch.watch.check,
            filewatch.watch.sys, filewatch.push_notify]
        | true =>
          refine ⟨[], by simp, ?_⟩
          by_cases hf : (filewatch.find w.m_tasks id).isSome = true <;>
            simp [filewatch.watch.apc_add, filewatch.task.open, filewatch.task.create, ha, hc,
              hr, hrc, filewatch.task.start, filewatch.watch.sys, hf, filewatch.task.destroy,
              filewatch.watch.check]

/-- The method `task::update` only appends to the queue. -/
theorem fw_update_notify (P : platform) (t : filewatch.task) (w : filewatch.watch)
    (e : filewatch.poll_env) :
    ∃ new : List notify, (t.update P w e).2.2.m_notify = w.m_notify ++ new := by
  unfold filewatch.task.update
  split
  · exact ⟨[], by simp⟩
  · by_cases herr : e.last_error = 0
    · by_cases hb : e.bytes = 0
      · exact ⟨[], by simp [filewatch.task.event_cb, herr, hb]⟩
      · rw [herr]
        obtain ⟨_, d1, _, _⟩ := fw_event_cb_decode P
          { t with m_buffer := memcpy e.data.length t.m_buffer e.data, pending := t.pending - 1 }
          w e.bytes e.start hb
        exact ⟨_, by rw [d1, List.append_assoc]⟩
    · exact ⟨[⟨tasktype.TaskRemove, filewatch.format_id t.m_id⟩],
        by simp [filewatch.task.event_cb, herr, filewatch.push_notify]⟩

theorem fw_update_each_notify (P : platform) (env : taskid → filewatch.poll_env)
    (m : List (taskid × filewatch.task)) :
    ∀ w : filewatch.watch, ∃ new : List notify,
      (filewatch.update_each P env m w).2.m_notify = w.m_notify ++ new := by
  induction m with
  | nil => intro w; exact ⟨[], by simp [filewatch.update_each]⟩
  | cons kv rest ih =>
    obtain ⟨k, t⟩ := kv
    intro w
    obtain ⟨n1, h1⟩ := fw_update_notify P t w (env k)
    simp only [filewatch.update_each]
    split
    · obtain ⟨n2, h2⟩ := ih (t.update P w (env k)).2.2
      exact ⟨n1 ++ n2, by rw [h2, h1, List.append_assoc]⟩
    · obtain ⟨n2, h2⟩ := ih ((t.update P w (env k)).2.1.destroy (t.update P w (env k)).2.2)
      refine ⟨n1 ++ n2, ?_⟩
      rw [h2]
      show (t.update P w (env k)).2.2.m_notify ++ n2 = _
      rw [h1, List.append_assoc]

/-- A call appends what it pushes at the back of the queue and pops at most the one
notification at its front. -/
theorem fw_step_queue (P : platform) (w : filewatch.watch) (c : filewatch.call) :
    ∃ (k : Nat) (new : List notify), k ≤ (w.m_notify ++ new).length
      ∧ (filewatch.step P w c).m_notify = (w.m_notify ++ new).drop k := by
  cases c with
  | add path e =>
    obtain ⟨errs, _, h⟩ := fw_apc_add_notify { w with m_gentask := P.incr w.m_gentask }
      (P.incr w.m_gentask) path e
    refine ⟨0, errs ++ [⟨tasktype.TaskAdd,
      L "(" ++ filewatch.format_id (P.incr w.m_gentask) ++ L ")" ++ path⟩], Nat.zero_le _, ?_⟩
    simp only [filewatch.step, filewatch.watch.add, filewatch.push_notify, h, List.drop_zero,
      List.append_assoc]
  | remove id =>
    refine ⟨0, [], Nat.zero_le _, ?_⟩
    simp only [filewatch.step, filewatch.watch.remove, List.drop_zero, List.append_nil]
    unfold filewatch.watch.apc_remove
    split <;> rfl
  | stop =>
    refine ⟨0, [⟨tasktype.TaskTerminate, L ""⟩], Nat.zero_le _, ?_⟩
    simp only [filewatch.step, filewatch.watch.stop, filewatch.push_notify, List.drop_zero]
    congr 1
    simp only [filewatch.watch.apc_terminate]
    split <;> rfl
  | select env =>
    obtain ⟨new, h⟩ := fw_update_each_notify P env w.m_tasks w
    simp only [filewatch.step, filewatch.watch.select, filewatch.watch.update]
    split
    · rename_i hq
      refine ⟨0, new, Nat.zero_le _, ?_⟩
      rw [List.drop_zero, ← h]
    · rename_i n rest hq
      have hq2 : (filewatch.update_each P env w.m_tasks w).2.m_notify = n :: rest := hq
      refine ⟨1, new, ?_, ?_⟩
      · rw [← h, hq2]
        simp
      · rw [← h, hq2]
        rfl

/-- Along a run the queue is the old queue followed by what was pushed since, less what was
popped at its front. -/
theorem fw_run_queue (P : platform) (cs : List filewatch.call) :
    ∀ w : filewatch.watch, ∃ (k : Nat) (new : List notify), k ≤ (w.m_notify ++ new).length
      ∧ (filewatch.run P w cs).m_notify = (w.m_notify ++ new).drop k := by
  induction cs with
  | nil => intro w; exact ⟨0, [], Nat.zero_le _, by simp [filewatch.run]⟩
  | cons c cs ih =>
    intro w
    have hrun : filewatch.run P w (c :: cs) = filewatch.run P (filewatch.step P w c) cs := rfl
    obtain ⟨k1, n1, hk1, h1⟩ := fw_step_queue P w c
    obtain ⟨k2, n2, hk2, h2⟩ := ih (filewatch.step P w c)
    refine ⟨k1 + k2, n1 ++ n2, ?_, ?_⟩
    · rw [h1] at hk2
      simp only [List.length_append, List.length_drop] at hk1 hk2 ⊢
      omega
    · rw [hrun, h2, h1, ← List.append_assoc w.m_notify n1 n2,
        ← List.drop_append_of_le_length hk1, List.drop_drop]

/-! ## Independence of tasks -/

theorem fw_find_emplace_self (m : List (taskid × filewatch.task)) (id : taskid)
    (t : filewatch.task) (h : filewatch.find m id = none) :
    filewatch.find (filewatch.emplace m id t) id = some t := by
  induction m with
  | nil => simp [filewatch.emplace, fw_find_cons]
  | cons kv rest ih =>
    obtain ⟨a, v⟩ := kv
    rw [fw_find_cons] at h
    by_cases h2 : id = a
    · rw [if_pos h2] at h; cases h
    · rw [if_neg h2] at h
      simp only [filewatch.emplace]
      split
      · simp [fw_find_cons]
      · rw [fw_find_cons, if_neg h2]
        exact ih h

theorem fw_find_emplace_ne (m : List (taskid × filewatch.task)) (id k : taskid)
    (t : filewatch.task) (hk : k ≠ id) :
    filewatch.find (filewatch.emplace m id t) k = filewatch.find m k := by
  induction m with
  | nil => simp [filewatch.emplace, fw_find_cons, hk, filewatch.find]
  | cons kv rest ih =>
    obtain ⟨a, v⟩ := kv
    simp only [filewatch.emplace]
    split
    · rw [fw_find_cons, if_neg hk]
    · split
      · rfl
      · rw [fw_find_cons, fw_find_cons, ih]

theorem fw_find_assign (m : List (taskid × filewatch.task)) (id k : taskid)
    (t : filewatch.task) :
    filewatch.find (filewatch.assign m id t) k
      = if k = id then (filewatch.find m id).map (fun _ => t) else filewatch.find m k := by
  induction m with
  | nil => simp [filewatch.assign, filewatch.find]
  | cons kv rest ih =>
    obtain ⟨a, v⟩ := kv
    have hcons : filewatch.assign ((a, v) :: rest) id t
        = (if a = id then (a, t) else (a, v)) :: filewatch.assign rest id t := by
      simp [filewatch.assign]
    rw [hcons]
    by_cases ha : a = id
    · rw [if_pos ha, fw_find_cons, fw_find_cons, fw_find_cons, ih]
      by_cases hk : k = id
      · simp [hk, ha]
      · simp [hk, ha]
    · rw [if_neg ha, fw_find_cons, fw_find_cons, fw_find_cons, ih]
      by_cases hk : k = id
      · have : ¬ id = a := fun e => ha e.symm
        simp [hk, this]
      · simp [hk]

theorem fw_cancel_eq (t : filewatch.task) : t.cancel.1 = { t with m_directory := none } := by
  cases t with
  | mk i p dir b1 b2 n => cases dir <;> rfl

/-- When a task opens and arms under an id that is not registered, `apc_add` puts it into the
registry. -/
theorem fw_apc_add_registers (w : filewatch.watch) (id : taskid) (d p : wstring) (h : HANDLE)
    (e : filewatch.add_env) (he : e.succeeds d p h) (hf : filewatch.find w.m_tasks id = none) :
    (w.apc_add id d e).m_tasks
      = filewatch.emplace w.m_tasks id ⟨id, p, some h, e.buf, e.bak, 1⟩ := by
  obtain ⟨h1, h2, h3, h4⟩ := he
  simp [filewatch.watch.apc_add, filewatch.task.open, filewatch.task.create,
    filewatch.task.start, filewatch.watch.sys, h1, h2, h3, h4, hf]

theorem fs_find_insert_self (m : List (taskid × fsevent.task)) (id : taskid)
    (t : fsevent.task) (h : fsevent.find m id = none) :
    fsevent.find (fsevent.insert m id t) id = some t := by
  induction m with
  | nil => simp [fsevent.insert, fs_find_cons]
  | cons kv rest ih =>
    obtain ⟨a, v⟩ := kv
    rw [fs_find_cons] at h
    by_cases h2 : id = a
    · rw [if_pos h2] at h; cases h
    · rw [if_neg h2] at h
      simp only [fsevent.insert]
      split
      · simp [fs_find_cons]
      · rw [fs_find_cons, if_neg h2]
        exact ih h

theorem fs_find_insert_ne (m : List (taskid × fsevent.task)) (id k : taskid)
    (t : fsevent.task) (hk : k ≠ id) :
    fsevent.find (fsevent.insert m id t) k = fsevent.find m k := by
  induction m with
  | nil => simp [fsevent.insert, fs_find_cons, hk, fsevent.find]
  | cons kv rest ih =>
    obtain ⟨a, v⟩ := kv
    simp only [fsevent.insert]
    split
    · rw [fs_find_cons, if_neg hk]
    · split
      · rfl
      · rw [fs_find_cons, fs_find_cons, ih]

theorem fs_find_assign (m : List (taskid × fsevent.task)) (id k : taskid) (t : fsevent.task) :
    fsevent.find (fsevent.assign m id t) k
      = if k = id then (fsevent.find m id).map (fun _ => t) else fsevent.find m k := by
  induction m with
  | nil => simp [fsevent.assign, fsevent.find]
  | cons kv rest ih =>
    obtain ⟨a, v⟩ := kv
    have hcons : fsevent.assign ((a, v) :: rest) id t
        = (if a = id then (a, t) else (a, v)) :: fsevent.assign rest id t := by
      simp [fsevent.assign]
    rw [hcons]
    by_cases ha : a = id
    · rw [if_pos ha, fs_find_cons, fs_find_cons, fs_find_cons, ih]
      by_cases hk : k = id
      · simp [hk, ha]
      · simp [hk, ha]
    · rw [if_neg ha, fs_find_cons, fs_find_cons, fs_find_cons, ih]
      by_cases hk : k = id
      · have : ¬ id = a := fun e => ha e.symm
        simp [hk, this]
      · simp [hk]

theorem fs_assign_keys (m : List (taskid × fsevent.task)) (id : taskid) (t : fsevent.task) :
    (fsevent.assign m id t).map Prod.fst = m.map Prod.fst := by
  induction m with
  | nil => rfl
  | cons kv rest ih =>
    obtain ⟨a, v⟩ := kv
    simp only [fsevent.assign, List.map_cons] at ih ⊢
    rw [ih]
    by_cases h : a = id <;> simp [h]

theorem fs_cancel_eq (t : fsevent.task) : t.cancel.1 = { t with m_directory := none } := by
  cases t with
  | mk i p dir b1 b2 n => cases dir <;> rfl

/-- When a task opens, `apc_add` puts it into the registry, whether or not its first read is
accepted. -/
theorem fs_apc_add_registers (w : fsevent.watch) (id : taskid) (d p : wstring) (h : HANDLE)
    (e : fsevent.add_env) (he : e.opens d p h) (hf : fsevent.find w.m_tasks id = none) :
    (w.apc_add id d e).m_tasks
      = fsevent.assign (fsevent.insert w.m_tasks id ⟨id, p, some h, e.buf, e.bak, 0⟩) id
          ⟨id, p, some h, e.buf, e.bak, if e.start.read_changes then 1 else 0⟩ := by
  obtain ⟨h1, h2⟩ := he
  cases hr : e.start.read_changes <;>
    simp [fsevent.watch.apc_add, fsevent.task.open, fsevent.task.create, fsevent.task.start,
      fsevent.watch.sys, fsevent.watch.check, fsevent.push_notify, h1, h2, hr, hf]

theorem fw_adds_snoc (cs : List filewatch.call) (d : wstring) (e : filewatch.add_env) :
    filewatch.adds (cs ++ [filewatch.call.add d e]) = filewatch.adds cs + 1 := by
  induction cs with
  | nil => rfl
  | cons c cs ih =>
    cases c <;> simp [filewatch.adds, ih]

theorem fw_run_snoc (P : platform) (w : filewatch.watch) (cs : List filewatch.call)
    (c : filewatch.call) :
    filewatch.run P w (cs ++ [c]) = filewatch.step P (filewatch.run P w cs) c := by
  simp [filewatch.run, List.foldl_append]

theorem fw_add_tasks (P : platform) (w : filewatch.watch) (d p : wstring) (h : HANDLE)
    (e : filewatch.add_env) (he : e.succeeds d p h)
    (hf : filewatch.find w.m_tasks (P.incr w.m_gentask) = none) :
    (w.add P d e).2.m_tasks
      = filewatch.emplace w.m_tasks (P.incr w.m_gentask)
          ⟨P.incr w.m_gentask, p, some h, e.buf, e.bak, 1⟩ := by
  have := fw_apc_add_registers { w with m_gentask := P.incr w.m_gentask } (P.incr w.m_gentask)
    d p h e he hf
  simpa [filewatch.watch.add, filewatch.push_notify] using this

/-- Two adds of one directory in the poll-driven back end, from a state reached with room for
two more ids: two ids, two entries. -/
theorem fw_two_adds (P : platform) (cs : List filewatch.call) (d : wstring)
    (e1 e2 : filewatch.add_env) (p1 p2 : wstring) (h1 h2 : HANDLE)
    (hcap : (P.kInvalidTaskId : Int) + (filewatch.adds cs : Int) + 2 ≤ (P.taskid_max : Int))
    (he1 : e1.succeeds d p1 h1) (he2 : e2.succeeds d p2 h2) :
    ((filewatch.run P (filewatch.watch.init P) cs).add P d e1).1
        ≠ (((filewatch.run P (filewatch.watch.init P) cs).add P d e1).2.add P d e2).1
    ∧ filewatch.find
        (((filewatch.run P (filewatch.watch.init P) cs).add P d e1).2.add P d e2).2.m_tasks
        ((filewatch.run P (filewatch.watch.init P) cs).add P d e1).1
      = some ⟨((filewatch.run P (filewatch.watch.init P) cs).add P d e1).1, p1, some h1,
          e1.buf, e1.bak, 1⟩
    ∧ filewatch.find
        (((filewatch.run P (filewatch.watch.init P) cs).add P d e1).2.add P d e2).2.m_tasks
        (((filewatch.run P (filewatch.watch.init P) cs).add P d e1).2.add P d e2).1
      = some ⟨(((filewatch.run P (filewatch.watch.init P) cs).add P d e1).2.add P d e2).1, p2,
          some h2, e2.buf, e2.bak, 1⟩ := by
  obtain ⟨f1, f2⟩ := fw_next_id_fresh P cs (by linarith)
  have hcap2 : (P.kInvalidTaskId : Int)
      + (filewatch.adds (cs ++ [filewatch.call.add d e1]) : Int) + 1 ≤ (P.taskid_max : Int) := by
    rw [fw_adds_snoc]; push_cast; linarith
  obtain ⟨g1, g2⟩ := fw_next_id_fresh P (cs ++ [filewatch.call.add d e1]) hcap2
  rw [fw_run_snoc] at g1 g2
  rw [fw_adds_snoc] at g1
  simp only [filewatch.step] at g1 g2
  push_cast at g1
  have hne : P.incr (filewatch.run P (filewatch.watch.init P) cs).m_gentask
      ≠ P.incr ((filewatch.run P (filewatch.watch.init P) cs).add P d e1).2.m_gentask := by
    rw [f1, g1]
    intro h
    linarith
  have t1 := fw_add_tasks P (filewatch.run P (filewatch.watch.init P) cs) d p1 h1 e1 he1 f2
  have t2 := fw_add_tasks P ((filewatch.run P (filewatch.watch.init P) cs).add P d e1).2 d p2 h2
    e2 he2 g2
  rw [filewatch.fw_add_fst, filewatch.fw_add_fst]
  refine ⟨hne, ?_, ?_⟩
  · rw [t2, fw_find_emplace_ne _ _ _ _ hne, t1, fw_find_emplace_self _ _ _ f2]
  · rw [t2, fw_find_emplace_self _ _ _ g2]

/-- Two adds of one directory in the callback-driven back end: two ids and two commands; and the
two commands, applied to a registry that holds neither id, give two entries. -/
theorem fs_two_adds (P : platform) (v : fsevent.watch) (d : wstring) (s1 s2 : Bool)
    (hcap : (v.m_gentask : Int) + 2 ≤ (P.taskid_max : Int)) :
    (v.add P d s1).1 = v.m_gentask + 1
    ∧ ((v.add P d s1).2.add P d s2).1 = v.m_gentask + 2
    ∧ ((v.add P d s1).2.add P d s2).2.m_apc_queue
        = v.m_apc_queue ++ [⟨fsevent.apc_type.Add, v.m_gentask + 1, d⟩,
            ⟨fsevent.apc_type.Add, v.m_gentask + 2, d⟩] := by
  have hlt1 : (v.m_gentask : Int) < (P.taskid_max : Int) := by linarith
  have hlt2 : (v.m_gentask : Int) + 1 < (P.taskid_max : Int) := by linarith
  have i1 : P.incr v.m_gentask = v.m_gentask + 1 := by simp [platform.incr, hlt1]
  have i2 : P.incr (v.m_gentask + 1) = v.m_gentask + 2 := by
    have : v.m_gentask + 1 + 1 = v.m_gentask + 2 := by ring
    simp [platform.incr, hlt2, this]
  have a1 : (v.add P d s1).1 = v.m_gentask + 1 := by rw [fsevent.fs_add_fst, i1]
  have g1 : (v.add P d s1).2.m_gentask = v.m_gentask + 1 := by rw [fsevent.fs_add_gentask, i1]
  have a2 : ((v.add P d s1).2.add P d s2).1 = v.m_gentask + 2 := by
    rw [fsevent.fs_add_fst, g1, i2]
  refine ⟨a1, a2, ?_⟩
  have q : ∀ (u : fsevent.watch) (s : Bool),
      (u.add P d s).2.m_apc_queue
        = u.m_apc_queue ++ [⟨fsevent.apc_type.Add, P.incr u.m_gentask, d⟩] := by
    intro u s
    by_cases h : u.m_thread.isSome = true <;>
      simp [fsevent.watch.add, fsevent.watch.thread_init, h, fsevent.watch.thread_signal,
        fsevent.watch.sys]
  rw [q, q, g1, i1, i2, List.append_assoc]
  rfl

theorem fs_two_apc_adds (v : fsevent.watch) (d : wstring) (i1 i2 : taskid)
    (f1 f2 : fsevent.add_env) (q1 q2 : wstring) (g1 g2 : HANDLE) (hne : i1 ≠ i2)
    (hf1 : fsevent.find v.m_tasks i1 = none) (hf2 : fsevent.find v.m_tasks i2 = none)
    (ho1 : f1.opens d q1 g1) (ho2 : f2.opens d q2 g2) :
    fsevent.find ((v.apc_add i1 d f1).apc_add i2 d f2).m_tasks i1
        = some ⟨i1, q1, some g1, f1.buf, f1.bak, if f1.start.read_changes then 1 else 0⟩
    ∧ fsevent.find ((v.apc_add i1 d f1).apc_add i2 d f2).m_tasks i2
        = some ⟨i2, q2, some g2, f2.buf, f2.bak, if f2.start.read_changes then 1 else 0⟩
    ∧ ∀ k : taskid, k ≠ i1 → k ≠ i2 →
        fsevent.find ((v.apc_add i1 d f1).apc_add i2 d f2).m_tasks k = fsevent.find v.m_tasks k := by
  have r1 := fs_apc_add_registers v i1 d q1 g1 f1 ho1 hf1
  have hne2 : i2 ≠ i1 := fun e => hne e.symm
  have hf2' : fsevent.find (v.apc_add i1 d f1).m_tasks i2 = none := by
    rw [r1, fs_find_assign, if_neg hne2, fs_find_insert_ne _ _ _ _ hne2]
    exact hf2
  have r2 := fs_apc_add_registers (v.apc_add i1 d f1) i2 d q2 g2 f2 ho2 hf2'
  refine ⟨?_, ?_, ?_⟩
  · rw [r2, fs_find_assign, if_neg hne, fs_find_insert_ne _ _ _ _ hne, r1, fs_find_assign,
      if_pos rfl, fs_find_insert_self _ _ _ hf1]
    rfl
  · rw [r2, fs_find_assign, if_pos rfl, fs_find_insert_self _ _ _ hf2']
    rfl
  · intro k hk1 hk2
    rw [r2, fs_find_assign, if_neg hk2, fs_find_insert_ne _ _ _ _ hk2, r1, fs_find_assign,
      if_neg hk1, fs_find_insert_ne _ _ _ _ hk1]

/-- What `apc_remove` does to the registry of the poll-driven back end. -/
theorem fw_apc_remove_frame (w : filewatch.watch) (id : taskid) :
    (∀ k : taskid, filewatch.find (w.apc_remove id).m_tasks k
        = if k = id then (filewatch.find w.m_tasks id).map (fun t => { t with m_directory := none })
          else filewatch.find w.m_tasks k)
    ∧ (w.apc_remove id).m_tasks.map Prod.fst = w.m_tasks.map Prod.fst
    ∧ (w.apc_remove id).m_notify = w.m_notify
    ∧ (filewatch.find w.m_tasks id = none → w.apc_remove id = w) := by
  refine ⟨?_, fw_apc_remove_keys w id, ?_, ?_⟩
  · intro k
    unfold filewatch.watch.apc_remove
    cases hf : filewatch.find w.m_tasks id with
    | none =>
      by_cases hk : k = id
      · simp [hk, hf]
      · simp [hk]
    | some t =>
      simp only [fw_find_assign, hf, fw_cancel_eq, Option.map_some']
  · unfold filewatch.watch.apc_remove
    split <;> rfl
  · intro hf
    simp [filewatch.watch.apc_remove, hf]

/-- What `apc_remove` does to the registry of the callback-driven back end. -/
theorem fs_apc_remove_frame (w : fsevent.watch) (id : taskid) :
    (∀ k : taskid, fsevent.find (w.apc_remove id).m_tasks k
        = if k = id then (fsevent.find w.m_tasks id).map (fun t => { t with m_directory := none })
          else fsevent.find w.m_tasks k)
    ∧ (w.apc_remove id).m_tasks.map Prod.fst = w.m_tasks.map Prod.fst
    ∧ (w.apc_remove id).m_notify = w.m_notify
    ∧ (fsevent.find w.m_tasks id = none → w.apc_remove id = w) := by
  refine ⟨?_, ?_, fsevent.fs_apc_remove_notify w id, ?_⟩
  · intro k
    unfold fsevent.watch.apc_remove
    cases hf : fsevent.find w.m_tasks id with
    | none =>
      by_cases hk : k = id
      · simp [hk, hf]
      · simp [hk]
    | some t =>
      simp only [fs_find_assign, hf, fs_cancel_eq, Option.map_some']
  · unfold fsevent.watch.apc_remove
    split
    · exact fs_assign_keys _ _ _
    · rfl
  · intro hf
    simp [fsevent.watch.apc_remove, hf]

/-! ## The host-name test -/

theorem first_not_of_none (set : List Char) (l : List Char) (i : Nat) :
    net.first_not_of set l i = none ↔ ∀ c ∈ l, c ∈ set := by
  induction l generalizing i with
  | nil => simp [net.first_not_of]
  | cons x rest ih =>
    by_cases hx : x ∈ set
    · simp [net.first_not_of, hx, ih]
    · simp [net.first_not_of, hx]

theorem last_of_some (c : Char) (l : List Char) (i j : Nat)
    (h : net.last_of c l i = some j) :
    ∃ pre post, l = pre ++ c :: post ∧ j = i + pre.length := by
  induction l generalizing i j with
  | nil => simp [net.last_of] at h
  | cons x rest ih =>
    simp only [net.last_of] at h
    cases hr : net.last_of c rest (i + 1) with
    | some k =>
      rw [hr] at h
      obtain ⟨pre, post, h1, h2⟩ := ih (i + 1) k hr
      refine ⟨x :: pre, post, by simp [h1], ?_⟩
      simp only [Option.some.injEq] at h
      simp only [List.length_cons]
      omega
    | none =>
      rw [hr] at h
      by_cases hx : x = c
      · simp only [hx, if_true, Option.some.injEq] at h
        exact ⟨[], rest, by simp [hx], by simp [h]⟩
      · simp [hx] at h

theorem find_first_not_of_at_colon (ip : List Char) (last : Nat)
    (h : net.find_last_of ip ':' = some last) :
    net.find_first_not_of ip "0123456789." last = some last := by
  obtain ⟨pre, post, h1, h2⟩ := last_of_some ':' ip 0 last h
  have h3 : last = pre.length := by omega
  subst h3
  subst h1
  simp only [net.find_first_not_of, List.drop_left, net.first_not_of]
  rw [if_neg (by decide)]

theorem needsnolookup_eq (ip : List Char) :
    net.needsnolookup ip = true ↔
      ((∀ c ∈ ip, c ∈ "0123456789.".toList)
        ∨ (∀ c ∈ ip, c ∈ "0123456789abcdefABCDEF:".toList)) := by
  unfold net.needsnolookup
  cases h1 : net.find_first_not_of ip "0123456789." 0 with
  | none =>
    simp only [net.find_first_not_of, List.drop_zero, first_not_of_none] at h1
    simp only [true_iff]
    exact Or.inl h1
  | some p1 =>
    have n1 : ¬ (∀ c ∈ ip, c ∈ "0123456789.".toList) := by
      intro hall
      have := (first_not_of_none "0123456789.".toList ip 0).2 hall
      simp only [net.find_first_not_of, List.drop_zero] at h1
      rw [this] at h1
      exact absurd h1 (by simp)
    cases h2 : net.find_first_not_of ip "0123456789abcdefABCDEF:" 0 with
    | none =>
      simp only [net.find_first_not_of, List.drop_zero, first_not_of_none] at h2
      simp only [true_iff]
      exact Or.inr h2
    | some p2 =>
      have n2 : ¬ (∀ c ∈ ip, c ∈ "0123456789abcdefABCDEF:".toList) := by
        intro hall
        have := (first_not_of_none "0123456789abcdefABCDEF:".toList ip 0).2 hall
        simp only [net.find_first_not_of, List.drop_zero] at h2
        rw [this] at h2
        exact absurd h2 (by simp)
      have hf : (if ip.get? p2 ≠ some '.' then false
          else
            match net.find_last_of ip ':' with
            | none => false
            | some last =>
              match net.find_first_not_of ip "0123456789." last with
              | none => true
              | some _ => false) = false := by
        split
        · rfl
        · cases h3 : net.find_last_of ip ':' with
          | none => rfl
          | some last =>
            simp only [find_first_not_of_at_colon ip last h3]
      simp only [hf]
      constructor
      · intro h
        exact absurd h (by simp)
      · intro h
        rcases h with h | h
        · exact absurd h n1
        · exact absurd h n2

/-- C24.  `needsnolookup(ip)` returns true exactly when every character of `ip` is in
`"0123456789."` or every character of `ip` is in `"0123456789abcdefABCDEF:"`; the empty string is
such a string.  Every other string gives false, among them every string with a `':'` that has a
`'.'` somewhere behind it, such as the IPv4-mapped literal `::ffff:1.2.3.4`: the last search
starts at the last `':'` itself and stops there.  `endpoint::from_hostname` passes
`AI_NUMERICHOST` exactly when `needsnolookup` returns true. -/
theorem needsnolookup_iff (ip : List Char) :
    (net.needsnolookup ip = true ↔
      ((∀ c ∈ ip, c ∈ "0123456789.".toList)
        ∨ (∀ c ∈ ip, c ∈ "0123456789abcdefABCDEF:".toList)))
    ∧ (net.needsnolookup ip = false ↔
      ¬ ((∀ c ∈ ip, c ∈ "0123456789.".toList)
        ∨ (∀ c ∈ ip, c ∈ "0123456789abcdefABCDEF:".toList)))
    ∧ net.needsnolookup [] = true
    ∧ (∀ pre suf : List Char, '.' ∈ suf → net.needsnolookup (pre ++ ':' :: suf) = false)
    ∧ net.needsnolookup "::ffff:1.2.3.4".toList = false
    ∧ (net.from_hostname_flags ip = net.AI_NUMERICHOST ↔ net.needsnolookup ip = true) := by
  have key : ∀ pre suf : List Char, '.' ∈ suf →
      net.needsnolookup (pre ++ ':' :: suf) = false := by
    intro pre suf hdot
    rw [← Bool.not_eq_true, needsnolookup_eq]
    intro h
    rcases h with h | h
    · exact absurd (h ':' (by simp)) (by decide)
    · exact absurd (h '.' (by simp [hdot])) (by decide)
  refine ⟨needsnolookup_eq ip, ?_, ?_, key, ?_, ?_⟩
  · rw [← needsnolookup_eq, Bool.not_eq_true]
  · exact (needsnolookup_eq []).2 (Or.inl (by simp))
  · exact key "::ffff".toList "1.2.3.4".toList (by decide)
  · unfold net.from_hostname_flags
    cases net.needsnolookup ip <;> simp [net.AI_NUMERICHOST]

/-! ## Termination of the worker of the callback-driven back end -/

theorem fs_idle_apc_loop (env : taskid → fsevent.add_env) (q : List fsevent.apc_arg)
    (w : fsevent.watch) (h1 : w.m_tasks = []) (h2 : w.m_terminate = false)
    (hq : ∀ a ∈ q, a.m_type ≠ fsevent.apc_type.Add)
    (hw : ∀ a ∈ w.m_apc_queue, a.m_type ≠ fsevent.apc_type.Add) :
    (fsevent.apc_loop env q w).m_tasks = [] ∧ (fsevent.apc_loop env q w).m_terminate = false
      ∧ (fsevent.apc_loop env q w).worker = w.worker
      ∧ ∀ a ∈ (fsevent.apc_loop env q w).m_apc_queue, a.m_type ≠ fsevent.apc_type.Add := by
  induction q generalizing w with
  | nil => exact ⟨h1, h2, rfl, hw⟩
  | cons arg rest ih =>
    have hrest : ∀ a ∈ rest, a.m_type ≠ fsevent.apc_type.Add :=
      fun a ha => hq a (List.mem_cons_of_mem _ ha)
    have harg := hq arg (List.mem_cons_self _ _)
    simp only [fsevent.apc_loop]
    cases ht : arg.m_type with
    | Add => exact absurd ht harg
    | Remove =>
      simp only
      have e : fsevent.watch.apc_remove { w with m_apc_queue := rest } arg.m_id
          = { w with m_apc_queue := rest } := by
        simp [fsevent.watch.apc_remove, fsevent.find, h1]
      rw [e]
      exact ih { w with m_apc_queue := rest } h1 h2 hrest hrest
    | Terminate =>
      simp only
      have e : fsevent.watch.apc_terminate { w with m_apc_queue := rest }
          = { w with m_apc_queue := rest } := by
        simp [fsevent.watch.apc_terminate, h1]
      rw [e]
      exact ⟨h1, h2, rfl, hrest⟩

theorem fs_idle_work (P : platform) (w : fsevent.watch) (ev : fsevent.worker_event)
    (h1 : w.m_tasks = []) (h2 : w.m_terminate = false)
    (hw : ∀ a ∈ w.m_apc_queue, a.m_type ≠ fsevent.apc_type.Add) :
    (w.work P ev).m_tasks = [] ∧ (w.work P ev).m_terminate = false
      ∧ (w.work P ev).worker = w.worker
      ∧ ∀ a ∈ (w.work P ev).m_apc_queue, a.m_type ≠ fsevent.apc_type.Add := by
  cases ev with
  | apc env =>
    simp only [fsevent.watch.work]
    split
    · exact ⟨h1, h2, rfl, hw⟩
    · exact fs_idle_apc_loop env w.m_apc_queue { w with apc_pending := w.apc_pending - 1 }
        h1 h2 hw hw
  | changes id c =>
    have e : w.fwtask_changes_cb P id c = w := by
      simp [fsevent.watch.fwtask_changes_cb, fsevent.find, h1]
    simp only [fsevent.watch.work]
    rw [e]
    exact ⟨h1, h2, rfl, hw⟩

theorem fs_idle_batch (P : platform) (batch : List fsevent.worker_event) (w : fsevent.watch)
    (h1 : w.m_tasks = []) (h2 : w.m_terminate = false)
    (hw : ∀ a ∈ w.m_apc_queue, a.m_type ≠ fsevent.apc_type.Add) :
    (batch.foldl (fsevent.watch.work P) w).m_tasks = []
      ∧ (batch.foldl (fsevent.watch.work P) w).m_terminate = false
      ∧ (batch.foldl (fsevent.watch.work P) w).worker = w.worker
      ∧ ∀ a ∈ (batch.foldl (fsevent.watch.work P) w).m_apc_queue,
          a.m_type ≠ fsevent.apc_type.Add := by
  induction batch generalizing w with
  | nil => exact ⟨h1, h2, rfl, hw⟩
  | cons ev rest ih =>
    obtain ⟨g1, g2, g3, g4⟩ := fs_idle_work P w ev h1 h2 hw
    obtain ⟨k1, k2, k3, k4⟩ := ih (w.work P ev) g1 g2 g4
    simp only [List.foldl_cons]
    exact ⟨k1, k2, k3.trans g3, k4⟩

theorem fs_idle_thread_cb (P : platform) (sched : List (List fsevent.worker_event))
    (w : fsevent.watch) (h1 : w.m_tasks = []) (h2 : w.m_terminate = false)
    (hw : ∀ a ∈ w.m_apc_queue, a.m_type ≠ fsevent.apc_type.Add) :
    (fsevent.thread_cb P sched w).worker = w.worker
      ∧ (fsevent.thread_cb P sched w).m_terminate = false
      ∧ (fsevent.thread_cb P sched w).m_tasks = [] := by
  induction sched generalizing w with
  | nil => simp [fsevent.thread_cb, fsevent.watch.loop_condition, h1, h2]
  | cons batch rest ih =>
    obtain ⟨g1, g2, g3, g4⟩ := fs_idle_batch P batch w h1 h2 hw
    simp only [fsevent.thread_cb, fsevent.watch.loop_condition, h2, Bool.not_false,
      Bool.true_or, if_true]
    obtain ⟨k1, k2, k3⟩ := ih _ g1 g2 g4
    exact ⟨k1.trans g3, k2, k3⟩

theorem fs_cancel_each_handles (m : List (taskid × fsevent.task)) :
    ∀ kv ∈ (fsevent.cancel_each m).1, kv.2.m_directory = none := by
  induction m with
  | nil => simp [fsevent.cancel_each]
  | cons kv rest ih =>
    intro x hx
    simp only [fsevent.cancel_each, List.mem_cons] at hx
    rcases hx with hx | hx
    · rw [hx]
      exact fs_cancel_handle kv.2
    · exact ih x hx

/-- C21.  In the callback-driven back end `watch::apc_terminate` returns before it sets
`m_terminate` when no task is registered (the poll-driven `apc_terminate` sets the flag first).
For a service `w` without tasks whose worker runs: applying `Terminate` changes nothing, the flag
stays false, the loop condition of `thread_cb` stays true, and `stop()` does not return whatever
the worker is made to run.  With at least one task registered (`v`), `apc_terminate` sets the
flag and invalidates every handle, and once the flag is set and the registry is empty the loop
condition is false. -/
theorem terminate_without_tasks (P : platform) (w : fsevent.watch)
    (sched : List (List fsevent.worker_event))
    (h1 : w.m_tasks = []) (h2 : w.m_terminate = false) (h3 : w.m_thread = some ⟨true⟩)
    (h4 : w.worker = true)
    (h5 : ∀ a ∈ w.m_apc_queue, a.m_type ≠ fsevent.apc_type.Add) :
    w.apc_terminate = w
    ∧ w.apc_terminate.m_terminate = false
    ∧ w.apc_terminate.loop_condition = true
    ∧ (w.stop P true sched).1 = false
    ∧ (w.stop P true sched).2.m_terminate = false
    ∧ (∀ v : fsevent.watch, v.m_tasks ≠ [] →
        v.apc_terminate.m_terminate = true
        ∧ ∀ kv ∈ v.apc_terminate.m_tasks, kv.2.m_directory = none)
    ∧ (∀ v : fsevent.watch, v.m_terminate = true → v.m_tasks = [] →
        v.loop_condition = false) := by
  have e : w.apc_terminate = w := by simp [fsevent.watch.apc_terminate, h1]
  have hq : ∀ a ∈ w.m_apc_queue ++ [(⟨fsevent.apc_type.Terminate, 0, []⟩ : fsevent.apc_arg)],
      a.m_type ≠ fsevent.apc_type.Add := by
    intro a ha
    rcases List.mem_append.1 ha with ha | ha
    · exact h5 a ha
    · rw [List.mem_singleton.1 ha]
      decide
  obtain ⟨g1, g2, _⟩ := fs_idle_thread_cb P sched
    (fsevent.watch.thread_signal
      { w with m_apc_queue := w.m_apc_queue ++ [(⟨fsevent.apc_type.Terminate, 0, []⟩ :
        fsevent.apc_arg)] } true).2 h1 h2 hq
  have g3 : (fsevent.thread_cb P sched
      (fsevent.watch.thread_signal
        { w with m_apc_queue := w.m_apc_queue ++ [(⟨fsevent.apc_type.Terminate, 0, []⟩ :
          fsevent.apc_arg)] } true).2).worker = true := by
    rw [g1]
    exact h4
  have hst : (w.stop P true sched).1 = false ∧ (w.stop P true sched).2.m_terminate = false := by
    simp only [fsevent.watch.stop, h3, fsevent.watch.worker_run, fsevent.watch.thread_signal,
      fsevent.watch.sys, h4, if_true] at g2 g3 ⊢
    simp [g2, g3]
  refine ⟨e, ?_, ?_, hst.1, hst.2, ?_, ?_⟩
  · rw [e]
    exact h2
  · rw [e]
    simp [fsevent.watch.loop_condition, h2]
  · intro v hv
    have hne : v.m_tasks.isEmpty = false := by
      cases hm : v.m_tasks with
      | nil => exact absurd hm hv
      | cons a b => rfl
    simp only [fsevent.watch.apc_terminate, hne]
    exact ⟨rfl, fs_cancel_each_handles v.m_tasks⟩
  · intro v hv1 hv2
    simp [fsevent.watch.loop_condition, hv1, hv2]

/-- Witness for C21: after `add` of a directory that cannot be opened no task is registered,
and `stop()` does not return although the worker runs the queued callback. -/
theorem terminate_without_tasks_witness :
    fsevent.no_task.m_tasks = []
    ∧ (fsevent.no_task.stop example_platform true
        [[fsevent.worker_event.apc fsevent.example_env], []]).1 = false :=
  ⟨by decide,
   (terminate_without_tasks example_platform fsevent.no_task
      [[fsevent.worker_event.apc fsevent.example_env], []]
      (by decide) (by decide) (by decide) (by decide) (by decide)).2.2.2.1⟩

/-! ## At most one read outstanding per task -/

theorem lookup_mem {β : Type} (m : List (taskid × β)) (id : taskid) (t : β)
    (h : m.lookup id = some t) : (id, t) ∈ m := by
  induction m with
  | nil => simp at h
  | cons kv rest ih =>
    obtain ⟨k, v⟩ := kv
    by_cases hk : id = k
    · subst hk
      simp only [List.lookup_cons, beq_self_eq_true, Option.some.injEq] at h
      subst h
      exact List.mem_cons_self _ _
    · have hb : (id == k) = false := by simpa using hk
      simp only [List.lookup_cons, hb] at h
      exact List.mem_cons_of_mem _ (ih h)

namespace filewatch

theorem fw_start_pending (t : task) (w : watch) (e : start_env) :
    (t.start w e).2.1.pending = t.pending + (if (t.start w e).1 then 1 else 0)
    ∧ (t.start w e).2.2.m_tasks = w.m_tasks := by
  cases hd : t.m_directory <;> cases hr : e.read_changes <;> cases hs : e.reset_event <;>
    simp [task.start, hd, hr, hs, push_notify, watch.sys]

theorem fw_event_cb_pending (P : platform) (t : task) (w : watch) (err n : DWORD)
    (e : start_env) : (t.event_cb P w err n e).2.1.pending ≤ t.pending + 1 := by
  unfold task.event_cb
  split
  · exact Nat.le_succ _
  · split
    · exact Nat.le_succ _
    · have h := (fw_start_pending
        { t with m_bakbuffer := memcpy n t.m_bakbuffer t.m_buffer }
        ({ (w.check (decide (kNameOffset + kWcharSize ≤ n))).check (decide (n ≤ kBufSize)) with
            out_of_bounds :=
              ((w.check (decide (kNameOffset + kWcharSize ≤ n))).check
                (decide (n ≤ kBufSize))).out_of_bounds || decide (kBufSize < n) }) e).1
      simp only
      rw [h]
      split <;> simp

theorem fw_update_pending (P : platform) (t : task) (w : watch) (e : poll_env)
    (h : t.pending ≤ 1) : (t.update P w e).2.1.pending ≤ 1 := by
  unfold task.update
  split
  · exact h
  · have h2 := fw_event_cb_pending P
      { t with m_buffer := memcpy e.data.length t.m_buffer e.data, pending := t.pending - 1 }
      w e.last_error e.bytes e.start
    simp only at h2 ⊢
    omega

theorem fw_update_each_single (P : platform) (env : taskid → poll_env)
    (m : List (taskid × task)) :
    ∀ w : watch, single_read m → single_read (update_each P env m w).1 := by
  induction m with
  | nil =>
    intro w _ kv hkv
    simp [update_each] at hkv
  | cons a rest ih =>
    intro w hm
    have ha : a.2.pending ≤ 1 := hm a (List.mem_cons_self _ _)
    have hrest : single_read rest := fun kv hkv => hm kv (List.mem_cons_of_mem _ hkv)
    simp only [update_each]
    split
    · intro kv hkv
      simp only [List.mem_cons] at hkv
      rcases hkv with hkv | hkv
      · rw [hkv]
        exact fw_update_pending P a.2 w (env a.1) ha
      · exact ih _ hrest kv hkv
    · exact ih _ hrest

theorem fw_emplace_single (m : List (taskid × task)) (id : taskid) (t : task)
    (hm : single_read m) (ht : t.pending ≤ 1) : single_read (emplace m id t) := by
  induction m with
  | nil =>
    intro kv hkv
    simp only [emplace, List.mem_singleton] at hkv
    rw [hkv]
    exact ht
  | cons a rest ih =>
    have ha : a.2.pending ≤ 1 := hm a (List.mem_cons_self _ _)
    have hrest : single_read rest := fun kv hkv => hm kv (List.mem_cons_of_mem _ hkv)
    simp only [emplace]
    split
    · intro kv hkv
      simp only [List.mem_cons] at hkv
      rcases hkv with hkv | hkv | hkv
      · rw [hkv]; exact ht
      · rw [hkv]; exact ha
      · exact hrest kv hkv
    · split
      · exact hm
      · intro kv hkv
        simp only [List.mem_cons] at hkv
        rcases hkv with hkv | hkv
        · rw [hkv]; exact ha
        · exact ih hrest kv hkv

theorem fw_assign_single (m : List (taskid × task)) (id : taskid) (t : task)
    (hm : single_read m) (ht : t.pending ≤ 1) : single_read (assign m id t) := by
  intro kv hkv
  simp only [assign, List.mem_map] at hkv
  obtain ⟨a, ha, e⟩ := hkv
  split at e
  · rw [← e]; exact ht
  · rw [← e]; exact hm a ha

theorem fw_cancel_pending (t : task) : t.cancel.1.pending = t.pending := by
  cases h : t.m_directory <;> simp [task.cancel, h]

theorem fw_cancel_each_single (m : List (taskid × task)) (hm : single_read m) :
    single_read (cancel_each m).1 := by
  induction m with
  | nil =>
    intro kv hkv
    simp [cancel_each] at hkv
  | cons a rest ih =>
    have ha : a.2.pending ≤ 1 := hm a (List.mem_cons_self _ _)
    have hrest : single_read rest := fun kv hkv => hm kv (List.mem_cons_of_mem _ hkv)
    intro kv hkv
    simp only [cancel_each, List.mem_cons] at hkv
    rcases hkv with hkv | hkv
    · rw [hkv]
      simp only [fw_cancel_pending]
      exact ha
    · exact ih hrest kv hkv

theorem fw_open_pending (t : task) (w : watch) (path : wstring) (e : open_env) :
    (t.open w path e).2.1.pending = t.pending ∧ (t.open w path e).2.2.m_tasks = w.m_tasks := by
  unfold task.open
  split
  · exact ⟨rfl, rfl⟩
  · split
    · exact ⟨rfl, rfl⟩
    · split <;> exact ⟨rfl, rfl⟩

theorem fw_apc_add_single (w : watch) (id : taskid) (path : wstring) (e : add_env)
    (hw : single_read w.m_tasks) : single_read (w.apc_add id path e).m_tasks := by
  have ho := fw_open_pending (task.create id e.buf e.bak) w path e.opening
  have hs := fw_start_pending ((task.create id e.buf e.bak).open w path e.opening).2.1
    ((task.create id e.buf e.bak).open w path e.opening).2.2 e.start
  simp only [watch.apc_add]
  split
  · simp only [task.destroy, watch.check]
    rw [ho.2]
    exact hw
  · split
    · simp only [task.destroy, watch.check]
      rw [hs.2, ho.2]
      exact hw
    · split
      · simp only [task.destroy, watch.check]
        rw [hs.2, ho.2]
        exact hw
      · simp only
        refine fw_emplace_single _ _ _ ?_ ?_
        · rw [hs.2, ho.2]
          exact hw
        · rw [hs.1, ho.1]
          simp only [task.create]
          split <;> simp

theorem fw_apc_remove_single (w : watch) (id : taskid) (hw : single_read w.m_tasks) :
    single_read (w.apc_remove id).m_tasks := by
  unfold watch.apc_remove
  split
  · rename_i t ht
    simp only
    refine fw_assign_single _ _ _ hw ?_
    rw [fw_cancel_pending]
    exact hw (id, t) (lookup_mem _ _ _ ht)
  · exact hw

theorem fw_apc_terminate_single (w : watch) (hw : single_read w.m_tasks) :
    single_read w.apc_terminate.m_tasks := by
  simp only [watch.apc_terminate]
  split
  · exact hw
  · exact fw_cancel_each_single _ hw

theorem fw_step_single (P : platform) (w : watch) (c : call) (hw : single_read w.m_tasks) :
    single_read (step P w c).m_tasks := by
  cases c with
  | add path e =>
    simp only [step, watch.add, push_notify]
    exact fw_apc_add_single _ _ _ _ hw
  | remove id => exact fw_apc_remove_single w id hw
  | stop =>
    simp only [step, watch.stop, push_notify]
    exact fw_apc_terminate_single w hw
  | select env =>
    have h := fw_update_each_single P env w.m_tasks w hw
    simp only [step, watch.select, watch.update]
    split <;> exact h

theorem fw_run_single (P : platform) (cs : List call) :
    ∀ w : watch, single_read w.m_tasks → single_read (run P w cs).m_tasks := by
  induction cs with
  | nil => intro w hw; exact hw
  | cons c cs ih =>
    intro w hw
    simp only [run, List.foldl_cons]
    exact ih _ (fw_step_single P w c hw)

end filewatch

namespace fsevent

theorem fs_single_of_eq (w v : watch) (h : v.m_tasks = w.m_tasks)
    (hw : single_read w.m_tasks) : single_read v.m_tasks := by
  rw [h]
  exact hw

theorem fs_start_pending (t : task) (w : watch) (e : start_env) :
    (t.start w e).2.1.pending = t.pending + (if (t.start w e).1 then 1 else 0)
    ∧ (t.start w e).2.2.m_tasks = w.m_tasks := by
  cases hd : t.m_directory <;> cases hr : e.read_changes <;>
    simp [task.start, hd, hr, push_notify, watch.sys, watch.check]

theorem fs_erase_single (m : List (taskid × task)) (id : taskid) (hm : single_read m) :
    single_read (erase m id) := by
  intro kv hkv
  exact hm kv (List.mem_of_mem_filter hkv)

theorem fs_removetask_single (w : watch) (t : task) (hw : single_read w.m_tasks) :
    single_read (w.removetask t).m_tasks := by
  unfold watch.removetask
  split
  · exact fs_erase_single _ _ hw
  · exact hw

theorem fs_changes_cb_single (P : platform) (t : task) (w : watch) (err n : DWORD)
    (e : start_env) (hw : single_read w.m_tasks) :
    single_read (t.changes_cb P w err n e).2.m_tasks
    ∧ (t.changes_cb P w err n e).1.pending ≤ t.pending + 1 := by
  unfold task.changes_cb
  split
  · exact ⟨fs_removetask_single w t hw, Nat.le_succ _⟩
  · split
    · exact ⟨hw, Nat.le_succ _⟩
    · have h := fs_start_pending
        { t with m_bakbuffer := memcpy n t.m_bakbuffer t.m_buffer }
        ({ (w.check (decide (kNameOffset + kWcharSize ≤ n))).check (decide (n ≤ kBufSize)) with
            out_of_bounds :=
              ((w.check (decide (kNameOffset + kWcharSize ≤ n))).check
                (decide (n ≤ kBufSize))).out_of_bounds || decide (kBufSize < n) }) e
      simp only
      rw [h.1, h.2]
      refine ⟨hw, ?_⟩
      split <;> simp

theorem fs_assign_single (m : List (taskid × task)) (id : taskid) (t : task)
    (hm : single_read m) (ht : t.pending ≤ 1) : single_read (assign m id t) := by
  intro kv hkv
  simp only [assign, List.mem_map] at hkv
  obtain ⟨a, ha, e⟩ := hkv
  split at e
  · rw [← e]; exact ht
  · rw [← e]; exact hm a ha

theorem fs_insert_single (m : List (taskid × task)) (id : taskid) (t : task)
    (hm : single_read m) (ht : t.pending ≤ 1) : single_read (insert m id t) := by
  induction m with
  | nil =>
    intro kv hkv
    simp only [insert, List.mem_singleton] at hkv
    rw [hkv]
    exact ht
  | cons a rest ih =>
    have ha : a.2.pending ≤ 1 := hm a (List.mem_cons_self _ _)
    have hrest : single_read rest := fun kv hkv => hm kv (List.mem_cons_of_mem _ hkv)
    simp only [insert]
    split
    · intro kv hkv
      simp only [List.mem_cons] at hkv
      rcases hkv with hkv | hkv | hkv
      · rw [hkv]; exact ht
      · rw [hkv]; exact ha
      · exact hrest kv hkv
    · split
      · exact hm
      · intro kv hkv
        simp only [List.mem_cons] at hkv
        rcases hkv with hkv | hkv
        · rw [hkv]; exact ha
        · exact ih hrest kv hkv

theorem fs_cancel_pending (t : task) : t.cancel.1.pending = t.pending := by
  cases h : t.m_directory <;> simp [task.cancel, h]

theorem fs_cancel_each_single (m : List (taskid × task)) (hm : single_read m) :
    single_read (cancel_each m).1 := by
  induction m with
  | nil =>
    intro kv hkv
    simp [cancel_each] at hkv
  | cons a rest ih =>
    have ha : a.2.pending ≤ 1 := hm a (List.mem_cons_self _ _)
    have hrest : single_read rest := fun kv hkv => hm kv (List.mem_cons_of_mem _ hkv)
    intro kv hkv
    simp only [cancel_each, List.mem_cons] at hkv
    rcases hkv with hkv | hkv
    · rw [hkv]
      simp only [fs_cancel_pending]
      exact ha
    · exact ih hrest kv hkv

theorem fs_open_pending (t : task) (w : watch) (path : wstring) (e : open_env) :
    (t.open w path e).2.1.pending = t.pending ∧ (t.open w path e).2.2.m_tasks = w.m_tasks := by
  unfold task.open
  split
  · exact ⟨rfl, rfl⟩
  · split
    · exact ⟨rfl, rfl⟩
    · split <;> exact ⟨rfl, rfl⟩

theorem fs_apc_add_single (w : watch) (id : taskid) (path : wstring) (e : add_env)
    (hw : single_read w.m_tasks) : single_read (w.apc_add id path e).m_tasks := by
  have ho := fs_open_pending (task.create id e.buf e.bak) w path e.opening
  have hs := fs_start_pending ((task.create id e.buf e.bak).open w path e.opening).2.1
    { ((task.create id e.buf e.bak).open w path e.opening).2.2 with
      m_tasks := insert ((task.create id e.buf e.bak).open w path e.opening).2.2.m_tasks id
        ((task.create id e.buf e.bak).open w path e.opening).2.1 } e.start
  have hi : single_read (insert ((task.create id e.buf e.bak).open w path e.opening).2.2.m_tasks
      id ((task.create id e.buf e.bak).open w path e.opening).2.1) := by
    refine fs_insert_single _ _ _ ?_ ?_
    · rw [ho.2]
      exact hw
    · rw [ho.1]
      simp [task.create]
  simp only [watch.apc_add]
  split
  · simp only [task.destroy, watch.check]
    rw [ho.2]
    exact hw
  · split
    · simp only
      refine fs_assign_single _ _ _ ?_ ?_
      · rw [hs.2]
        exact hi
      · rw [hs.1, ho.1]
        simp only [task.create]
        split <;> simp
    · simp only [task.destroy, watch.check]
      rw [hs.2]
      exact hi

theorem fs_apc_remove_single (w : watch) (id : taskid) (hw : single_read w.m_tasks) :
    single_read (w.apc_remove id).m_tasks := by
  unfold watch.apc_remove
  split
  · rename_i t ht
    simp only
    refine fs_assign_single _ _ _ hw ?_
    rw [fs_cancel_pending]
    exact hw (id, t) (lookup_mem _ _ _ ht)
  · exact hw

theorem fs_apc_terminate_single (w : watch) (hw : single_read w.m_tasks) :
    single_read w.apc_terminate.m_tasks := by
  simp only [watch.apc_terminate]
  split
  · exact hw
  · exact fs_cancel_each_single _ hw

theorem fs_apc_loop_single (env : taskid → add_env) (q : List apc_arg) :
    ∀ w : watch, single_read w.m_tasks → single_read (apc_loop env q w).m_tasks := by
  induction q with
  | nil => intro w hw; exact hw
  | cons arg rest ih =>
    intro w hw
    simp only [apc_loop]
    split
    · exact ih _ (fs_apc_add_single _ _ _ _ hw)
    · exact ih _ (fs_apc_remove_single _ _ hw)
    · exact fs_apc_terminate_single _ hw

theorem fs_fwtask_single (P : platform) (w : watch) (id : taskid) (c : completion)
    (hw : single_read w.m_tasks) : single_read (w.fwtask_changes_cb P id c).m_tasks := by
  simp only [watch.fwtask_changes_cb]
  split
  · exact hw
  · rename_i t ht
    have htp : t.pending ≤ 1 := hw (id, t) (lookup_mem _ _ _ ht)
    split
    · exact hw
    · have h1 : single_read (assign w.m_tasks id
          { t with m_buffer := memcpy c.data.length t.m_buffer c.data,
                   pending := t.pending - 1 }) := by
        refine fs_assign_single _ _ _ hw ?_
        simp only
        omega
      have h2 := fs_changes_cb_single P
        { t with m_buffer := memcpy c.data.length t.m_buffer c.data, pending := t.pending - 1 }
        { w with
          m_tasks := assign w.m_tasks id
                      { t with m_buffer := memcpy c.data.length t.m_buffer c.data,
                               pending := t.pending - 1 } }
        c.error c.bytes c.start h1
      simp only
      refine fs_assign_single _ _ _ h2.1 ?_
      have h3 := h2.2
      simp only at h3
      omega

theorem fs_work_single (P : platform) (w : watch) (ev : worker_event)
    (hw : single_read w.m_tasks) : single_read (w.work P ev).m_tasks := by
  cases ev with
  | apc env =>
    simp only [watch.work]
    split
    · exact hw
    · exact fs_apc_loop_single env _ _ hw
  | changes id c => exact fs_fwtask_single P w id c hw

theorem fs_batch_single (P : platform) (batch : List worker_event) :
    ∀ w : watch, single_read w.m_tasks →
      single_read (batch.foldl (watch.work P) w).m_tasks := by
  induction batch with
  | nil => intro w hw; exact hw
  | cons ev rest ih => intro w hw; exact ih _ (fs_work_single P w ev hw)

theorem fs_thread_cb_single (P : platform) (sched : List (List worker_event)) :
    ∀ w : watch, single_read w.m_tasks → single_read (thread_cb P sched w).m_tasks := by
  induction sched with
  | nil => intro w hw; simp only [thread_cb]; split <;> exact hw
  | cons batch rest ih =>
    intro w hw
    simp only [thread_cb]
    split
    · exact ih _ (fs_batch_single P batch w hw)
    · exact hw

theorem fs_worker_run_single (P : platform) (w : watch) (sched : List (List worker_event))
    (hw : single_read w.m_tasks) : single_read (w.worker_run P sched).m_tasks := by
  unfold watch.worker_run
  split
  · exact fs_thread_cb_single P sched w hw
  · exact hw

theorem fs_stop_single (P : platform) (w : watch) (ok : Bool)
    (sched : List (List worker_event)) (hw : single_read w.m_tasks) :
    single_read (w.stop P ok sched).2.m_tasks := by
  simp only [watch.stop]
  split
  · exact hw
  · split
    · exact hw
    · split
      · exact hw
      · have h2 := fs_worker_run_single P
          (({ w with m_apc_queue := w.m_apc_queue ++ [⟨apc_type.Terminate, 0, []⟩] } :
            watch).thread_signal ok).2 sched hw
        split
        · exact h2
        · exact h2

theorem fs_step_single (P : platform) (w : watch) (c : call) (hw : single_read w.m_tasks) :
    single_read (step P w c).m_tasks := by
  cases c with
  | add path ok =>
    refine fs_single_of_eq w _ ?_ hw
    by_cases h : w.m_thread.isSome = true <;>
      simp [step, watch.add, watch.thread_init, h, watch.thread_signal, watch.sys]
  | remove id ok =>
    refine fs_single_of_eq w _ ?_ hw
    simp only [step, watch.remove]
    split <;> rfl
  | stop ok sched => exact fs_stop_single P w ok sched hw
  | select =>
    refine fs_single_of_eq w _ ?_ hw
    simp only [step, watch.select]
    split <;> rfl
  | worker sched => exact fs_worker_run_single P w sched hw

theorem fs_run_single (P : platform) (cs : List call) :
    ∀ w : watch, single_read w.m_tasks → single_read (run P w cs).m_tasks := by
  induction cs with
  | nil => intro w hw; exact hw
  | cons c cs ih =>
    intro w hw
    simp only [run]
    split
    · exact ih _ (fs_step_single P w c hw)
    · exact fs_step_single P w c hw

end fsevent

/-- C23.  In every state that a service of either back end reaches from its constructor through
`add`, `remove`, `stop`, `select`, the application of control commands and the handling of
completions, no registered task has more than one asynchronous read outstanding.  A task is
made with no read outstanding and `open` arms none, so `apc_add` starts a task without a read;
`task::start` arms at most one read; and the completion handlers (`update`, `fwtask_changes_cb`)
hand a task with one read less to `event_cb` and `changes_cb`, whose `start` is the only other
call of `start`. -/
theorem one_read_outstanding (P : platform) :
    (∀ cs : List filewatch.call,
      ∀ kv ∈ (filewatch.run P (filewatch.watch.init P) cs).m_tasks, kv.2.pending ≤ 1)
    ∧ (∀ cs : List fsevent.call,
      ∀ kv ∈ (fsevent.run P (fsevent.watch.init P) cs).m_tasks, kv.2.pending ≤ 1)
    ∧ (∀ (id : taskid) (buf bak : List Nat) (w : filewatch.watch) (d : wstring) (e : open_env),
        ((filewatch.task.create id buf bak).open w d e).2.1.pending = 0)
    ∧ (∀ (id : taskid) (buf bak : List Nat) (w : fsevent.watch) (d : wstring) (e : open_env),
        ((fsevent.task.create id buf bak).open w d e).2.1.pending = 0)
    ∧ (∀ (t : filewatch.task) (w : filewatch.watch) (e : start_env),
        (t.start w e).2.1.pending = t.pending + (if (t.start w e).1 then 1 else 0))
    ∧ (∀ (t : fsevent.task) (w : fsevent.watch) (e : start_env),
        (t.start w e).2.1.pending = t.pending + (if (t.start w e).1 then 1 else 0))
    ∧ (∀ (t : filewatch.task) (w : filewatch.watch) (e : filewatch.poll_env),
        t.pending ≤ 1 → (t.update P w e).2.1.pending ≤ 1)
    ∧ (∀ (w : fsevent.watch) (id : taskid) (c : fsevent.completion),
        fsevent.single_read w.m_tasks →
          fsevent.single_read (w.fwtask_changes_cb P id c).m_tasks) := by
  refine ⟨?_, ?_, ?_, ?_, ?_, ?_, ?_, ?_⟩
  · intro cs
    refine filewatch.fw_run_single P cs (filewatch.watch.init P) ?_
    intro kv hkv
    simp [filewatch.watch.init] at hkv
  · intro cs
    refine fsevent.fs_run_single P cs (fsevent.watch.init P) ?_
    intro kv hkv
    simp [fsevent.watch.init] at hkv
  · intro id buf bak w d e
    rw [(filewatch.fw_open_pending _ w d e).1]
    rfl
  · intro id buf bak w d e
    rw [(fsevent.fs_open_pending _ w d e).1]
    rfl
  · intro t w e
    exact (filewatch.fw_start_pending t w e).1
  · intro t w e
    exact (fsevent.fs_start_pending t w e).1
  · intro t w e h
    exact filewatch.fw_update_pending P t w e h
  · intro w id c h
    exact fsevent.fs_fwtask_single P w id c h

/-- Witness for C23: in the example runs of both back ends, which register, cancel and
terminate tasks, the tasks left in the registry have at most one read outstanding, and the task
of a poll-driven service with one directory has exactly one. -/
theorem one_read_outstanding_witness :
    (∀ kv ∈ (filewatch.run example_platform (filewatch.watch.init example_platform)
        filewatch.example_calls).m_tasks, kv.2.pending ≤ 1)
    ∧ (∀ kv ∈ (fsevent.run example_platform (fsevent.watch.init example_platform)
        fsevent.zero_byte_calls).m_tasks, kv.2.pending ≤ 1)
    ∧ filewatch.one_task.m_tasks.map (fun kv => kv.2.pending) = [1]
    ∧ fsevent.two_tasks.m_tasks.map (fun kv => kv.2.pending) = [1, 1] :=
  ⟨(one_read_outstanding example_platform).1 filewatch.example_calls,
   (one_read_outstanding example_platform).2.1 fsevent.zero_byte_calls,
   by decide, by decide⟩

/-! ## The order of effects in the completion handlers -/

theorem fs_racing_effect (P : platform) (t : fsevent.task) (w : fsevent.watch) (n : DWORD)
    (e : start_env) (late : List Nat) (hn : n ≠ 0) :
    (t.changes_cb_racing P w 0 n e late).1.m_bakbuffer = memcpy n t.m_bakbuffer t.m_buffer
    ∧ (t.changes_cb_racing P w 0 n e late).2.os_trace
        = w.os_trace ++ (match t.m_directory with
            | some h => [oscall.ReadDirectoryChangesW h]
            | none => [])
    ∧ (t.changes_cb_racing P w 0 n e late).1.pending
        = t.pending + (if t.m_directory.isSome && e.read_changes then 1 else 0)
    ∧ (t.changes_cb_racing P w 0 n e late).2 = (t.changes_cb P w 0 n e).2
    ∧ (t.changes_cb_racing P w 0 n e late).1
        = { (t.changes_cb P w 0 n e).1 with
            m_buffer := (t.changes_cb_racing P w 0 n e late).1.m_buffer }
    ∧ t.changes_cb_racing P w 0 n e [] = t.changes_cb P w 0 n e := by
  have h0 : ¬ ((0 : DWORD) = ERROR_OPERATION_ABORTED) := by decide
  unfold fsevent.task.changes_cb_racing fsevent.task.changes_cb
  cases hd : t.m_directory <;> cases hr : e.read_changes <;>
    simp [fsevent.task.start, hd, hr, fsevent.push_notify, fsevent.watch.sys,
      fsevent.watch.check, memcpy, h0, hn]

theorem fw_racing_effect (P : platform) (t : filewatch.task) (w : filewatch.watch) (n : DWORD)
    (e : start_env) (late : List Nat) (hn : n ≠ 0) :
    (t.event_cb_racing P w 0 n e late).2.1.m_bakbuffer = memcpy n t.m_bakbuffer t.m_buffer
    ∧ (t.event_cb_racing P w 0 n e late).2.2.os_trace
        = w.os_trace ++ (match t.m_directory with
            | some h =>
              if e.reset_event then
                (if e.read_changes then [oscall.ReadDirectoryChangesW h]
                 else [oscall.ReadDirectoryChangesW h, oscall.CloseHandle h])
              else []
            | none => [])
    ∧ (t.event_cb_racing P w 0 n e late).2.1.pending
        = t.pending + (if t.m_directory.isSome && e.reset_event && e.read_changes then 1 else 0)
    ∧ (t.event_cb_racing P w 0 n e late).2.2 = (t.event_cb P w 0 n e).2.2
    ∧ (t.event_cb_racing P w 0 n e late).2.1
        = { (t.event_cb P w 0 n e).2.1 with
            m_buffer := (t.event_cb_racing P w 0 n e late).2.1.m_buffer }
    ∧ (t.event_cb_racing P w 0 n e late).1 = true
    ∧ t.event_cb_racing P w 0 n e [] = t.event_cb P w 0 n e := by
  unfold filewatch.task.event_cb_racing filewatch.task.event_cb
  cases hd : t.m_directory <;> cases hr : e.read_changes <;> cases hs : e.reset_event <;>
    simp [filewatch.task.start, hd, hr, hs, filewatch.push_notify, filewatch.watch.sys,
      filewatch.watch.check, memcpy, hn]

/-- C22, refuted as stated: a completion without error and with 14 bytes (one record) whose
re-armed read `ReadDirectoryChangesW` rejects.  In both back ends the handler arms no read (the
task is left with none outstanding, in the poll-driven back end with its handle closed), and the
Error notification of `start()` is in the queue before the notification of the record. -/
theorem handler_arms_no_read :
    ((fsevent.example_task one_record []).changes_cb example_platform
        (fsevent.watch.init example_platform) 0 14 arms_not).1.pending = 0
    ∧ ((fsevent.example_task one_record []).changes_cb example_platform
        (fsevent.watch.init example_platform) 0 14 arms_not).2.m_notify.map (fun x => x.m_type)
      = [tasktype.Error, tasktype.Create]
    ∧ ((filewatch.example_task one_record []).event_cb example_platform
        (filewatch.watch.init example_platform) 0 14 arms_not).2.1.pending = 0
    ∧ ((filewatch.example_task one_record []).event_cb example_platform
        (filewatch.watch.init example_platform) 0 14 arms_not).2.1.m_directory = none
    ∧ ((filewatch.example_task one_record []).event_cb example_platform
        (filewatch.watch.init example_platform) 0 14 arms_not).2.2.m_notify.map
          (fun x => x.m_type)
      = [tasktype.Error, tasktype.Rename] := by
  refine ⟨by decide, by decide, by decide, by decide, by decide⟩

/-- C22, as the code has it: on a completion without error and with `n > 0` bytes the handler
of each back end copies the first `n` bytes of the primary buffer into the secondary buffer,
then calls `task::start` once, and only then decodes.  `start` makes at most one request for a
new read into the primary buffer, and one read more is outstanding exactly when the request was
made and accepted (callback-driven: the handle is valid and `ReadDirectoryChangesW` accepts;
poll-driven: also `ResetEvent` succeeds; a rejected request closes the handle there).  The queue
receives first the Error notification of a failed `start`, if any, and then the notifications of
the records, which are decoded from the secondary buffer alone: whatever the new read stores in
the primary buffer after the copy (`late`, `other`), the secondary buffer is the copy made before
and the service is left in the same state, with the same notifications. -/
theorem handler_order (P : platform) (ts : fsevent.task) (ws : fsevent.watch)
    (tf : filewatch.task) (wf : filewatch.watch) (n : DWORD) (e : start_env)
    (late other : List Nat) (hn : 0 < n) :
    ((ts.changes_cb_racing P ws 0 n e late).1.m_bakbuffer = memcpy n ts.m_bakbuffer ts.m_buffer
      ∧ (ts.changes_cb_racing P ws 0 n e late).2.os_trace
          = ws.os_trace ++ (match ts.m_directory with
              | some h => [oscall.ReadDirectoryChangesW h]
              | none => [])
      ∧ (ts.changes_cb_racing P ws 0 n e late).1.pending
          = ts.pending + (if ts.m_directory.isSome && e.read_changes then 1 else 0)
      ∧ (ts.changes_cb_racing P ws 0 n e late).2.m_notify
          = ws.m_notify ++ (if ts.m_directory.isSome && e.read_changes then []
              else [⟨tasktype.Error, L "`ReadDirectoryChangesW` failed: " ++ e.message⟩])
            ++ (record_loop P fsevent.action_type ts.m_path
                  (memcpy n ts.m_bakbuffer ts.m_buffer) (kBufSize + 1) 0).notes
      ∧ (ts.changes_cb_racing P ws 0 n e late).2 = (ts.changes_cb_racing P ws 0 n e other).2
      ∧ ts.changes_cb_racing P ws 0 n e [] = ts.changes_cb P ws 0 n e)
    ∧ ((tf.event_cb_racing P wf 0 n e late).2.1.m_bakbuffer
          = memcpy n tf.m_bakbuffer tf.m_buffer
      ∧ (tf.event_cb_racing P wf 0 n e late).2.2.os_trace
          = wf.os_trace ++ (match tf.m_directory with
              | some h =>
                if e.reset_event then
                  (if e.read_changes then [oscall.ReadDirectoryChangesW h]
                   else [oscall.ReadDirectoryChangesW h, oscall.CloseHandle h])
                else []
              | none => [])
      ∧ (tf.event_cb_racing P wf 0 n e late).2.1.pending
          = tf.pending
            + (if tf.m_directory.isSome && e.reset_event && e.read_changes then 1 else 0)
      ∧ (tf.event_cb_racing P wf 0 n e late).2.2.m_notify
          = wf.m_notify ++ (if tf.m_directory.isSome && e.reset_event && !e.read_changes then
              [⟨tasktype.Error, e.message⟩] else [])
            ++ (record_loop P filewatch.action_type tf.m_path
                  (memcpy n tf.m_bakbuffer tf.m_buffer) (kBufSize + 1) 0).notes
      ∧ (tf.event_cb_racing P wf 0 n e late).2.2 = (tf.event_cb_racing P wf 0 n e other).2.2
      ∧ tf.event_cb_racing P wf 0 n e [] = tf.event_cb P wf 0 n e)
    ∧ (∀ (dst src : List Nat) (i : Nat),
        byte_at (memcpy n dst src) i = if i < n then byte_at src i else byte_at dst i) := by
  have hn0 : n ≠ 0 := Nat.pos_iff_ne_zero.1 hn
  obtain ⟨a1, a2, a3, a4, _, a6⟩ := fs_racing_effect P ts ws n e late hn0
  obtain ⟨_, _, _, a4o, _, _⟩ := fs_racing_effect P ts ws n e other hn0
  obtain ⟨b1, b2, b3, b4, _, _, b7⟩ := fw_racing_effect P tf wf n e late hn0
  obtain ⟨_, _, _, b4o, _, _, _⟩ := fw_racing_effect P tf wf n e other hn0
  refine ⟨⟨a1, a2, a3, ?_, ?_, a6⟩, ⟨b1, b2, b3, ?_, ?_, b7⟩, byte_at_memcpy n⟩
  · rw [a4]
    exact (fs_changes_cb_decode P ts ws 0 n e (by decide) hn0).1
  · rw [a4, a4o]
  · rw [b4]
    exact (fw_event_cb_decode P tf wf n e hn0).2.1
  · rw [b4, b4o]

/-- C22, at an example: a completion with 14 bytes (file `a` added), the re-armed read accepted.
While the handlers decode, the new read stores two other records in the primary buffer; the
queues hold the notification of the record that was copied, and nothing else. -/
theorem handler_order_witness :
    (0 : DWORD) < 14
    ∧ ((fsevent.example_task one_record []).changes_cb_racing example_platform
        (fsevent.watch.init example_platform) 0 14 arms two_records).2.m_notify
      = [⟨tasktype.Create, [100, 92, 97]⟩]
    ∧ ((fsevent.example_task one_record []).changes_cb_racing example_platform
        (fsevent.watch.init example_platform) 0 14 arms two_records).1.m_buffer
      = two_records
    ∧ ((filewatch.example_task one_record []).event_cb_racing example_platform
        (filewatch.watch.init example_platform) 0 14 arms two_records).2.2.m_notify
      = [⟨tasktype.Rename, [100, 92, 97]⟩] :=
  ⟨by decide,
   (handler_order example_platform (fsevent.example_task one_record [])
      (fsevent.watch.init example_platform) (filewatch.example_task one_record [])
      (filewatch.watch.init example_platform) 14 arms two_records [] (by decide)).1.2.2.2.1.trans
      (by decide),
   by decide,
   by decide⟩

/-! ## The log of the pushes of the poll-driven back end -/

theorem fw_update_pushed (P : platform) (t : filewatch.task) (w : filewatch.watch)
    (e : filewatch.poll_env) :
    (t.update P w e).2.2.m_notify = w.m_notify ++ t.update_pushed P w e := by
  obtain ⟨new, h⟩ := fw_update_notify P t w e
  unfold filewatch.task.update_pushed
  rw [h, List.drop_left]

theorem fw_update_each_log (P : platform) (env : taskid → filewatch.poll_env)
    (m : List (taskid × filewatch.task)) :
    ∀ w : filewatch.watch,
      (filewatch.update_each P env m w).2.m_notify
        = w.m_notify ++ (filewatch.update_each_log P env m w).map Prod.snd := by
  induction m with
  | nil => intro w; simp [filewatch.update_each, filewatch.update_each_log]
  | cons kv rest ih =>
    obtain ⟨k, t⟩ := kv
    intro w
    have h1 := fw_update_pushed P t w (env k)
    have hm : ((t.update_pushed P w (env k)).map (fun x => (k, x))).map Prod.snd
        = t.update_pushed P w (env k) := by
      rw [List.map_map]
      exact List.map_id _
    simp only [filewatch.update_each, filewatch.update_each_log]
    split
    · rw [ih, h1, List.map_append, hm, List.append_assoc]
    · rw [ih, List.map_append, hm]
      show (t.update P w (env k)).2.2.m_notify ++ _ = _
      rw [h1, List.append_assoc]

theorem fw_update_each_log_keys (P : platform) (env : taskid → filewatch.poll_env)
    (m : List (taskid × filewatch.task)) :
    ∀ w : filewatch.watch, ∀ x ∈ filewatch.update_each_log P env m w, x.1 ∈ m.map Prod.fst := by
  induction m with
  | nil => intro w x hx; simp [filewatch.update_each_log] at hx
  | cons kv rest ih =>
    obtain ⟨k, t⟩ := kv
    intro w x hx
    simp only [filewatch.update_each_log, List.mem_append, List.mem_map] at hx
    simp only [List.map_cons, List.mem_cons]
    rcases hx with ⟨y, _, hy⟩ | hx
    · left
      rw [← hy]
    · right
      split at hx
      · exact ih _ x hx
      · exact ih _ x hx

/-- What `add` pushes: the Error notifications of the new task, if any, and then TaskAdd. -/
theorem fw_step_log_add (P : platform) (w : filewatch.watch) (d : wstring)
    (e : filewatch.add_env) :
    ∃ errs : List notify, (∀ x ∈ errs, x.m_type = tasktype.Error)
      ∧ filewatch.step_log P w (filewatch.call.add d e)
        = errs.map (fun x => (some (P.incr w.m_gentask), x))
          ++ [(none, ⟨tasktype.TaskAdd,
                L "(" ++ filewatch.format_id (P.incr w.m_gentask) ++ L ")" ++ d⟩)] := by
  obtain ⟨errs, he, h⟩ := fw_apc_add_notify { w with m_gentask := P.incr w.m_gentask }
    (P.incr w.m_gentask) d e
  refine ⟨errs, he, ?_⟩
  simp only [filewatch.step_log, h, List.drop_left]

/-- The queue after a call is the queue before it followed by what the call pushed, less what
it popped at the front. -/
theorem fw_step_log_queue (P : platform) (w : filewatch.watch) (c : filewatch.call) :
    (filewatch.step P w c).m_notify
        = (w.m_notify ++ (filewatch.step_log P w c).map Prod.snd).drop (filewatch.step_pops P w c)
    ∧ filewatch.step_pops P w c
        ≤ (w.m_notify ++ (filewatch.step_log P w c).map Prod.snd).length := by
  cases c with
  | add path e =>
    obtain ⟨errs, _, h⟩ := fw_apc_add_notify { w with m_gentask := P.incr w.m_gentask }
      (P.incr w.m_gentask) path e
    have hm : (errs.map (fun x => ((some (P.incr w.m_gentask) : Option taskid), x))).map Prod.snd
        = errs := by
      rw [List.map_map]
      exact List.map_id _
    refine ⟨?_, Nat.zero_le _⟩
    simp only [filewatch.step, filewatch.watch.add, filewatch.push_notify, filewatch.step_log,
      filewatch.step_pops, h, List.drop_left, List.drop_zero, List.map_append, hm,
      List.map_cons, List.map_nil, List.append_assoc]
  | remove id =>
    refine ⟨?_, Nat.zero_le _⟩
    simp only [filewatch.step, filewatch.watch.remove, filewatch.step_log, filewatch.step_pops,
      List.drop_zero, List.map_nil, List.append_nil]
    unfold filewatch.watch.apc_remove
    split <;> rfl
  | stop =>
    refine ⟨?_, Nat.zero_le _⟩
    simp only [filewatch.step, filewatch.watch.stop, filewatch.push_notify, filewatch.step_log,
      filewatch.step_pops, List.drop_zero, List.map_cons, List.map_nil]
    congr 1
    simp only [filewatch.watch.apc_terminate]
    split <;> rfl
  | select env =>
    have h := fw_update_each_log P env w.m_tasks w
    have hm : ((filewatch.update_each_log P env w.m_tasks w).map
        (fun x => ((some x.1 : Option taskid), x.2))).map Prod.snd
        = (filewatch.update_each_log P env w.m_tasks w).map Prod.snd := by
      rw [List.map_map]
      rfl
    simp only [filewatch.step, filewatch.step_log, filewatch.step_pops, hm, ← h]
    cases hq : (filewatch.update_each P env w.m_tasks w).2.m_notify with
    | nil => simp [filewatch.watch.select, filewatch.watch.update, hq]
    | cons n rest => simp [filewatch.watch.select, filewatch.watch.update, hq]

theorem fw_run_log_append (P : platform) (cs later : List filewatch.call) :
    ∀ w : filewatch.watch,
      filewatch.run_log P w (cs ++ later)
        = filewatch.run_log P w cs ++ filewatch.run_log P (filewatch.run P w cs) later := by
  induction cs with
  | nil => intro w; rfl
  | cons c cs ih =>
    intro w
    have hrun : filewatch.run P w (c :: cs) = filewatch.run P (filewatch.step P w c) cs := rfl
    show filewatch.step_log P w c ++ filewatch.run_log P (filewatch.step P w c) (cs ++ later)
      = (filewatch.step_log P w c ++ filewatch.run_log P (filewatch.step P w c) cs)
        ++ filewatch.run_log P (filewatch.run P w (c :: cs)) later
    rw [ih, hrun, List.append_assoc]

/-- Along a run the queue is the old queue followed by the log of the pushes, less the
notifications that were popped: the order of the log is the order of the queue. -/
theorem fw_run_log_queue (P : platform) (cs : List filewatch.call) :
    ∀ w : filewatch.watch,
      (filewatch.run P w cs).m_notify
          = (w.m_notify ++ (filewatch.run_log P w cs).map Prod.snd).drop (filewatch.pops P w cs)
      ∧ filewatch.pops P w cs
          ≤ (w.m_notify ++ (filewatch.run_log P w cs).map Prod.snd).length := by
  induction cs with
  | nil => intro w; simp [filewatch.run, filewatch.run_log, filewatch.pops]
  | cons c cs ih =>
    intro w
    have hrun : filewatch.run P w (c :: cs) = filewatch.run P (filewatch.step P w c) cs := rfl
    obtain ⟨h1, hk1⟩ := fw_step_log_queue P w c
    obtain ⟨h2, hk2⟩ := ih (filewatch.step P w c)
    constructor
    · rw [hrun, h2, h1]
      simp only [filewatch.run_log, filewatch.pops, List.map_append]
      rw [← List.append_assoc w.m_notify, ← List.drop_append_of_le_length hk1, List.drop_drop,
        Nat.add_comm]
    · rw [h1] at hk2
      simp only [filewatch.run_log, filewatch.pops, List.map_append, List.length_append,
        List.length_drop, List.length_map] at hk1 hk2 ⊢
      omega

theorem fw_adds_cons (c : filewatch.call) (cs : List filewatch.call) :
    filewatch.adds (c :: cs) = filewatch.adds [c] + filewatch.adds cs := by
  cases c <;> simp only [filewatch.adds] <;> omega

/-- Along a run that does not exhaust the id type, a notification is pushed only by a task
whose id the counter has reached. -/
theorem fw_run_log_labels (P : platform) (cs : List filewatch.call) :
    ∀ w : filewatch.watch,
      (w.m_gentask : Int) + (filewatch.adds cs : Int) ≤ (P.taskid_max : Int) →
      (∀ k ∈ w.m_tasks.map Prod.fst, (k : Int) ≤ (w.m_gentask : Int)) →
      ∀ x ∈ filewatch.run_log P w cs, ∀ k : taskid, x.1 = some k →
        (k : Int) ≤ (w.m_gentask : Int) + (filewatch.adds cs : Int) := by
  induction cs with
  | nil => intro w _ _ x hx; simp [filewatch.run_log] at hx
  | cons c cs ih =>
    intro w hcap hk x hx k hxk
    have hadd := fw_adds_cons c cs
    rw [hadd] at hcap ⊢
    push_cast at hcap ⊢
    have h0 : (0 : Int) ≤ (filewatch.adds cs : Int) := Int.ofNat_nonneg _
    have h0c : (0 : Int) ≤ (filewatch.adds [c] : Int) := Int.ofNat_nonneg _
    obtain ⟨g1, g2⟩ := fw_run_counter P [c] w (by linarith) hk
    have hrun : filewatch.run P w [c] = filewatch.step P w c := rfl
    rw [hrun] at g1 g2
    simp only [filewatch.run_log, List.mem_append] at hx
    rcases hx with hx | hx
    · cases c with
      | add path e =>
        obtain ⟨errs, _, hl⟩ := fw_step_log_add P w path e
        rw [hl] at hx
        have h1 : filewatch.adds [filewatch.call.add path e] = 1 := rfl
        rw [h1] at hcap ⊢
        push_cast at hcap ⊢
        have hlt : (w.m_gentask : Int) < (P.taskid_max : Int) := by linarith
        have hinc : P.incr w.m_gentask = w.m_gentask + 1 := by simp [platform.incr, hlt]
        simp only [List.mem_append, List.mem_map, List.mem_singleton] at hx
        rcases hx with ⟨y, _, hy⟩ | hx
        · rw [← hy] at hxk
          have hk2 : P.incr w.m_gentask = k := Option.some.inj hxk
          rw [← hk2, hinc]
          linarith
        · rw [hx] at hxk
          cases hxk
      | remove id => simp [filewatch.step_log] at hx
      | stop =>
        simp only [filewatch.step_log, List.mem_singleton] at hx
        rw [hx] at hxk
        cases hxk
      | select env =>
        simp only [filewatch.step_log, List.mem_map] at hx
        obtain ⟨y, hy, hyx⟩ := hx
        rw [← hyx] at hxk
        have hk2 : y.1 = k := Option.some.inj hxk
        have := hk y.1 (fw_update_each_log_keys P env _ _ y hy)
        rw [hk2] at this
        linarith
    · have := ih (filewatch.step P w c) (by rw [g1]; linarith) g2 x hx k hxk
      rw [g1] at this
      linarith

/-- C18.  In the poll-driven back end, take any state reached by calls that leave the id type
room for one more id, a call `add(d)` in it, and any calls after it.  The id that `add` returns is
not registered before the call.  The log of the pushes of the whole run, whose order is the order
of the queue (the queue is the log less the notifications popped at its front), is: the log of
the calls before, in which the task with that id has pushed nothing; then what `add` pushes, the
Error notifications of the new task, if any, and, last, TaskAdd with payload `(id)d`; then the log
of the calls after.  So wherever the task with that id has pushed a Modify or Rename
notification, the TaskAdd stands before it.  `add`, `remove` and `stop` push no Modify and no
Rename notification. -/
theorem task_add_precedes (P : platform) (cs : List filewatch.call) (d : wstring)
    (e : filewatch.add_env) (later : List filewatch.call)
    (hcap : (P.kInvalidTaskId : Int) + (filewatch.adds cs : Int) + 1 ≤ (P.taskid_max : Int)) :
    ((filewatch.run P (filewatch.watch.init P) cs).add P d e).1
        = P.kInvalidTaskId + (filewatch.adds cs : Int) + 1
    ∧ filewatch.find (filewatch.run P (filewatch.watch.init P) cs).m_tasks
        ((filewatch.run P (filewatch.watch.init P) cs).add P d e).1 = none
    ∧ (∃ errs : List notify, (∀ x ∈ errs, x.m_type = tasktype.Error)
        ∧ ((filewatch.run P (filewatch.watch.init P) cs).add P d e).2.m_notify
          = (filewatch.run P (filewatch.watch.init P) cs).m_notify ++ errs
            ++ [⟨tasktype.TaskAdd,
                L "(" ++ filewatch.format_id
                  ((filewatch.run P (filewatch.watch.init P) cs).add P d e).1 ++ L ")" ++ d⟩]
        ∧ filewatch.run_log P (filewatch.watch.init P) (cs ++ filewatch.call.add d e :: later)
          = filewatch.run_log P (filewatch.watch.init P) cs
            ++ errs.map (fun x =>
                (some ((filewatch.run P (filewatch.watch.init P) cs).add P d e).1, x))
            ++ [(none, ⟨tasktype.TaskAdd,
                L "(" ++ filewatch.format_id
                  ((filewatch.run P (filewatch.watch.init P) cs).add P d e).1 ++ L ")" ++ d⟩)]
            ++ filewatch.run_log P ((filewatch.run P (filewatch.watch.init P) cs).add P d e).2
                later)
    ∧ (∀ x ∈ filewatch.run_log P (filewatch.watch.init P) cs,
        x.1 ≠ some ((filewatch.run P (filewatch.watch.init P) cs).add P d e).1)
    ∧ (∀ (pre post : List (Option taskid × notify)) (x : notify),
        filewatch.run_log P (filewatch.watch.init P) (cs ++ filewatch.call.add d e :: later)
          = pre ++ (some ((filewatch.run P (filewatch.watch.init P) cs).add P d e).1, x) :: post →
        x.m_type = tasktype.Modify ∨ x.m_type = tasktype.Rename →
        (none, (⟨tasktype.TaskAdd,
            L "(" ++ filewatch.format_id
              ((filewatch.run P (filewatch.watch.init P) cs).add P d e).1 ++ L ")" ++ d⟩ :
            notify)) ∈ pre)
    ∧ ((filewatch.run P (filewatch.watch.init P) (cs ++ filewatch.call.add d e :: later)).m_notify
          = ((filewatch.run_log P (filewatch.watch.init P)
                (cs ++ filewatch.call.add d e :: later)).map Prod.snd).drop
              (filewatch.pops P (filewatch.watch.init P) (cs ++ filewatch.call.add d e :: later))
        ∧ filewatch.pops P (filewatch.watch.init P) (cs ++ filewatch.call.add d e :: later)
          ≤ (filewatch.run_log P (filewatch.watch.init P)
                (cs ++ filewatch.call.add d e :: later)).length)
    ∧ (∀ (v : filewatch.watch) (c : filewatch.call), (∀ env, c ≠ filewatch.call.select env) →
        ∀ x ∈ filewatch.step_log P v c, x.2.m_type = tasktype.Error
          ∨ x.2.m_type = tasktype.TaskAdd ∨ x.2.m_type = tasktype.TaskTerminate)
    ∧ (∀ (v : filewatch.watch) (id : taskid), (v.remove id).2.m_notify = v.m_notify)
    ∧ (∀ v : filewatch.watch, v.stop.m_notify = v.m_notify ++ [⟨tasktype.TaskTerminate, L ""⟩]) := by
  obtain ⟨f1, f2⟩ := fw_next_id_fresh P cs hcap
  have hid : ((filewatch.run P (filewatch.watch.init P) cs).add P d e).1
      = P.incr (filewatch.run P (filewatch.watch.init P) cs).m_gentask := filewatch.fw_add_fst _ _ _ _
  obtain ⟨errs, he, hl⟩ := fw_step_log_add P (filewatch.run P (filewatch.watch.init P) cs) d e
  have hq : ((filewatch.run P (filewatch.watch.init P) cs).add P d e).2.m_notify
      = (filewatch.run P (filewatch.watch.init P) cs).m_notify ++ errs
        ++ [⟨tasktype.TaskAdd,
            L "(" ++ filewatch.format_id
              ((filewatch.run P (filewatch.watch.init P) cs).add P d e).1 ++ L ")" ++ d⟩] := by
    have h1 := (fw_step_log_queue P (filewatch.run P (filewatch.watch.init P) cs)
      (filewatch.call.add d e)).1
    rw [hl] at h1
    have hm : (errs.map (fun x => ((some (P.incr
        (filewatch.run P (filewatch.watch.init P) cs).m_gentask) : Option taskid), x))).map
          Prod.snd = errs := by
      rw [List.map_map]
      exact List.map_id _
    simp only [filewatch.step_pops, List.drop_zero, List.map_append, hm, List.map_cons,
      List.map_nil, filewatch.step] at h1
    rw [h1, hid]
    exact (List.append_assoc _ _ _).symm
  have hlog : filewatch.run_log P (filewatch.watch.init P)
      (cs ++ filewatch.call.add d e :: later)
      = filewatch.run_log P (filewatch.watch.init P) cs
        ++ errs.map (fun x =>
            (some ((filewatch.run P (filewatch.watch.init P) cs).add P d e).1, x))
        ++ [(none, ⟨tasktype.TaskAdd,
            L "(" ++ filewatch.format_id
              ((filewatch.run P (filewatch.watch.init P) cs).add P d e).1 ++ L ")" ++ d⟩)]
        ++ filewatch.run_log P ((filewatch.run P (filewatch.watch.init P) cs).add P d e).2
            later := by
    rw [fw_run_log_append, hid]
    show _ ++ (filewatch.step_log P _ (filewatch.call.add d e) ++ _) = _
    rw [hl]
    simp only [List.append_assoc, filewatch.step]
  have hbefore : ∀ x ∈ filewatch.run_log P (filewatch.watch.init P) cs,
      x.1 ≠ some ((filewatch.run P (filewatch.watch.init P) cs).add P d e).1 := by
    intro x hx hxe
    have h0 : ∀ k ∈ (filewatch.watch.init P).m_tasks.map Prod.fst,
        (k : Int) ≤ ((filewatch.watch.init P).m_gentask : Int) := by
      intro k hk
      simp [filewatch.watch.init] at hk
    have hc0 : ((filewatch.watch.init P).m_gentask : Int) + (filewatch.adds cs : Int)
        ≤ (P.taskid_max : Int) := by
      show (P.kInvalidTaskId : Int) + (filewatch.adds cs : Int) ≤ (P.taskid_max : Int)
      linarith
    have := fw_run_log_labels P cs _ hc0 h0 x hx _ hxe
    rw [hid, f1] at this
    have h2 : ((filewatch.watch.init P).m_gentask : Int) = (P.kInvalidTaskId : Int) := rfl
    rw [h2] at this
    linarith
  refine ⟨by rw [hid]; exact f1, by rw [hid]; exact f2, ⟨errs, he, hq, hlog⟩, hbefore, ?_, ?_,
    ?_, ?_, ?_⟩
  · intro pre post x hsplit hkind
    rw [hlog, List.append_assoc, List.append_eq_append_iff] at hsplit
    rcases hsplit with ⟨a, ha, hb⟩ | ⟨c, hc, hd⟩
    · cases a with
      | nil =>
        simp only [List.nil_append, List.singleton_append, List.cons.injEq] at hb
        have := congrArg Prod.fst hb.1
        cases this
      | cons y ys =>
        simp only [List.cons_append, List.singleton_append, List.cons.injEq] at hb
        rw [ha, hb.1]
        simp
    · cases c with
      | nil =>
        simp only [List.nil_append, List.singleton_append, List.cons.injEq] at hd
        have := congrArg Prod.fst hd.1
        cases this
      | cons y ys =>
        simp only [List.cons_append, List.cons.injEq] at hd
        have hmem : ((some ((filewatch.run P (filewatch.watch.init P) cs).add P d e).1, x) :
            Option taskid × notify) ∈ filewatch.run_log P (filewatch.watch.init P) cs
              ++ errs.map (fun x =>
                (some ((filewatch.run P (filewatch.watch.init P) cs).add P d e).1, x)) := by
          rw [hc, hd.1]
          simp
        rw [List.mem_append] at hmem
        rcases hmem with hmem | hmem
        · exact absurd rfl (hbefore _ hmem)
        · simp only [List.mem_map] at hmem
          obtain ⟨z, hz, hzx⟩ := hmem
          have hzx2 : z = x := congrArg Prod.snd hzx
          have := he z hz
          rw [hzx2] at this
          rcases hkind with hk | hk <;> rw [hk] at this <;> cases this
  · have h := fw_run_log_queue P (cs ++ filewatch.call.add d e :: later) (filewatch.watch.init P)
    have h2 : (filewatch.watch.init P).m_notify = [] := rfl
    rw [h2] at h
    simp only [List.nil_append, List.length_map] at h
    exact h
  · intro v c hc x hx
    cases c with
    | add path env =>
      obtain ⟨errs2, he2, hl2⟩ := fw_step_log_add P v path env
      rw [hl2] at hx
      simp only [List.mem_append, List.mem_map, List.mem_singleton] at hx
      rcases hx with ⟨y, hy, hyx⟩ | hx
      · rw [← hyx]
        exact Or.inl (he2 y hy)
      · rw [hx]
        exact Or.inr (Or.inl rfl)
    | remove id => simp [filewatch.step_log] at hx
    | stop =>
      simp only [filewatch.step_log, List.mem_singleton] at hx
      rw [hx]
      exact Or.inr (Or.inr rfl)
    | select env => exact absurd rfl (hc env)
  · intro v id
    show (v.apc_remove id).m_notify = v.m_notify
    unfold filewatch.watch.apc_remove
    split <;> rfl
  · intro v
    simp only [filewatch.watch.stop, filewatch.push_notify]
    congr 1
    simp only [filewatch.watch.apc_terminate]
    split <;> rfl

/-- C18, at an example: the first `add` on a new service returns id 1; at the `select` after it
the read of task 1 has completed with one record.  The log of the run is TaskAdd `(1)d` and then
the Rename of task 1, and the TaskAdd stands before the Rename. -/
theorem task_add_precedes_witness :
    filewatch.run_log example_platform (filewatch.watch.init example_platform)
        ([] ++ filewatch.call.add (L "d") ⟨[], [], opens_as 7, arms⟩
          :: [filewatch.call.select filewatch.completed])
      = [(none, ⟨tasktype.TaskAdd, L "(1)d"⟩), (some 1, ⟨tasktype.Rename, [100, 92, 97]⟩)]
    ∧ ((none, ⟨tasktype.TaskAdd, L "(1)d"⟩) : Option taskid × notify)
        ∈ [((none, ⟨tasktype.TaskAdd, L "(1)d"⟩) : Option taskid × notify)] :=
  ⟨by decide,
   (task_add_precedes example_platform [] (L "d") ⟨[], [], opens_as 7, arms⟩
      [filewatch.call.select filewatch.completed] (by decide)).2.2.2.2.1
      [(none, ⟨tasktype.TaskAdd, L "(1)d"⟩)] [] ⟨tasktype.Rename, [100, 92, 97]⟩ (by decide)
      (Or.inr rfl)⟩

/-! ## The callback-driven service while no `Terminate` was issued -/

namespace fsevent

theorem fs_open_control (t : task) (w : watch) (path : wstring) (e : open_env) :
    (t.open w path e).2.2.control = w.control := by
  unfold task.open
  split
  · rfl
  · split
    · rfl
    · split <;> rfl

theorem fs_start_control (t : task) (w : watch) (e : start_env) :
    (t.start w e).2.2.control = w.control := by
  simp only [task.start]
  split
  · split <;> rfl
  · rfl

theorem fs_removetask_control (w : watch) (t : task) :
    (w.removetask t).control = w.control := by
  unfold watch.removetask
  split <;> rfl

theorem fs_changes_cb_control (P : platform) (t : task) (w : watch) (err n : DWORD)
    (e : start_env) : (t.changes_cb P w err n e).2.control = w.control := by
  unfold task.changes_cb
  split
  · exact fs_removetask_control w t
  · split
    · rfl
    · exact fs_start_control _ _ e

theorem fs_changes_cb_tasks (P : platform) (t : task) (w : watch) (err n : DWORD)
    (e : start_env) :
    (t.changes_cb P w err n e).2.m_tasks = w.m_tasks
      ∨ (t.changes_cb P w err n e).2.m_tasks = erase w.m_tasks t.m_id := by
  unfold task.changes_cb
  split
  · simp only [task.remove, watch.removetask]
    split
    · exact Or.inr rfl
    · exact Or.inl rfl
  · split
    · exact Or.inl rfl
    · left
      exact (fs_start_pending _ _ e).2

theorem fs_apc_add_control (w : watch) (id : taskid) (path : wstring) (e : add_env) :
    (w.apc_add id path e).control = w.control := by
  simp only [watch.apc_add]
  split
  · exact fs_open_control _ w path e.opening
  · split
    · exact (fs_start_control _ _ e.start).trans (fs_open_control _ w path e.opening)
    · exact (fs_start_control _ _ e.start).trans (fs_open_control _ w path e.opening)

theorem fs_apc_remove_control (w : watch) (id : taskid) :
    (w.apc_remove id).control = w.control := by
  unfold watch.apc_remove
  split <;> rfl

theorem fs_changes_control (P : platform) (w : watch) (id : taskid) (c : completion) :
    (w.fwtask_changes_cb P id c).control = w.control := by
  simp only [watch.fwtask_changes_cb]
  split
  · rfl
  · split
    · rfl
    · exact fs_changes_cb_control P _ _ _ _ _

theorem fs_insert_keys (m : List (taskid × task)) (id : taskid) (t : task) :
    ∀ k ∈ (insert m id t).map Prod.fst, k ∈ m.map Prod.fst ∨ k = id := by
  induction m with
  | nil =>
    intro k hk
    simp [insert] at hk
    exact Or.inr hk
  | cons kv rest ih =>
    obtain ⟨a, v⟩ := kv
    intro k hk
    simp only [insert] at hk
    split at hk
    · simp only [List.map_cons, List.mem_cons] at hk ⊢
      rcases hk with hk | hk | hk
      · exact Or.inr hk
      · exact Or.inl (Or.inl hk)
      · exact Or.inl (Or.inr hk)
    · split at hk
      · exact Or.inl hk
      · simp only [List.map_cons, List.mem_cons] at hk ⊢
        rcases hk with hk | hk
        · exact Or.inl (Or.inl hk)
        · rcases ih k hk with h | h
          · exact Or.inl (Or.inr h)
          · exact Or.inr h

theorem fs_erase_keys (m : List (taskid × task)) (id : taskid) :
    ∀ k ∈ (erase m id).map Prod.fst, k ∈ m.map Prod.fst := by
  intro k hk
  simp only [erase, List.mem_map] at hk ⊢
  obtain ⟨a, ha, hak⟩ := hk
  exact ⟨a, List.mem_of_mem_filter ha, hak⟩

theorem fs_apc_add_keys (w : watch) (id : taskid) (path : wstring) (e : add_env) :
    ∀ k ∈ (w.apc_add id path e).m_tasks.map Prod.fst, k ∈ w.m_tasks.map Prod.fst ∨ k = id := by
  have ho := (fs_open_pending (task.create id e.buf e.bak) w path e.opening).2
  have hs := (fs_start_pending ((task.create id e.buf e.bak).open w path e.opening).2.1
    { ((task.create id e.buf e.bak).open w path e.opening).2.2 with
      m_tasks := insert ((task.create id e.buf e.bak).open w path e.opening).2.2.m_tasks id
        ((task.create id e.buf e.bak).open w path e.opening).2.1 } e.start).2
  intro k hk
  simp only [watch.apc_add] at hk
  split at hk
  · left
    simp only [task.destroy, watch.check] at hk
    rw [ho] at hk
    exact hk
  · split at hk
    · simp only [fs_assign_keys] at hk
      rw [hs] at hk
      have := fs_insert_keys _ _ _ k hk
      rw [ho] at this
      exact this
    · simp only [task.destroy, watch.check] at hk
      rw [hs] at hk
      have := fs_insert_keys _ _ _ k hk
      rw [ho] at this
      exact this

theorem fs_changes_keys (P : platform) (w : watch) (id : taskid) (c : completion) :
    ∀ k ∈ (w.fwtask_changes_cb P id c).m_tasks.map Prod.fst, k ∈ w.m_tasks.map Prod.fst := by
  intro k hk
  simp only [watch.fwtask_changes_cb] at hk
  split at hk
  · exact hk
  · rename_i t ht
    split at hk
    · exact hk
    · simp only [fs_assign_keys] at hk
      rcases fs_changes_cb_tasks P
        { t with m_buffer := memcpy c.data.length t.m_buffer c.data, pending := t.pending - 1 }
        { w with
          m_tasks := assign w.m_tasks id
                      { t with m_buffer := memcpy c.data.length t.m_buffer c.data,
                               pending := t.pending - 1 } }
        c.error c.bytes c.start with h | h
      · rw [h] at hk
        simp only [fs_assign_keys] at hk
        exact hk
      · rw [h] at hk
        have := fs_erase_keys _ _ k hk
        simp only [fs_assign_keys] at this
        exact this

/-- A state with the same control members and no new key is live when the old one is. -/
theorem fs_live_of_control (w v : watch) (hc : v.control = w.control)
    (hk : ∀ k ∈ v.m_tasks.map Prod.fst, k ∈ w.m_tasks.map Prod.fst) (hw : w.live) : v.live := by
  simp only [watch.control, Prod.mk.injEq] at hc
  obtain ⟨c1, c2, c3, c4, c5⟩ := hc
  obtain ⟨h1, h2, h3, h4, h5⟩ := hw
  refine ⟨by rw [c1]; exact h1, by rw [c2]; exact h2, by rw [c3, c4]; exact h3, ?_,
    by rw [c2, c5]; exact h5⟩
  intro k hkv
  rw [c5]
  exact h4 k (hk k hkv)

theorem fs_apc_add_live (w : watch) (id : taskid) (path : wstring) (e : add_env)
    (hid : (id : Int) ≤ (w.m_gentask : Int)) (hw : w.live) : (w.apc_add id path e).live := by
  have hc := fs_apc_add_control w id path e
  simp only [watch.control, Prod.mk.injEq] at hc
  obtain ⟨c1, c2, c3, c4, c5⟩ := hc
  obtain ⟨h1, h2, h3, h4, h5⟩ := hw
  refine ⟨by rw [c1]; exact h1, by rw [c2]; exact h2, by rw [c3, c4]; exact h3, ?_,
    by rw [c2, c5]; exact h5⟩
  intro k hkv
  rw [c5]
  rcases fs_apc_add_keys w id path e k hkv with h | h
  · exact h4 k h
  · rw [h]
    exact hid

end fsevent

namespace fsevent

theorem fs_apc_loop_live (env : taskid → add_env) (q : List apc_arg) :
    ∀ w : watch, (∀ a ∈ q, a.m_type ≠ apc_type.Terminate) →
      (∀ a ∈ q, a.m_type = apc_type.Add → (a.m_id : Int) ≤ (w.m_gentask : Int)) →
      w.live → (apc_loop env q w).live := by
  induction q with
  | nil => intro w _ _ hw; exact hw
  | cons arg rest ih =>
    intro w hq1 hq2 hw
    have hr1 : ∀ a ∈ rest, a.m_type ≠ apc_type.Terminate :=
      fun a ha => hq1 a (List.mem_cons_of_mem _ ha)
    have hr2 : ∀ a ∈ rest, a.m_type = apc_type.Add → (a.m_id : Int) ≤ (w.m_gentask : Int) :=
      fun a ha => hq2 a (List.mem_cons_of_mem _ ha)
    have hw1 : ({ w with m_apc_queue := rest } : watch).live :=
      ⟨hw.1, hr1, hw.2.2.1, hw.2.2.2.1, hr2⟩
    simp only [apc_loop]
    cases ht : arg.m_type with
    | Add =>
      simp only
      have hid := hq2 arg (List.mem_cons_self _ _) ht
      refine ih _ hr1 ?_ (fs_apc_add_live _ _ _ _ hid hw1)
      rw [fs_apc_add_gentask]
      exact hr2
    | Remove =>
      simp only
      refine ih _ hr1 ?_ (fs_live_of_control _ _ (fs_apc_remove_control _ _) ?_ hw1)
      · rw [fs_apc_remove_gentask]
        exact hr2
      · intro k hk
        unfold watch.apc_remove at hk
        split at hk
        · simp only [fs_assign_keys] at hk
          exact hk
        · exact hk
    | Terminate => exact absurd ht (hq1 arg (List.mem_cons_self _ _))

theorem fs_work_live (P : platform) (w : watch) (ev : worker_event) (hw : w.live) :
    (w.work P ev).live := by
  cases ev with
  | apc env =>
    simp only [watch.work]
    split
    · exact hw
    · exact fs_apc_loop_live env w.m_apc_queue { w with apc_pending := w.apc_pending - 1 }
        hw.2.1 hw.2.2.2.2 hw
  | changes id c =>
    exact fs_live_of_control w _ (fs_changes_control P w id c) (fs_changes_keys P w id c) hw

theorem fs_batch_live (P : platform) (batch : List worker_event) :
    ∀ w : watch, w.live → (batch.foldl (watch.work P) w).live := by
  induction batch with
  | nil => intro w hw; exact hw
  | cons ev rest ih => intro w hw; exact ih _ (fs_work_live P w ev hw)

theorem fs_thread_cb_live (P : platform) (sched : List (List worker_event)) :
    ∀ w : watch, w.live → (thread_cb P sched w).live := by
  induction sched with
  | nil =>
    intro w hw
    simp only [thread_cb, watch.loop_condition, hw.1, Bool.not_false, Bool.true_or, if_true]
    exact hw
  | cons batch rest ih =>
    intro w hw
    simp only [thread_cb, watch.loop_condition, hw.1, Bool.not_false, Bool.true_or, if_true]
    exact ih _ (fs_batch_live P batch w hw)

theorem fs_worker_run_live (P : platform) (w : watch) (sched : List (List worker_event))
    (hw : w.live) : (w.worker_run P sched).live := by
  unfold watch.worker_run
  split
  · exact fs_thread_cb_live P sched w hw
  · exact hw

theorem fs_add_live (P : platform) (w : watch) (path : wstring) (ok : Bool)
    (hlt : (w.m_gentask : Int) < (P.taskid_max : Int)) (hw : w.live) :
    (w.add P path ok).2.live := by
  have hinc : P.incr w.m_gentask = w.m_gentask + 1 := by simp [platform.incr, hlt]
  obtain ⟨h1, h2, h3, h4, h5⟩ := hw
  have hq : (w.add P path ok).2.m_apc_queue
      = w.m_apc_queue ++ [⟨apc_type.Add, w.m_gentask + 1, path⟩] := by
    by_cases h : w.m_thread.isSome = true <;>
      simp [watch.add, watch.thread_init, h, watch.thread_signal, watch.sys, hinc]
  have hg : (w.add P path ok).2.m_gentask = w.m_gentask + 1 := by
    rw [fs_add_gentask, hinc]
  have ht : (w.add P path ok).2.m_terminate = w.m_terminate := by
    by_cases h : w.m_thread.isSome = true <;>
      simp [watch.add, watch.thread_init, h, watch.thread_signal, watch.sys]
  have hm : (w.add P path ok).2.m_tasks = w.m_tasks := by
    by_cases h : w.m_thread.isSome = true <;>
      simp [watch.add, watch.thread_init, h, watch.thread_signal, watch.sys]
  have hwk : (w.add P path ok).2.worker = true := by
    by_cases h : w.m_thread.isSome = true
    · simp [watch.add, watch.thread_init, h, watch.thread_signal, watch.sys, h3 h]
    · simp [watch.add, watch.thread_init, h, watch.thread_signal, watch.sys]
  refine ⟨by rw [ht]; exact h1, ?_, fun _ => hwk, ?_, ?_⟩
  · intro a ha
    rw [hq, List.mem_append, List.mem_singleton] at ha
    rcases ha with ha | ha
    · exact h2 a ha
    · rw [ha]
      intro hx
      cases hx
  · intro k hk
    rw [hm] at hk
    rw [hg]
    have := h4 k hk
    show (k : Int) ≤ (w.m_gentask : Int) + 1
    linarith
  · intro a ha hty
    rw [hq, List.mem_append, List.mem_singleton] at ha
    rw [hg]
    rcases ha with ha | ha
    · have := h5 a ha hty
      show (a.m_id : Int) ≤ (w.m_gentask : Int) + 1
      linarith
    · rw [ha]

theorem fs_remove_live (w : watch) (id : taskid) (ok : Bool) (hw : w.live) :
    (w.remove id ok).2.live := by
  obtain ⟨h1, h2, h3, h4, h5⟩ := hw
  simp only [watch.remove]
  split
  · exact ⟨h1, h2, h3, h4, h5⟩
  · refine ⟨h1, ?_, h3, h4, ?_⟩
    · intro a ha
      simp only [watch.thread_signal, watch.sys, List.mem_append, List.mem_singleton] at ha
      rcases ha with ha | ha
      · exact h2 a ha
      · rw [ha]
        intro hx
        cases hx
    · intro a ha hty
      simp only [watch.thread_signal, watch.sys, List.mem_append, List.mem_singleton] at ha
      rcases ha with ha | ha
      · exact h5 a ha hty
      · rw [ha] at hty
        cases hty

theorem fs_select_live (w : watch) (hw : w.live) : w.select.2.live := by
  unfold watch.select
  split
  · exact hw
  · exact hw

/-- Along a run without a call of `stop` that does not exhaust the id type the service stays
live and the counter counts the adds. -/
theorem fs_run_live (P : platform) (cs : List call) :
    ∀ w : watch, (∀ c ∈ cs, c.stops = false) →
      (w.m_gentask : Int) + (adds cs : Int) ≤ (P.taskid_max : Int) → w.live →
      (run P w cs).live ∧ ((run P w cs).m_gentask : Int) = (w.m_gentask : Int) + (adds cs : Int) := by
  induction cs with
  | nil => intro w _ _ hw; exact ⟨hw, by simp [run, adds]⟩
  | cons c cs ih =>
    intro w hns hcap hw
    have hrest : ∀ c ∈ cs, c.stops = false := fun x hx => hns x (List.mem_cons_of_mem _ hx)
    have hc := hns c (List.mem_cons_self _ _)
    cases c with
    | add path ok =>
      have ha : adds (call.add path ok :: cs) = adds cs + 1 := rfl
      rw [ha] at hcap ⊢
      push_cast at hcap ⊢
      have h0 : (0 : Int) ≤ (adds cs : Int) := Int.ofNat_nonneg _
      have hlt : (w.m_gentask : Int) < (P.taskid_max : Int) := by linarith
      have hinc : P.incr w.m_gentask = w.m_gentask + 1 := by simp [platform.incr, hlt]
      have hg : ((w.add P path ok).2.m_gentask : Int) = (w.m_gentask : Int) + 1 := by
        rw [fs_add_gentask, hinc]
      obtain ⟨i1, i2⟩ := ih (w.add P path ok).2 hrest (by rw [hg]; linarith)
        (fs_add_live P w path ok hlt hw)
      simp only [run, returns, if_true, step]
      exact ⟨i1, by rw [i2, hg]; ring⟩
    | remove id ok =>
      obtain ⟨i1, i2⟩ := ih (w.remove id ok).2 hrest (by rw [fs_remove_gentask]; exact hcap)
        (fs_remove_live w id ok hw)
      simp only [run, returns, if_true, step]
      exact ⟨i1, by rw [i2, fs_remove_gentask]; rfl⟩
    | stop ok sched => simp [call.stops] at hc
    | select =>
      obtain ⟨i1, i2⟩ := ih w.select.2 hrest (by rw [fs_select_gentask]; exact hcap)
        (fs_select_live w hw)
      simp only [run, returns, if_true, step]
      exact ⟨i1, by rw [i2, fs_select_gentask]; rfl⟩
    | worker sched =>
      obtain ⟨i1, i2⟩ := ih (w.worker_run P sched) hrest
        (by rw [fs_worker_run_gentask]; exact hcap) (fs_worker_run_live P w sched hw)
      simp only [run, returns, if_true, step]
      exact ⟨i1, by rw [i2, fs_worker_run_gentask]; rfl⟩

end fsevent

theorem fs_find_none_of_keys (m : List (taskid × fsevent.task)) (id : taskid)
    (h : id ∉ m.map Prod.fst) : fsevent.find m id = none := by
  induction m with
  | nil => rfl
  | cons kv rest ih =>
    obtain ⟨k, t⟩ := kv
    simp only [List.map_cons, List.mem_cons, not_or] at h
    rw [fs_find_cons, if_neg h.1]
    exact ih h.2

/-- Commands without a `Terminate` among them, applied in order, register no id beyond a bound
that holds for the registry and for the ids of the `Add` commands. -/
theorem fs_apply_commands_keys (env : taskid → fsevent.add_env) (l : List fsevent.apc_arg)
    (b : Int) :
    ∀ v : fsevent.watch, (∀ a ∈ l, a.m_type ≠ fsevent.apc_type.Terminate) →
      (∀ a ∈ l, a.m_type = fsevent.apc_type.Add → (a.m_id : Int) ≤ b) →
      (∀ k ∈ v.m_tasks.map Prod.fst, (k : Int) ≤ b) →
      ∀ k ∈ (l.foldl (fun u a => u.apply_command env a) v).m_tasks.map Prod.fst, (k : Int) ≤ b := by
  induction l with
  | nil => intro v _ _ hv; exact hv
  | cons a rest ih =>
    intro v h1 h2 hv
    rw [List.foldl_cons]
    refine ih _ (fun x hx => h1 x (List.mem_cons_of_mem _ hx))
      (fun x hx => h2 x (List.mem_cons_of_mem _ hx)) ?_
    intro k hk
    unfold fsevent.watch.apply_command at hk
    cases ht : a.m_type with
    | Add =>
      rw [ht] at hk
      rcases fsevent.fs_apc_add_keys v _ _ _ k hk with h | h
      · exact hv k h
      · rw [h]
        exact h2 a (List.mem_cons_self _ _) ht
    | Remove =>
      rw [ht] at hk
      simp only [(fs_apc_remove_frame v a.m_id).2.1] at hk
      exact hv k hk
    | Terminate => exact absurd ht (h1 a (List.mem_cons_self _ _))

theorem fs_add_pending (P : platform) (w : fsevent.watch) (d : wstring) (s : Bool) :
    (w.add P d s).2.apc_pending = w.apc_pending + (if s then 1 else 0)
    ∧ (w.add P d s).2.m_tasks = w.m_tasks := by
  by_cases h : w.m_thread.isSome = true <;> cases s <;>
    simp [fsevent.watch.add, fsevent.watch.thread_init, h, fsevent.watch.thread_signal,
      fsevent.watch.sys]

/-- Two adds of one directory to a live callback-driven service with room for two more ids,
and then the worker running the queued callback: both ids are registered, each with its own
task. -/
theorem fs_two_adds_registered (P : platform) (w : fsevent.watch) (d : wstring) (s1 s2 : Bool)
    (env : taskid → fsevent.add_env) (q1 q2 : wstring) (g1 g2 : HANDLE) (hw : w.live)
    (hcap : (w.m_gentask : Int) + 2 ≤ (P.taskid_max : Int))
    (hsig : s1 = true ∨ s2 = true)
    (ho1 : (env (w.m_gentask + 1)).opens d q1 g1) (ho2 : (env (w.m_gentask + 2)).opens d q2 g2) :
    fsevent.find ((((w.add P d s1).2.add P d s2).2.worker_run P
        [[fsevent.worker_event.apc env]]).m_tasks) (w.m_gentask + 1)
      = some ⟨w.m_gentask + 1, q1, some g1, (env (w.m_gentask + 1)).buf,
          (env (w.m_gentask + 1)).bak,
          if (env (w.m_gentask + 1)).start.read_changes then 1 else 0⟩
    ∧ fsevent.find ((((w.add P d s1).2.add P d s2).2.worker_run P
        [[fsevent.worker_event.apc env]]).m_tasks) (w.m_gentask + 2)
      = some ⟨w.m_gentask + 2, q2, some g2, (env (w.m_gentask + 2)).buf,
          (env (w.m_gentask + 2)).bak,
          if (env (w.m_gentask + 2)).start.read_changes then 1 else 0⟩ := by
  obtain ⟨b1, b2, b3⟩ := fs_two_adds P w d s1 s2 hcap
  have hlt1 : (w.m_gentask : Int) < (P.taskid_max : Int) := by linarith
  have hinc : P.incr w.m_gentask = w.m_gentask + 1 := by simp [platform.incr, hlt1]
  have hg1 : ((w.add P d s1).2.m_gentask : Int) = (w.m_gentask : Int) + 1 := by
    rw [fsevent.fs_add_gentask, hinc]
  have hl1 := fsevent.fs_add_live P w d s1 hlt1 hw
  have hl2 := fsevent.fs_add_live P (w.add P d s1).2 d s2 (by rw [hg1]; linarith) hl1
  have hth := fsevent.fs_add_thread P (w.add P d s1).2 d s2
  have hp : ((w.add P d s1).2.add P d s2).2.apc_pending ≠ 0 := by
    rw [(fs_add_pending P _ d s2).1, (fs_add_pending P w d s1).1]
    rcases hsig with h | h <;> simp [h]
  have hm : ((w.add P d s1).2.add P d s2).2.m_tasks = w.m_tasks := by
    rw [(fs_add_pending P _ d s2).2, (fs_add_pending P w d s1).2]
  generalize ((w.add P d s1).2.add P d s2).2 = wa at b3 hl2 hth hp hm ⊢
  have hworker : wa.worker = true := hl2.2.2.1 hth
  have hterm : wa.m_terminate = false := hl2.1
  have hnt : ∀ a ∈ w.m_apc_queue ++ [(⟨fsevent.apc_type.Add, w.m_gentask + 1, d⟩ :
      fsevent.apc_arg), ⟨fsevent.apc_type.Add, w.m_gentask + 2, d⟩],
      a.m_type ≠ fsevent.apc_type.Terminate := by
    rw [← b3]
    exact hl2.2.1
  obtain ⟨wb, hwb⟩ : ∃ x : fsevent.watch, x = { wa with apc_pending := wa.apc_pending - 1 } :=
    ⟨_, rfl⟩
  have hwbq : wb.m_apc_queue = wa.m_apc_queue := by rw [hwb]
  have hwbm : wb.m_tasks = w.m_tasks := by rw [hwb]; exact hm
  have hrun : (wa.worker_run P [[fsevent.worker_event.apc env]]).m_tasks
      = (fsevent.apc_loop env wa.m_apc_queue wb).m_tasks := by
    rw [hwb]
    simp only [fsevent.watch.worker_run, hworker, if_true, fsevent.thread_cb,
      fsevent.watch.loop_condition, hterm, Bool.not_false, Bool.true_or, List.foldl_cons,
      List.foldl_nil, fsevent.watch.work, if_neg hp, fsevent.watch.apc_cb]
    split <;> rfl
  have hloop := fs_apc_loop_eq env wa.m_apc_queue wb hwbq
  rw [(fs_upto_no_terminate _ hl2.2.1).1] at hloop
  have hT : (fsevent.apc_loop env wa.m_apc_queue wb).m_tasks
      = (wa.m_apc_queue.foldl (fun v a => v.apply_command env a) wb).m_tasks := by
    rw [hloop]
  rw [hrun, hT, b3, List.foldl_append]
  have hX : ∀ k ∈ (w.m_apc_queue.foldl (fun v a => v.apply_command env a) wb).m_tasks.map
      Prod.fst, (k : Int) ≤ (w.m_gentask : Int) := by
    refine fs_apply_commands_keys env w.m_apc_queue _ _ hw.2.1 hw.2.2.2.2 ?_
    intro k hk
    rw [hwbm] at hk
    exact hw.2.2.2.1 k hk
  have hf1 : fsevent.find (w.m_apc_queue.foldl (fun v a => v.apply_command env a) wb).m_tasks
      (w.m_gentask + 1) = none := by
    apply fs_find_none_of_keys
    intro hmem
    have := hX _ hmem
    linarith
  have hf2 : fsevent.find (w.m_apc_queue.foldl (fun v a => v.apply_command env a) wb).m_tasks
      (w.m_gentask + 2) = none := by
    apply fs_find_none_of_keys
    intro hmem
    have := hX _ hmem
    linarith
  have hne : w.m_gentask + 1 ≠ w.m_gentask + 2 := by
    intro h
    have : (w.m_gentask : Int) + 1 = (w.m_gentask : Int) + 2 := h
    linarith
  obtain ⟨r1, r2, _⟩ := fs_two_apc_adds _ d (w.m_gentask + 1) (w.m_gentask + 2)
    (env (w.m_gentask + 1)) (env (w.m_gentask + 2)) q1 q2 g1 g2 hne hf1 hf2 ho1 ho2
  exact ⟨r1, r2⟩

/-! ## Independence of tasks, through the public interface -/

theorem fs_init_live (P : platform) : (fsevent.watch.init P).live := by
  refine ⟨rfl, ?_, ?_, ?_, ?_⟩
  · intro a ha
    simp [fsevent.watch.init] at ha
  · intro h
    simp [fsevent.watch.init] at h
  · intro k hk
    simp [fsevent.watch.init] at hk
  · intro a ha
    simp [fsevent.watch.init] at ha

end bee
